import Mathlib

/-!
# Mesh refinement (Loop subdivision and mesh expansion)

A shallow embedding of `MeshSubdivision.h` / `MeshSubdivision.cpp`, and of the
identifier helpers of `AnchorUtilities.cpp`.

* Scalars (`float` in the source) are elements of a linearly ordered field `α`
  (exact arithmetic); the square root used by `VectorMath::magnitude` is passed
  in as a function.
* `std::vector` is `List`; an out-of-range `operator[]` (undefined behaviour in
  the source) makes the embedded function return `none`.
* `std::map<Edge, T>` is a list of key/value pairs kept in ascending key order
  (the order in which the source iterates over the map).
* `uint32_t` vertex ids are natural numbers; the one place where the source
  narrows a `size_t` to `uint32_t` (the midpoint index taken from
  `newVertices.size()`) is reduced modulo `2 ^ 32`.
* In `AnchorUtilities` a `std::string` is a list of characters, a byte is a
  natural number below 256, and an exception thrown by `std::stol` makes the
  embedded function return `none`.
-/

namespace MeshSubdivision

/-- A 3-component position (`XrVector3f`). -/
structure XrVector3f (α : Type) where
  x : α
  y : α
  z : α
  deriving DecidableEq

namespace VectorMath

variable {α : Type} [LinearOrderedField α]

/-- Component-wise sum (`VectorMath::add`). -/
def add (a b : XrVector3f α) : XrVector3f α :=
  ⟨a.x + b.x, a.y + b.y, a.z + b.z⟩

/-- Component-wise difference (`VectorMath::subtract`). -/
def subtract (a b : XrVector3f α) : XrVector3f α :=
  ⟨a.x - b.x, a.y - b.y, a.z - b.z⟩

/-- Scaling by a scalar (`VectorMath::scalar_multiply`). -/
def scalar_multiply (v : XrVector3f α) (s : α) : XrVector3f α :=
  ⟨v.x * s, v.y * s, v.z * s⟩

/-- Cross product (`VectorMath::cross_product`). -/
def cross_product (a b : XrVector3f α) : XrVector3f α :=
  ⟨a.y * b.z - a.z * b.y, a.z * b.x - a.x * b.z, a.x * b.y - a.y * b.x⟩

/-- Euclidean length (`VectorMath::magnitude`), for a given square root. -/
def magnitude (sqrt : α → α) (v : XrVector3f α) : α :=
  sqrt (v.x * v.x + v.y * v.y + v.z * v.z)

/-- Unit vector, or the zero vector when the length is at most `1e-6`
(`VectorMath::normalize`). -/
def normalize (sqrt : α → α) (v : XrVector3f α) : XrVector3f α :=
  let mag := magnitude sqrt v
  if mag > 1 / 1000000 then scalar_multiply v (1 / mag) else ⟨0, 0, 0⟩

end VectorMath

open VectorMath

/-- An edge as the pair of its endpoint ids (`LoopSubdivision::Edge`). -/
abbrev Edge := Nat × Nat

/-- The strict lexicographic order `std::pair` gives to `Edge` keys. -/
def edgeLess (a b : Edge) : Bool :=
  decide (a.1 < b.1) || (decide (a.1 = b.1) && decide (a.2 < b.2))

/-- Lookup in a `std::map<Edge, β>` (`find`). -/
def mapFind {β : Type} : List (Edge × β) → Edge → Option β
  | [], _ => none
  | (k, v) :: rest, e => if k = e then some v else mapFind rest e

/-- Assignment `m[e] = v` in a `std::map<Edge, β>`: replaces the value of an
existing key, otherwise inserts the pair at its place in key order. -/
def mapInsert {β : Type} : List (Edge × β) → Edge → β → List (Edge × β)
  | [], e, v => [(e, v)]
  | (k, w) :: rest, e, v =>
    if k = e then (k, v) :: rest
    else if edgeLess e k then (e, v) :: (k, w) :: rest
    else (k, w) :: mapInsert rest e v

/-- The statement `adjacency[p].push_back(q)`. -/
def pushAt (adjacency : List (List Nat)) (p q : Nat) : Option (List (List Nat)) :=
  match adjacency[p]? with
  | some l => some (adjacency.set p (l ++ [q]))
  | none => none

/-- The statement `buf[i] = v` on a vector. -/
def setVertex {γ : Type} (buf : List γ) (i : Nat) (v : γ) : Option (List γ) :=
  if i < buf.length then some (buf.set i v) else none

/-- The local variables of `apply_subdivision` that the first pass builds. -/
structure SubdivState (α : Type) where
  newVertices : List (XrVector3f α)
  newIndices : List Nat
  edgeToMidpointIndex : List (Edge × Nat)
  adjacency : List (List Nat)
  edgeToOppositeVertices : List (Edge × List Nat)

section Subdivision

variable {α : Type} [LinearOrderedField α]

/-- The locals of `apply_subdivision` before the first pass. -/
def initState (vertices : List (XrVector3f α)) : SubdivState α :=
  { newVertices := vertices
    newIndices := []
    edgeToMidpointIndex := []
    adjacency := List.replicate vertices.length []
    edgeToOppositeVertices := [] }

/-- One turn of the inner `j` loop of the first pass, for the side `(p0, p1)`
with third vertex `opposite`; returns the new locals and `mid_indices[j]`. -/
def processEdge (p0 p1 opposite : Nat) (st : SubdivState α) :
    Option (SubdivState α × Nat) :=
  match pushAt st.adjacency p0 p1 with
  | none => none
  | some adj1 =>
    match pushAt adj1 p1 p0 with
    | none => none
    | some adj2 =>
      let edge : Edge := (min p0 p1, max p0 p1)
      let opps := mapInsert st.edgeToOppositeVertices edge
        ((mapFind st.edgeToOppositeVertices edge).getD [] ++ [opposite])
      match mapFind st.edgeToMidpointIndex edge with
      | some m =>
        some ({ st with adjacency := adj2, edgeToOppositeVertices := opps }, m)
      | none =>
        let m := st.newVertices.length % 2 ^ 32
        some ({ st with
                adjacency := adj2
                edgeToOppositeVertices := opps
                edgeToMidpointIndex := mapInsert st.edgeToMidpointIndex edge m
                newVertices := st.newVertices ++ [⟨0, 0, 0⟩] }, m)

/-- The body of the first-pass loop for one triangle `(v0, v1, v2)`. -/
def processTriangle (v0 v1 v2 : Nat) (st : SubdivState α) : Option (SubdivState α) :=
  match processEdge v0 v1 v2 st with
  | none => none
  | some (st1, m0) =>
    match processEdge v1 v2 v0 st1 with
    | none => none
    | some (st2, m1) =>
      match processEdge v2 v0 v1 st2 with
      | none => none
      | some (st3, m2) =>
        some { st3 with
               newIndices := st3.newIndices ++
                 [v0, m0, m2, v1, m1, m0, v2, m2, m1, m0, m1, m2] }

/-- The first pass: the loop `for (i = 0; i < indices.size(); i += 3)` run on
the part of the index buffer that is still ahead. -/
def firstPass : List Nat → SubdivState α → Option (SubdivState α)
  | [], st => some st
  | v0 :: v1 :: v2 :: rest, st =>
    match processTriangle v0 v1 v2 st with
    | none => none
    | some st1 => firstPass rest st1
  | _, _ => none

/-- The position the second pass gives to the midpoint of `edge`. -/
def midpointPosition (vertices : List (XrVector3f α))
    (edgeToOppositeVertices : List (Edge × List Nat)) (edge : Edge) :
    Option (XrVector3f α) :=
  match vertices[edge.1]?, vertices[edge.2]? with
  | some v0_pos, some v1_pos =>
    match (mapFind edgeToOppositeVertices edge).getD [] with
    | [o0, o1] =>
      match vertices[o0]?, vertices[o1]? with
      | some v2_pos, some v3_pos =>
        some (add (scalar_multiply (add v0_pos v1_pos) (3 / 8))
                  (scalar_multiply (add v2_pos v3_pos) (1 / 8)))
      | _, _ => none
    | _ => some (scalar_multiply (add v0_pos v1_pos) (1 / 2))
  | _, _ => none

/-- The second pass: the loop over the entries of `edgeToMidpointIndex`. -/
def secondPass (vertices : List (XrVector3f α))
    (edgeToOppositeVertices : List (Edge × List Nat)) :
    List (Edge × Nat) → List (XrVector3f α) → Option (List (XrVector3f α))
  | [], newVertices => some newVertices
  | (edge, midpoint_idx) :: rest, newVertices =>
    match midpointPosition vertices edgeToOppositeVertices edge with
    | none => none
    | some p =>
      match setVertex newVertices midpoint_idx p with
      | none => none
      | some nv => secondPass vertices edgeToOppositeVertices rest nv

/-- The loop summing the positions of the neighbours of one vertex. -/
def neighborSum (vertices : List (XrVector3f α)) :
    List Nat → XrVector3f α → Option (XrVector3f α)
  | [], acc => some acc
  | n :: rest, acc =>
    match vertices[n]? with
    | none => none
    | some p => neighborSum vertices rest (add acc p)

/-- The weight `beta` of the third pass for a neighbour count `k`. -/
def betaWeight (k : Nat) : α :=
  if k = 3 then 3 / 16 else 3 / (8 * (k : α))

/-- The body of the third-pass loop for the vertex `i`. -/
def thirdPassStep (vertices : List (XrVector3f α)) (adjacency : List (List Nat))
    (newVertices : List (XrVector3f α)) (i : Nat) : Option (List (XrVector3f α)) :=
  match adjacency[i]? with
  | none => none
  | some nbrs =>
    let k := nbrs.length
    if k < 2 then some newVertices
    else
      let beta : α := betaWeight k
      match neighborSum vertices nbrs ⟨0, 0, 0⟩ with
      | none => none
      | some neighbor_sum =>
        match vertices[i]? with
        | none => none
        | some old_pos =>
          setVertex newVertices i
            (add (scalar_multiply old_pos (1 - (k : α) * beta))
                 (scalar_multiply neighbor_sum beta))

/-- The third pass run over the vertex ids in `is`. -/
def thirdPassLoop (vertices : List (XrVector3f α)) (adjacency : List (List Nat)) :
    List Nat → List (XrVector3f α) → Option (List (XrVector3f α))
  | [], newVertices => some newVertices
  | i :: rest, newVertices =>
    match thirdPassStep vertices adjacency newVertices i with
    | none => none
    | some nv => thirdPassLoop vertices adjacency rest nv

/-- One refinement round (`LoopSubdivision::apply_subdivision`). -/
def apply_subdivision (vertices : List (XrVector3f α)) (indices : List Nat) :
    Option (List (XrVector3f α) × List Nat) :=
  match firstPass indices (initState vertices) with
  | none => none
  | some st =>
    match secondPass vertices st.edgeToOppositeVertices st.edgeToMidpointIndex
        st.newVertices with
    | none => none
    | some nv2 =>
      match thirdPassLoop vertices st.adjacency (List.range vertices.length) nv2 with
      | none => none
      | some nv3 => some (nv3, st.newIndices)

/-- The loop of `subdivide`: `n` rounds, each fed the result of the one before. -/
def subdivideLoop : Nat → List (XrVector3f α) → List Nat →
    Option (List (XrVector3f α) × List Nat)
  | 0, currentVertices, currentIndices => some (currentVertices, currentIndices)
  | n + 1, currentVertices, currentIndices =>
    match apply_subdivision currentVertices currentIndices with
    | none => none
    | some result => subdivideLoop n result.1 result.2

/-- The entry point `LoopSubdivision::subdivide`. -/
def subdivide (originalVertices : List (XrVector3f α)) (originalIndices : List Nat)
    (iterations : Int) : Option (List (XrVector3f α) × List Nat) :=
  if iterations ≤ 0 then some (originalVertices, originalIndices)
  else subdivideLoop iterations.toNat originalVertices originalIndices

/-- The statement `vertex_normals[i] = add(vertex_normals[i], n)`. -/
def addAt (normals : List (XrVector3f α)) (i : Nat) (n : XrVector3f α) :
    Option (List (XrVector3f α)) :=
  match normals[i]? with
  | some old => some (normals.set i (add old n))
  | none => none

/-- Step 1 of `expand_mesh`: the loop adding each face normal to the
accumulators of the three vertices of the face. -/
def accumulateNormals (vertices : List (XrVector3f α)) :
    List Nat → List (XrVector3f α) → Option (List (XrVector3f α))
  | [], normals => some normals
  | i0 :: i1 :: i2 :: rest, normals =>
    match vertices[i0]?, vertices[i1]?, vertices[i2]? with
    | some v0, some v1, some v2 =>
      let face_normal := cross_product (subtract v1 v0) (subtract v2 v0)
      match addAt normals i0 face_normal with
      | none => none
      | some n0 =>
        match addAt n0 i1 face_normal with
        | none => none
        | some n1 =>
          match addAt n1 i2 face_normal with
          | none => none
          | some n2 => accumulateNormals vertices rest n2
    | _, _, _ => none
  | _, _ => none

/-- The mesh expander `LoopSubdivision::expand_mesh`; the result is the vertex
buffer after the call. -/
def expand_mesh (sqrt : α → α) (vertices : List (XrVector3f α)) (indices : List Nat)
    (expansion_factor : α) : Option (List (XrVector3f α)) :=
  if |expansion_factor| < 1 / 1000000 then some vertices
  else
    match accumulateNormals vertices indices
        (List.replicate vertices.length ⟨0, 0, 0⟩) with
    | none => none
    | some vertex_normals =>
      some (List.zipWith
        (fun v n => add v (scalar_multiply (VectorMath.normalize sqrt n) expansion_factor))
        vertices vertex_normals)

end Subdivision

/-- The keys of a `std::map` model are in strictly ascending order. -/
def KeysSorted {β : Type} (m : List (Edge × β)) : Prop :=
  m.Pairwise (fun a b => edgeLess a.1 b.1 = true)

/-- The precondition of both entry points: the index buffer is a sequence of
triples and every id is below the vertex count `V`. -/
def WellFormed (V : Nat) (indices : List Nat) : Prop :=
  indices.length % 3 = 0 ∧ ∀ i ∈ indices, i < V

instance (V : Nat) (indices : List Nat) : Decidable (WellFormed V indices) := by
  unfold WellFormed
  infer_instance

/-- The canonical keys `(min a b, max a b)` of the three sides of every
triangle of an index buffer, in buffer order. -/
def edgeKeys : List Nat → List Edge
  | v0 :: v1 :: v2 :: rest =>
    (min v0 v1, max v0 v1) :: (min v1 v2, max v1 v2) :: (min v2 v0, max v2 v0) ::
      edgeKeys rest
  | _ => []

/-- The number of distinct canonical edge keys of an index buffer. -/
def distinctEdgeCount (indices : List Nat) : Nat :=
  (edgeKeys indices).dedup.length

/-- What the first pass keeps true of its locals, for `V` input vertices. -/
structure StateInv {α : Type} (V : Nat) (st : SubdivState α) : Prop where
  adj_len : st.adjacency.length = V
  adj_lt : ∀ l ∈ st.adjacency, ∀ n ∈ l, n < V
  nv_len : st.newVertices.length = V + st.edgeToMidpointIndex.length
  mid_sorted : KeysSorted st.edgeToMidpointIndex
  opp_sorted : KeysSorted st.edgeToOppositeVertices
  mid_key_lt : ∀ p ∈ st.edgeToMidpointIndex, p.1.1 < V ∧ p.1.2 < V
  mid_val_lt : ∀ p ∈ st.edgeToMidpointIndex, p.2 < st.newVertices.length
  opp_lt : ∀ p ∈ st.edgeToOppositeVertices, ∀ o ∈ p.2, o < V
  idx_lt : ∀ i ∈ st.newIndices, i < st.newVertices.length

/-- What holds of the two edge maps as long as `newVertices.size()` fits the
`uint32_t` midpoint index: midpoint indices lie past the `V` original vertices,
different edges have different midpoint indices, and both maps have the same
keys. -/
structure MidInv {α : Type} (V : Nat) (st : SubdivState α) : Prop where
  mid_ge : ∀ p ∈ st.edgeToMidpointIndex, V ≤ p.2
  mid_inj : ∀ p ∈ st.edgeToMidpointIndex, ∀ q ∈ st.edgeToMidpointIndex,
    p.2 = q.2 → p.1 = q.1
  same_keys : ∀ e, (mapFind st.edgeToOppositeVertices e).isSome =
    (mapFind st.edgeToMidpointIndex e).isSome

/-- The opposite-vertex list the first pass of a round leaves for the edge key
`e` (`edgeToOppositeVertices.find(e)` after the first loop). -/
def oppositesOf {α : Type} [LinearOrderedField α] (vertices : List (XrVector3f α))
    (indices : List Nat) (e : Edge) : Option (List Nat) :=
  match firstPass indices (initState vertices) with
  | none => none
  | some st => mapFind st.edgeToOppositeVertices e

/-- The midpoint index the first pass of a round leaves for the edge key `e`
(`edgeToMidpointIndex.find(e)` after the first loop). -/
def midpointIndexOf {α : Type} [LinearOrderedField α] (vertices : List (XrVector3f α))
    (indices : List Nat) (e : Edge) : Option Nat :=
  match firstPass indices (initState vertices) with
  | none => none
  | some st => mapFind st.edgeToMidpointIndex e

/-- The adjacency list the first pass of a round leaves for the vertex `i`
(`adjacency[i]` after the first loop). -/
def adjacencyOf {α : Type} [LinearOrderedField α] (vertices : List (XrVector3f α))
    (indices : List Nat) (i : Nat) : Option (List Nat) :=
  match firstPass indices (initState vertices) with
  | none => none
  | some st => st.adjacency[i]?

/-- The sum of the input positions of the vertices listed in `nbrs`, each
entry of the list counted. -/
def positionSum {α : Type} [LinearOrderedField α] (vertices : List (XrVector3f α))
    (nbrs : List Nat) : XrVector3f α :=
  ⟨(nbrs.map (fun n => (vertices.getD n ⟨0, 0, 0⟩).x)).sum,
   (nbrs.map (fun n => (vertices.getD n ⟨0, 0, 0⟩).y)).sum,
   (nbrs.map (fun n => (vertices.getD n ⟨0, 0, 0⟩).z)).sum⟩

/-- The position `(1 - k * β) * p + β * s` of the smoothing rule, with
`β = 3/16` for `k = 3` and `β = 3 / (8 * k)` otherwise. -/
def smoothedPosition {α : Type} [LinearOrderedField α] (k : Nat) (p s : XrVector3f α) :
    XrVector3f α :=
  ⟨(1 - (k : α) * (if k = 3 then 3 / 16 else 3 / (8 * (k : α)))) * p.x +
      (if k = 3 then 3 / 16 else 3 / (8 * (k : α))) * s.x,
   (1 - (k : α) * (if k = 3 then 3 / 16 else 3 / (8 * (k : α)))) * p.y +
      (if k = 3 then 3 / 16 else 3 / (8 * (k : α))) * s.y,
   (1 - (k : α) * (if k = 3 then 3 / 16 else 3 / (8 * (k : α)))) * p.z +
      (if k = 3 then 3 / 16 else 3 / (8 * (k : α))) * s.z⟩

/-- The index buffer a round emits, read off the input index buffer for a
given assignment `mid` of midpoint indices to edge keys: per triangle
`(p0, p1, p2)` the three corner triangles and the centre triangle. -/
def childIndices (mid : Edge → Nat) : List Nat → List Nat
  | p0 :: p1 :: p2 :: rest =>
    [p0, mid (min p0 p1, max p0 p1), mid (min p2 p0, max p2 p0),
     p1, mid (min p1 p2, max p1 p2), mid (min p0 p1, max p0 p1),
     p2, mid (min p2 p0, max p2 p0), mid (min p1 p2, max p1 p2),
     mid (min p0 p1, max p0 p1), mid (min p1 p2, max p1 p2), mid (min p2 p0, max p2 p0)] ++
      childIndices mid rest
  | _ => []

/-- One step of listing edge keys in order of first appearance. -/
def firstSeenStep (seen : List Edge) (k : Edge) : List Edge :=
  if k ∈ seen then seen else seen ++ [k]

/-- The distinct edge keys of an index buffer in the order in which a scan of
the triangles, sides `(p0,p1)`, `(p1,p2)`, `(p2,p0)` in turn, first meets
them. -/
def allocationOrder (indices : List Nat) : List Edge :=
  (edgeKeys indices).foldl firstSeenStep []

/-- The midpoint map holds the keys met so far, the `j`-th of them with the
index `V + j`. -/
structure OrderInv {α : Type} (V : Nat) (st : SubdivState α) (seen : List Edge) : Prop where
  keys : ∀ e, (mapFind st.edgeToMidpointIndex e).isSome = decide (e ∈ seen)
  index : ∀ j e, seen[j]? = some e → mapFind st.edgeToMidpointIndex e = some (V + j)
  size : st.newVertices.length = V + seen.length

/-- The unnormalized face normal `(v1 - v0) × (v2 - v0)` of the triangle with
vertex ids `i0`, `i1`, `i2`, over the positions in `vertices`. -/
def faceNormal {α : Type} [LinearOrderedField α] (vertices : List (XrVector3f α))
    (i0 i1 i2 : Nat) : XrVector3f α :=
  cross_product
    (subtract (vertices.getD i1 ⟨0, 0, 0⟩) (vertices.getD i0 ⟨0, 0, 0⟩))
    (subtract (vertices.getD i2 ⟨0, 0, 0⟩) (vertices.getD i0 ⟨0, 0, 0⟩))

/-- The face normals that reach the vertex `i`: one entry for every triangle
slot of the index buffer that holds `i`. -/
def normalContributions {α : Type} [LinearOrderedField α] (vertices : List (XrVector3f α))
    (i : Nat) : List Nat → List (XrVector3f α)
  | i0 :: i1 :: i2 :: rest =>
    (if i0 = i then [faceNormal vertices i0 i1 i2] else []) ++
    ((if i1 = i then [faceNormal vertices i0 i1 i2] else []) ++
    ((if i2 = i then [faceNormal vertices i0 i1 i2] else []) ++
      normalContributions vertices i rest))
  | _ => []

/-- The component-wise sum of a list of vectors. -/
def vectorSum {α : Type} [LinearOrderedField α] (l : List (XrVector3f α)) : XrVector3f α :=
  ⟨(l.map (fun v => v.x)).sum, (l.map (fun v => v.y)).sum, (l.map (fun v => v.z)).sum⟩

/-- The accumulated normal `N_i` of the vertex `i`: the sum of the face normals
of the triangle slots that reference it. -/
def vertexNormal {α : Type} [LinearOrderedField α] (vertices : List (XrVector3f α))
    (indices : List Nat) (i : Nat) : XrVector3f α :=
  vectorSum (normalContributions vertices i indices)

end MeshSubdivision

namespace AnchorUtilities

/-- Modelled from the spec: the OpenXR constant `XR_UUID_SIZE_EXT` is declared
outside the sources at hand; the spec fixes the identifier at 16 bytes (and
its text form at 32 characters). -/
def XR_UUID_SIZE_EXT : Nat := 16

/-- The identifier type `XrUuidEXT`: the array `data` of `XR_UUID_SIZE_EXT`
bytes, here a list of natural numbers. -/
structure XrUuidEXT where
  data : List Nat
  deriving DecidableEq

/-- What the type `uint8_t data[XR_UUID_SIZE_EXT]` guarantees of an
identifier: 16 entries, each a byte. -/
def IsUuid (uuid : XrUuidEXT) : Prop :=
  uuid.data.length = XR_UUID_SIZE_EXT ∧ ∀ b ∈ uuid.data, b < 256

instance (uuid : XrUuidEXT) : Decidable (IsUuid uuid) := by
  unfold IsUuid
  infer_instance

/-- The digit table `hex` of `bin2hex`. -/
def hexTable : List Char :=
  ['0', '1', '2', '3', '4', '5', '6', '7', '8', '9', 'A', 'B', 'C', 'D', 'E', 'F']

/-- The read `hex[n]` of the digit table. -/
def hexAt (n : Nat) : Char :=
  hexTable.getD n (Char.ofNat 0)

/-- The loop of `bin2hex` over the bytes still ahead, `res` being the string
built so far. -/
def bin2hexLoop : List Nat → List Char → List Char
  | [], res => res
  | c :: rest, res => bin2hexLoop rest (res ++ [hexAt (c >>> 4)] ++ [hexAt (c &&& 0xf)])

/-- The function `bin2hex` on the byte sequence `src` (the source's pointer
and size); strings are lists of characters. -/
def bin2hex (src : List Nat) : List Char :=
  bin2hexLoop src []

/-- The function `uuidToHexString`. -/
def uuidToHexString (uuid : XrUuidEXT) : List Char :=
  bin2hex (uuid.data.take XR_UUID_SIZE_EXT)

/-- The characters `std::isspace` accepts in the C locale. -/
def isSpace (c : Char) : Bool :=
  c.toNat == 32 || (decide (9 ≤ c.toNat) && decide (c.toNat ≤ 13))

/-- The value of a hexadecimal digit, if `c` is one. -/
def hexDigitValue (c : Char) : Option Nat :=
  if 48 ≤ c.toNat ∧ c.toNat ≤ 57 then some (c.toNat - 48)
  else if 65 ≤ c.toNat ∧ c.toNat ≤ 70 then some (c.toNat - 55)
  else if 97 ≤ c.toNat ∧ c.toNat ≤ 102 then some (c.toNat - 87)
  else none

/-- The value of the longest run of hexadecimal digits at the head of a
string, continuing from `acc`. -/
def readDigits : List Char → Nat → Nat
  | [], acc => acc
  | c :: rest, acc =>
    match hexDigitValue c with
    | some d => readDigits rest (acc * 16 + d)
    | none => acc

/-- The library call `std::stol(s, nullptr, 16)`, after the C++ standard:
leading white space is skipped, a sign and a `0x` prefix are accepted, the
longest run of hexadecimal digits is read, and `none` stands for the exception
thrown when there is no digit. The range check of `long` is left out: the
strings read here have two characters. -/
def stol16 (s : List Char) : Option Int :=
  let s1 := s.dropWhile isSpace
  let negative := match s1 with
    | c :: _ => c.toNat == 45
    | [] => false
  let s2 := match s1 with
    | c :: r => if c.toNat == 45 || c.toNat == 43 then r else s1
    | [] => s1
  let s3 := match s2 with
    | z :: x :: h :: r =>
      if z.toNat == 48 && (x.toNat == 120 || x.toNat == 88) && (hexDigitValue h).isSome
      then h :: r else s2
    | _ => s2
  match s3 with
  | c :: _ =>
    if (hexDigitValue c).isSome then
      some (if negative then -(readDigits s3 0 : Int) else (readDigits s3 0 : Int))
    else none
  | [] => none

/-- The loop of `hexStringToUuid`: `n` turns are left, the next one writes
`data[i]` from the two characters at `k`. -/
def hexStringToUuidLoop (hex : List Char) : Nat → Nat → Nat → List Nat → Option (List Nat)
  | 0, _, _, data => some data
  | n + 1, i, k, data =>
    match stol16 ((hex.drop k).take 2) with
    | none => none
    | some v => hexStringToUuidLoop hex n (i + 1) (k + 2) (data.set i (v % 256).toNat)

/-- The function `hexStringToUuid`: the returned flag and the identifier
`uuid` after the call; `none` when `stol` throws. -/
def hexStringToUuid (hex : List Char) (uuid : XrUuidEXT) : Option (Bool × XrUuidEXT) :=
  if hex.length ≠ XR_UUID_SIZE_EXT * 2 then some (false, uuid)
  else
    match hexStringToUuidLoop hex XR_UUID_SIZE_EXT 0 0 uuid.data with
    | none => none
    | some data => some (true, ⟨data⟩)

/-- The loop of `isValid` over the bytes still ahead. -/
def isValidLoop : List Nat → Bool
  | [] => false
  | b :: rest => if b > 0 then true else isValidLoop rest

/-- The function `isValid`. -/
def isValid (uuid : XrUuidEXT) : Bool :=
  isValidLoop (uuid.data.take XR_UUID_SIZE_EXT)

end AnchorUtilities

namespace MeshSubdivision

open VectorMath

/-- The third vertices of the triangle sides that lie on the edge key `e`, in
the order in which a scan of the index buffer meets those sides. -/
def oppositeList (e : Edge) : List Nat → List Nat
  | v0 :: v1 :: v2 :: rest =>
    (if (min v0 v1, max v0 v1) = e then [v2] else []) ++
    ((if (min v1 v2, max v1 v2) = e then [v0] else []) ++
    ((if (min v2 v0, max v2 v0) = e then [v1] else []) ++ oppositeList e rest))
  | _ => []

/-- What the side `(p0, p1)` adds to the adjacency list of the vertex `i`. -/
def sideNeighbors (i p0 p1 : Nat) : List Nat :=
  (if p0 = i then [p1] else []) ++ (if p1 = i then [p0] else [])

/-- The entries the triangle sides of an index buffer add to the adjacency
list of the vertex `i`, in scan order: the other endpoint of every side that
starts or ends at `i`. -/
def adjacencyList (i : Nat) : List Nat → List Nat
  | v0 :: v1 :: v2 :: rest =>
    sideNeighbors i v0 v1 ++ (sideNeighbors i v1 v2 ++ (sideNeighbors i v2 v0 ++
      adjacencyList i rest))
  | _ => []

/-- The position of the first occurrence of the key `e` in a list of keys (the
length of the list when there is none). -/
def keyIndex (e : Edge) : List Edge → Nat
  | [] => 0
  | k :: rest => if k = e then 0 else keyIndex e rest + 1

/-- The index buffer with the winding of every triangle reversed: the second
and third id of each triple swapped. -/
def reverseWinding : List Nat → List Nat
  | i0 :: i1 :: i2 :: rest => i0 :: i2 :: i1 :: reverseWinding rest
  | rest => rest

/-- The triangles of an index buffer: its consecutive triples of ids. -/
def triangleList : List Nat → List (Nat × Nat × Nat)
  | v0 :: v1 :: v2 :: rest => (v0, v1, v2) :: triangleList rest
  | _ => []

/-- The canonical keys of the three sides of a triangle. -/
def triangleSides (t : Nat × Nat × Nat) : List Edge :=
  [(min t.1 t.2.1, max t.1 t.2.1), (min t.2.1 t.2.2, max t.2.1 t.2.2),
   (min t.2.2 t.1, max t.2.2 t.1)]

/-- The three vertex ids of a triangle. -/
def triangleVertices (t : Nat × Nat × Nat) : List Nat :=
  [t.1, t.2.1, t.2.2]

/-- Two triangles have the same set of vertices. -/
def SameVertices (s t : Nat × Nat × Nat) : Prop :=
  (∀ v ∈ triangleVertices s, v ∈ triangleVertices t) ∧
    ∀ v ∈ triangleVertices t, v ∈ triangleVertices s

instance (s t : Nat × Nat × Nat) : Decidable (SameVertices s t) := by
  unfold SameVertices
  infer_instance

/-- The four triangles a round emits for the triangle `t`, for a given
assignment `mid` of midpoint indices to edge keys. -/
def childTriangles (mid : Edge → Nat) (t : Nat × Nat × Nat) : List (Nat × Nat × Nat) :=
  [(t.1, mid (min t.1 t.2.1, max t.1 t.2.1), mid (min t.2.2 t.1, max t.2.2 t.1)),
   (t.2.1, mid (min t.2.1 t.2.2, max t.2.1 t.2.2), mid (min t.1 t.2.1, max t.1 t.2.1)),
   (t.2.2, mid (min t.2.2 t.1, max t.2.2 t.1), mid (min t.2.1 t.2.2, max t.2.1 t.2.2)),
   (mid (min t.1 t.2.1, max t.1 t.2.1), mid (min t.2.1 t.2.2, max t.2.1 t.2.2),
     mid (min t.2.2 t.1, max t.2.2 t.1))]

/-- Closed-manifold topology of an index buffer: no triangle repeats a vertex,
no two triangles have the same set of three vertices, and every undirected
edge of the mesh is a side of exactly two triangles. -/
def ClosedManifold (indices : List Nat) : Prop :=
  (∀ t ∈ triangleList indices, t.1 ≠ t.2.1 ∧ t.2.1 ≠ t.2.2 ∧ t.2.2 ≠ t.1) ∧
  (triangleList indices).Pairwise (fun s t => ¬ SameVertices s t) ∧
  ∀ e ∈ edgeKeys indices,
    (triangleList indices).countP (fun t => decide (e ∈ triangleSides t)) = 2

instance (indices : List Nat) : Decidable (ClosedManifold indices) := by
  unfold ClosedManifold
  infer_instance

/-! ## Lemmas on the map model -/

theorem edgeLess_irrefl (a : Edge) : edgeLess a a = false := by
  simp [edgeLess]

theorem edgeLess_trans {a b c : Edge} (h1 : edgeLess a b = true) (h2 : edgeLess b c = true) :
    edgeLess a c = true := by
  simp only [edgeLess, Bool.or_eq_true, Bool.and_eq_true, decide_eq_true_eq] at *
  omega

theorem edgeLess_total {a b : Edge} (h1 : edgeLess a b = false) (h2 : a ≠ b) :
    edgeLess b a = true := by
  have h3 : ¬ (a.1 = b.1 ∧ a.2 = b.2) := fun h => h2 (Prod.ext h.1 h.2)
  simp only [edgeLess, Bool.or_eq_true, Bool.and_eq_true, decide_eq_true_eq,
    Bool.or_eq_false_iff, Bool.and_eq_false_iff, decide_eq_false_iff_not] at *
  omega

theorem mapFind_mapInsert {β : Type} (m : List (Edge × β)) (e e' : Edge) (v : β) :
    mapFind (mapInsert m e v) e' = if e = e' then some v else mapFind m e' := by
  induction m with
  | nil => simp [mapInsert, mapFind]
  | cons p rest ih =>
    obtain ⟨k, w⟩ := p
    simp only [mapInsert]
    split
    · rename_i hk
      subst hk
      by_cases h1 : k = e' <;> simp [mapFind, h1]
    · split
      · simp [mapFind]
      · rename_i hk _
        simp only [mapFind, ih]
        by_cases h1 : k = e'
        · subst h1
          simp [Ne.symm hk]
        · simp [h1]

theorem mem_mapInsert {β : Type} {m : List (Edge × β)} {e : Edge} {v : β} {p : Edge × β}
    (h : p ∈ mapInsert m e v) : p = (e, v) ∨ p ∈ m := by
  induction m with
  | nil => simpa [mapInsert] using h
  | cons q rest ih =>
    obtain ⟨k, w⟩ := q
    simp only [mapInsert] at h
    split at h
    · rename_i hk
      subst hk
      rcases List.mem_cons.1 h with h | h
      · exact Or.inl h
      · exact Or.inr (List.mem_cons_of_mem _ h)
    · split at h
      · rcases List.mem_cons.1 h with h | h
        · exact Or.inl h
        · exact Or.inr h
      · rcases List.mem_cons.1 h with h | h
        · exact Or.inr (h ▸ List.mem_cons_self _ _)
        · rcases ih h with h | h
          · exact Or.inl h
          · exact Or.inr (List.mem_cons_of_mem _ h)

theorem mem_of_mapFind {β : Type} {m : List (Edge × β)} {e : Edge} {v : β}
    (h : mapFind m e = some v) : (e, v) ∈ m := by
  induction m with
  | nil => simp [mapFind] at h
  | cons q rest ih =>
    obtain ⟨k, w⟩ := q
    simp only [mapFind] at h
    split at h
    · rename_i hk
      subst hk
      simp only [Option.some.injEq] at h
      subst h
      exact List.mem_cons_self _ _
    · exact List.mem_cons_of_mem _ (ih h)

theorem mapFind_none_iff {β : Type} {m : List (Edge × β)} {e : Edge} :
    mapFind m e = none ↔ e ∉ m.map Prod.fst := by
  induction m with
  | nil => simp [mapFind]
  | cons q rest ih =>
    obtain ⟨k, w⟩ := q
    simp only [mapFind, List.map_cons, List.mem_cons, not_or]
    split
    · rename_i hk
      simp [hk]
    · rename_i hk
      rw [ih]
      constructor
      · intro h
        exact ⟨fun h' => hk h'.symm, h⟩
      · intro h
        exact h.2

theorem mapFind_of_mem {β : Type} {m : List (Edge × β)} (hs : KeysSorted m) {e : Edge} {v : β}
    (h : (e, v) ∈ m) : mapFind m e = some v := by
  induction m with
  | nil => simp at h
  | cons q rest ih =>
    obtain ⟨k, w⟩ := q
    rw [KeysSorted, List.pairwise_cons] at hs
    simp only [mapFind]
    rcases List.mem_cons.1 h with h | h
    · cases h
      simp
    · split
      · rename_i hk
        subst hk
        have := hs.1 _ h
        simp [edgeLess_irrefl] at this
      · exact ih hs.2 h

theorem keysSorted_mapInsert {β : Type} {m : List (Edge × β)} (hs : KeysSorted m)
    (e : Edge) (v : β) : KeysSorted (mapInsert m e v) := by
  induction m with
  | nil => simp [mapInsert, KeysSorted]
  | cons q rest ih =>
    obtain ⟨k, w⟩ := q
    have hs' := hs
    rw [KeysSorted, List.pairwise_cons] at hs
    simp only [mapInsert]
    split
    · rw [KeysSorted, List.pairwise_cons]
      exact hs
    · split
      · rename_i hlt
        rw [KeysSorted, List.pairwise_cons]
        refine ⟨?_, hs'⟩
        intro p hp
        rcases List.mem_cons.1 hp with hp | hp
        · subst hp
          exact hlt
        · exact edgeLess_trans hlt (hs.1 p hp)
      · rename_i hne hlt
        rw [KeysSorted, List.pairwise_cons]
        refine ⟨?_, ih hs.2⟩
        intro p hp
        rcases mem_mapInsert hp with hp | hp
        · subst hp
          exact edgeLess_total (by simpa using hlt) (fun h => hne h.symm)
        · exact hs.1 p hp

theorem keysSorted_nodup {β : Type} {m : List (Edge × β)} (hs : KeysSorted m) :
    (m.map Prod.fst).Nodup := by
  rw [List.Nodup, List.pairwise_map]
  refine List.Pairwise.imp ?_ hs
  intro a b h hab
  rw [hab, edgeLess_irrefl] at h
  exact Bool.noConfusion h

theorem length_mapInsert_of_none {β : Type} {m : List (Edge × β)} {e : Edge} (v : β)
    (h : mapFind m e = none) : (mapInsert m e v).length = m.length + 1 := by
  induction m with
  | nil => simp [mapInsert]
  | cons q rest ih =>
    obtain ⟨k, w⟩ := q
    simp only [mapFind] at h
    split at h
    · cases h
    · rename_i hk
      simp only [mapInsert, hk, if_false]
      split
      · simp
      · simp [ih h]


/-! ## The first pass -/

theorem pushAt_some {adj : List (List Nat)} {p : Nat} (q : Nat) (h : p < adj.length) :
    ∃ adj', pushAt adj p q = some adj' := by
  unfold pushAt
  rw [List.getElem?_eq_getElem h]
  exact ⟨_, rfl⟩

theorem pushAt_inv {adj adj' : List (List Nat)} {p q : Nat} (h : pushAt adj p q = some adj') :
    p < adj.length ∧ adj'.length = adj.length ∧
      ∀ V, (∀ l ∈ adj, ∀ n ∈ l, n < V) → q < V → ∀ l ∈ adj', ∀ n ∈ l, n < V := by
  unfold pushAt at h
  split at h
  · rename_i l hl
    simp only [Option.some.injEq] at h
    subst h
    have hp : p < adj.length := (List.getElem?_eq_some_iff.1 hl).1
    refine ⟨hp, by simp, ?_⟩
    intro V hV hq l' hl' n hn
    rcases List.mem_or_eq_of_mem_set hl' with h1 | h1
    · exact hV l' h1 n hn
    · subst h1
      rcases List.mem_append.1 hn with h2 | h2
      · exact hV l (List.getElem?_mem hl) n h2
      · simp only [List.mem_singleton] at h2
        omega
  · cases h

theorem stateInv_init {α : Type} (vertices : List (XrVector3f α)) :
    StateInv vertices.length (initState vertices) where
  adj_len := by simp [initState]
  adj_lt := by
    intro l hl n hn
    simp only [initState] at hl
    rw [List.eq_of_mem_replicate hl] at hn
    cases hn
  nv_len := by simp [initState]
  mid_sorted := by simp [initState, KeysSorted]
  opp_sorted := by simp [initState, KeysSorted]
  mid_key_lt := by simp [initState]
  mid_val_lt := by simp [initState]
  opp_lt := by simp [initState]
  idx_lt := by simp [initState]

variable {α : Type} [LinearOrderedField α]

theorem processEdge_some {V p0 p1 : Nat} (opp : Nat) {st : SubdivState α}
    (hlen : st.adjacency.length = V) (h0 : p0 < V) (h1 : p1 < V) :
    ∃ r, processEdge p0 p1 opp st = some r := by
  obtain ⟨adj1, ha1⟩ := pushAt_some p1 (hlen ▸ h0 : p0 < st.adjacency.length)
  have hl1 := (pushAt_inv ha1).2.1
  obtain ⟨adj2, ha2⟩ := pushAt_some p0 (by omega : p1 < adj1.length)
  unfold processEdge
  simp only [ha1, ha2]
  split <;> exact ⟨_, rfl⟩

/-- Everything one turn of the inner loop changes. -/
theorem processEdge_inv {V p0 p1 opp m : Nat} {st st' : SubdivState α}
    (hinv : StateInv V st) (hopp : opp < V)
    (h : processEdge p0 p1 opp st = some (st', m)) :
    StateInv V st' ∧ p0 < V ∧ p1 < V ∧ m < st'.newVertices.length ∧
      st'.newIndices = st.newIndices ∧
      st.newVertices.length ≤ st'.newVertices.length ∧
      mapFind st'.edgeToMidpointIndex (min p0 p1, max p0 p1) = some m ∧
      (∀ e, e ≠ (min p0 p1, max p0 p1) →
        mapFind st'.edgeToMidpointIndex e = mapFind st.edgeToMidpointIndex e) ∧
      (∀ e v, mapFind st.edgeToMidpointIndex e = some v →
        mapFind st'.edgeToMidpointIndex e = some v) := by
  unfold processEdge at h
  split at h
  · cases h
  rename_i adj1 ha1
  split at h
  · cases h
  rename_i adj2 ha2
  obtain ⟨hp0, hl1, hlt1⟩ := pushAt_inv ha1
  obtain ⟨hp1, hl2, hlt2⟩ := pushAt_inv ha2
  have hp0V : p0 < V := hinv.adj_len ▸ hp0
  have hp1V : p1 < V := by
    have := hinv.adj_len
    omega
  have hadj2 : ∀ l ∈ adj2, ∀ n ∈ l, n < V :=
    hlt2 V (hlt1 V hinv.adj_lt hp1V) hp0V
  have hopps : ∀ p ∈ mapInsert st.edgeToOppositeVertices (min p0 p1, max p0 p1)
      ((mapFind st.edgeToOppositeVertices (min p0 p1, max p0 p1)).getD [] ++ [opp]),
      ∀ o ∈ p.2, o < V := by
    intro p hp o ho
    rcases mem_mapInsert hp with h1 | h1
    · subst h1
      rcases List.mem_append.1 ho with h2 | h2
      · cases hf : mapFind st.edgeToOppositeVertices (min p0 p1, max p0 p1) with
        | none => simp [hf] at h2
        | some l =>
          simp only [hf, Option.getD_some] at h2
          exact hinv.opp_lt _ (mem_of_mapFind hf) o h2
      · simp only [List.mem_singleton] at h2
        omega
    · exact hinv.opp_lt p h1 o ho
  simp only at h
  split at h
  · rename_i m' hm
    simp only [Option.some.injEq, Prod.mk.injEq] at h
    obtain ⟨hst, hmm⟩ := h
    subst hst hmm
    refine ⟨?_, hp0V, hp1V, ?_, rfl, le_refl _, hm, fun _ _ => rfl, fun _ _ hv => hv⟩
    · exact
        { adj_len := by
            have := hinv.adj_len
            simp only
            omega
          adj_lt := hadj2
          nv_len := hinv.nv_len
          mid_sorted := hinv.mid_sorted
          opp_sorted := keysSorted_mapInsert hinv.opp_sorted _ _
          mid_key_lt := hinv.mid_key_lt
          mid_val_lt := hinv.mid_val_lt
          opp_lt := hopps
          idx_lt := hinv.idx_lt }
    · exact hinv.mid_val_lt _ (mem_of_mapFind hm)
  · rename_i hm
    simp only [Option.some.injEq, Prod.mk.injEq] at h
    obtain ⟨hst, hmm⟩ := h
    subst hst hmm
    have hmod : st.newVertices.length % 2 ^ 32 ≤ st.newVertices.length := Nat.mod_le _ _
    refine ⟨?_, hp0V, hp1V, ?_, rfl, ?_, ?_, ?_, ?_⟩
    · exact
        { adj_len := by
            have := hinv.adj_len
            simp only
            omega
          adj_lt := hadj2
          nv_len := by
            have := hinv.nv_len
            simp only [List.length_append, List.length_singleton,
              length_mapInsert_of_none _ hm]
            omega
          mid_sorted := keysSorted_mapInsert hinv.mid_sorted _ _
          opp_sorted := keysSorted_mapInsert hinv.opp_sorted _ _
          mid_key_lt := by
            intro p hp
            rcases mem_mapInsert hp with h1 | h1
            · subst h1
              simp only
              omega
            · exact hinv.mid_key_lt p h1
          mid_val_lt := by
            intro p hp
            simp only [List.length_append, List.length_singleton]
            rcases mem_mapInsert hp with h1 | h1
            · subst h1
              simp only
              omega
            · have := hinv.mid_val_lt p h1
              omega
          opp_lt := hopps
          idx_lt := by
            intro i hi
            have := hinv.idx_lt i hi
            simp only [List.length_append, List.length_singleton]
            omega }
    · simp only [List.length_append, List.length_singleton]
      omega
    · simp
    · simp [mapFind_mapInsert]
    · intro e he
      rw [mapFind_mapInsert, if_neg (Ne.symm he)]
    · intro e v hv
      rw [mapFind_mapInsert]
      split
      · rename_i he
        subst he
        rw [hm] at hv
        cases hv
      · exact hv

theorem processEdge_bounds {p0 p1 opp : Nat} {st : SubdivState α}
    {r : SubdivState α × Nat} (h : processEdge p0 p1 opp st = some r) :
    p0 < st.adjacency.length ∧ p1 < st.adjacency.length ∧
      r.1.adjacency.length = st.adjacency.length := by
  unfold processEdge at h
  split at h
  · cases h
  rename_i adj1 ha1
  split at h
  · cases h
  rename_i adj2 ha2
  obtain ⟨hp0, hl1, -⟩ := pushAt_inv ha1
  obtain ⟨hp1, hl2, -⟩ := pushAt_inv ha2
  simp only at h
  split at h <;>
    · simp only [Option.some.injEq] at h
      subst h
      simp only
      omega

theorem processEdge_keys {V p0 p1 opp m : Nat} {st st' : SubdivState α}
    (hinv : StateInv V st) (hopp : opp < V)
    (h : processEdge p0 p1 opp st = some (st', m)) (e : Edge) :
    (mapFind st'.edgeToMidpointIndex e).isSome =
      ((mapFind st.edgeToMidpointIndex e).isSome || decide (e = (min p0 p1, max p0 p1))) := by
  obtain ⟨-, -, -, -, -, -, hk, hne, -⟩ := processEdge_inv hinv hopp h
  by_cases he : e = (min p0 p1, max p0 p1)
  · subst he
    simp [hk]
  · simp [hne e he, he]

/-- Everything the loop body of the first pass changes for one triangle. -/
theorem processTriangle_inv {V v0 v1 v2 : Nat} {st st' : SubdivState α}
    (hinv : StateInv V st) (h : processTriangle v0 v1 v2 st = some st') :
    StateInv V st' ∧ v0 < V ∧ v1 < V ∧ v2 < V ∧
      st'.newIndices.length = st.newIndices.length + 12 ∧
      st.newVertices.length ≤ st'.newVertices.length ∧
      (∀ e, (mapFind st'.edgeToMidpointIndex e).isSome =
        ((mapFind st.edgeToMidpointIndex e).isSome ||
          decide (e ∈ [(min v0 v1, max v0 v1), (min v1 v2, max v1 v2),
            (min v2 v0, max v2 v0)]))) ∧
      (∀ e v, mapFind st.edgeToMidpointIndex e = some v →
        mapFind st'.edgeToMidpointIndex e = some v) := by
  unfold processTriangle at h
  split at h
  · cases h
  rename_i st1 m0 h0
  split at h
  · cases h
  rename_i st2 m1 h1
  split at h
  · cases h
  rename_i st3 m2 h2
  simp only [Option.some.injEq] at h
  subst h
  have hb0 := processEdge_bounds h0
  have hb1 := processEdge_bounds h1
  have hV := hinv.adj_len
  simp only at hb0 hb1
  have hv0 : v0 < V := by omega
  have hv1 : v1 < V := by omega
  have hv2 : v2 < V := by omega
  obtain ⟨i1, -, -, hm0, hi1, hl1, -, -, hp1⟩ := processEdge_inv hinv hv2 h0
  obtain ⟨i2, -, -, hm1, hi2, hl2, -, -, hp2⟩ := processEdge_inv i1 hv0 h1
  obtain ⟨i3, -, -, hm2, hi3, hl3, -, -, hp3⟩ := processEdge_inv i2 hv1 h2
  have hk1 := processEdge_keys hinv hv2 h0
  have hk2 := processEdge_keys i1 hv0 h1
  have hk3 := processEdge_keys i2 hv1 h2
  have hV3 : V ≤ st3.newVertices.length := by
    have := i3.nv_len
    omega
  refine ⟨?_, hv0, hv1, hv2, ?_, ?_, ?_, ?_⟩
  · exact
      { adj_len := i3.adj_len
        adj_lt := i3.adj_lt
        nv_len := i3.nv_len
        mid_sorted := i3.mid_sorted
        opp_sorted := i3.opp_sorted
        mid_key_lt := i3.mid_key_lt
        mid_val_lt := i3.mid_val_lt
        opp_lt := i3.opp_lt
        idx_lt := by
          intro i hi
          simp only at hi ⊢
          rcases List.mem_append.1 hi with hi | hi
          · rw [hi3, hi2, hi1] at hi
            have := hinv.idx_lt i hi
            omega
          · simp only [List.mem_cons, List.mem_singleton, List.not_mem_nil, or_false] at hi
            omega }
  · simp only [List.length_append, hi3, hi2, hi1]
    rfl
  · simp only
    omega
  · intro e
    simp only [hk3 e, hk2 e, hk1 e, List.mem_cons, List.mem_singleton, List.not_mem_nil,
      or_false, Bool.or_assoc, Bool.decide_or]
  · intro e v hv
    exact hp3 e v (hp2 e v (hp1 e v hv))

theorem processTriangle_some {V v0 v1 v2 : Nat} {st : SubdivState α}
    (hinv : StateInv V st) (h0 : v0 < V) (h1 : v1 < V) (h2 : v2 < V) :
    ∃ st', processTriangle v0 v1 v2 st = some st' := by
  obtain ⟨⟨st1, m0⟩, e0⟩ := processEdge_some v2 hinv.adj_len h0 h1
  obtain ⟨i1, -⟩ := processEdge_inv hinv h2 e0
  obtain ⟨⟨st2, m1⟩, e1⟩ := processEdge_some v0 i1.adj_len h1 h2
  obtain ⟨i2, -⟩ := processEdge_inv i1 h0 e1
  obtain ⟨⟨st3, m2⟩, e2⟩ := processEdge_some v1 i2.adj_len h2 h0
  unfold processTriangle
  simp only [e0, e1, e2]
  exact ⟨_, rfl⟩

/-- The first pass keeps the invariant, appends 12 indices per triangle, and
ends with a midpoint for exactly the edges it was given or met. -/
theorem firstPass_inv {V : Nat} (indices : List Nat) :
    ∀ {st st' : SubdivState α}, StateInv V st → firstPass indices st = some st' →
    StateInv V st' ∧ WellFormed V indices ∧
      st'.newIndices.length = st.newIndices.length + 4 * indices.length ∧
      st.newVertices.length ≤ st'.newVertices.length ∧
      (∀ e, (mapFind st'.edgeToMidpointIndex e).isSome =
        ((mapFind st.edgeToMidpointIndex e).isSome || decide (e ∈ edgeKeys indices))) ∧
      (∀ e v, mapFind st.edgeToMidpointIndex e = some v →
        mapFind st'.edgeToMidpointIndex e = some v) := by
  induction indices using edgeKeys.induct with
  | case1 v0 v1 v2 rest ih =>
    intro st st' hinv h
    simp only [firstPass] at h
    split at h
    · cases h
    rename_i st1 h1
    obtain ⟨i1, hv0, hv1, hv2, hlen, hnv, hkeys, hpres⟩ := processTriangle_inv hinv h1
    obtain ⟨i2, hwf, hlen2, hnv2, hkeys2, hpres2⟩ := ih i1 h
    refine ⟨i2, ?_, ?_, ?_, ?_, ?_⟩
    · refine ⟨?_, ?_⟩
      · have := hwf.1
        simp only [List.length_cons]
        omega
      · intro i hi
        simp only [List.mem_cons] at hi
        rcases hi with hi | hi | hi | hi
        · omega
        · omega
        · omega
        · exact hwf.2 i hi
    · simp only [List.length_cons]
      omega
    · omega
    · intro e
      rw [hkeys2 e, hkeys e]
      simp only [edgeKeys, List.mem_cons, List.mem_singleton, List.not_mem_nil, or_false,
        Bool.or_assoc, Bool.decide_or]
    · intro e v hv
      exact hpres2 e v (hpres e v hv)
  | case2 l hl =>
    intro st st' hinv h
    match l, hl with
    | [], _ =>
      simp only [firstPass, Option.some.injEq] at h
      subst h
      refine ⟨hinv, ⟨rfl, by simp⟩, by simp, le_refl _, ?_, fun _ _ hv => hv⟩
      intro e
      simp [edgeKeys]
    | [_], _ => simp [firstPass] at h
    | [_, _], _ => simp [firstPass] at h
    | v0 :: v1 :: v2 :: rest, hl => exact absurd rfl (hl v0 v1 v2 rest)

theorem firstPass_some {V : Nat} (indices : List Nat) :
    ∀ {st : SubdivState α}, StateInv V st → WellFormed V indices →
    ∃ st', firstPass indices st = some st' := by
  induction indices using edgeKeys.induct with
  | case1 v0 v1 v2 rest ih =>
    intro st hinv hwf
    have hv0 : v0 < V := hwf.2 v0 (by simp)
    have hv1 : v1 < V := hwf.2 v1 (by simp)
    have hv2 : v2 < V := hwf.2 v2 (by simp)
    obtain ⟨st1, h1⟩ := processTriangle_some hinv hv0 hv1 hv2
    have i1 := (processTriangle_inv hinv h1).1
    have hwf' : WellFormed V rest := by
      refine ⟨?_, fun i hi => hwf.2 i (by simp [hi])⟩
      have := hwf.1
      simp only [List.length_cons] at this
      omega
    obtain ⟨st', h'⟩ := ih i1 hwf'
    exact ⟨st', by simp only [firstPass, h1, h']⟩
  | case2 l hl =>
    intro st hinv hwf
    match l, hl with
    | [], _ => exact ⟨st, rfl⟩
    | [_], _ => simp [WellFormed] at hwf
    | [_, _], _ => simp [WellFormed] at hwf
    | v0 :: v1 :: v2 :: rest, hl => exact absurd rfl (hl v0 v1 v2 rest)


/-! ## The second and third passes -/

theorem setVertex_inv {γ : Type} {buf buf' : List γ} {i : Nat} {v : γ}
    (h : setVertex buf i v = some buf') :
    i < buf.length ∧ buf' = buf.set i v ∧ buf'.length = buf.length := by
  unfold setVertex at h
  split at h
  · rename_i hi
    simp only [Option.some.injEq] at h
    subst h
    exact ⟨hi, rfl, by simp⟩
  · cases h

theorem setVertex_some {γ : Type} {buf : List γ} {i : Nat} (v : γ) (h : i < buf.length) :
    setVertex buf i v = some (buf.set i v) := by
  simp [setVertex, h]

variable {α : Type} [LinearOrderedField α]

theorem midpointPosition_some {vertices : List (XrVector3f α)}
    {opps : List (Edge × List Nat)} {edge : Edge}
    (h1 : edge.1 < vertices.length) (h2 : edge.2 < vertices.length)
    (ho : ∀ p ∈ opps, ∀ o ∈ p.2, o < vertices.length) :
    ∃ p, midpointPosition vertices opps edge = some p := by
  unfold midpointPosition
  rw [List.getElem?_eq_getElem h1, List.getElem?_eq_getElem h2]
  simp only
  split
  · rename_i o0 o1 heq
    have hl : ∀ o ∈ (mapFind opps edge).getD [], o < vertices.length := by
      intro o hmem
      cases hf : mapFind opps edge with
      | none => simp [hf] at hmem
      | some l =>
        simp only [hf, Option.getD_some] at hmem
        exact ho _ (mem_of_mapFind hf) o hmem
    rw [heq] at hl
    have a0 : o0 < vertices.length := hl o0 (by simp)
    have a1 : o1 < vertices.length := hl o1 (by simp)
    rw [List.getElem?_eq_getElem a0, List.getElem?_eq_getElem a1]
    exact ⟨_, rfl⟩
  · exact ⟨_, rfl⟩

theorem secondPass_length {vertices : List (XrVector3f α)} {opps : List (Edge × List Nat)}
    (mids : List (Edge × Nat)) :
    ∀ {nv nv' : List (XrVector3f α)}, secondPass vertices opps mids nv = some nv' →
      nv'.length = nv.length := by
  induction mids with
  | nil =>
    intro nv nv' h
    simp only [secondPass, Option.some.injEq] at h
    rw [h]
  | cons q rest ih =>
    intro nv nv' h
    obtain ⟨edge, mid⟩ := q
    simp only [secondPass] at h
    split at h
    · cases h
    split at h
    · cases h
    rename_i nv1 hset
    rw [ih h, (setVertex_inv hset).2.2]

theorem secondPass_some {vertices : List (XrVector3f α)} {opps : List (Edge × List Nat)}
    (ho : ∀ p ∈ opps, ∀ o ∈ p.2, o < vertices.length) (mids : List (Edge × Nat)) :
    ∀ (nv : List (XrVector3f α)),
      (∀ p ∈ mids, p.1.1 < vertices.length ∧ p.1.2 < vertices.length ∧ p.2 < nv.length) →
      ∃ nv', secondPass vertices opps mids nv = some nv' := by
  induction mids with
  | nil =>
    intro nv _
    exact ⟨nv, rfl⟩
  | cons q rest ih =>
    intro nv hm
    obtain ⟨edge, mid⟩ := q
    obtain ⟨h1, h2, h3⟩ := hm (edge, mid) (List.mem_cons_self _ _)
    obtain ⟨p, hp⟩ := midpointPosition_some h1 h2 ho
    have hrest : ∀ p' ∈ rest, p'.1.1 < vertices.length ∧ p'.1.2 < vertices.length ∧
        p'.2 < (nv.set mid p).length := by
      intro p' hp'
      have := hm p' (List.mem_cons_of_mem _ hp')
      simpa using this
    obtain ⟨nv', hnv'⟩ := ih _ hrest
    exact ⟨nv', by simp only [secondPass, hp, setVertex_some p h3, hnv']⟩

theorem neighborSum_some {vertices : List (XrVector3f α)} (nbrs : List Nat) :
    ∀ acc : XrVector3f α, (∀ n ∈ nbrs, n < vertices.length) →
      ∃ s, neighborSum vertices nbrs acc = some s := by
  induction nbrs with
  | nil =>
    intro acc _
    exact ⟨acc, rfl⟩
  | cons n rest ih =>
    intro acc h
    have hn : n < vertices.length := h n (List.mem_cons_self _ _)
    obtain ⟨s, hs⟩ := ih (add acc vertices[n]) (fun m hm => h m (List.mem_cons_of_mem _ hm))
    exact ⟨s, by simp only [neighborSum, List.getElem?_eq_getElem hn, hs]⟩

theorem thirdPassStep_length {vertices : List (XrVector3f α)} {adjacency : List (List Nat)}
    {nv nv' : List (XrVector3f α)} {i : Nat}
    (h : thirdPassStep vertices adjacency nv i = some nv') : nv'.length = nv.length := by
  unfold thirdPassStep at h
  split at h
  · cases h
  simp only at h
  split at h
  · simp only [Option.some.injEq] at h
    rw [h]
  split at h
  · cases h
  split at h
  · cases h
  exact (setVertex_inv h).2.2

theorem thirdPassStep_some {vertices : List (XrVector3f α)} {adjacency : List (List Nat)}
    {nv : List (XrVector3f α)} {i : Nat}
    (hlen : adjacency.length = vertices.length)
    (hadj : ∀ l ∈ adjacency, ∀ n ∈ l, n < vertices.length)
    (hi : i < vertices.length) (hnv : vertices.length ≤ nv.length) :
    ∃ nv', thirdPassStep vertices adjacency nv i = some nv' := by
  unfold thirdPassStep
  have hi' : i < adjacency.length := by omega
  rw [List.getElem?_eq_getElem hi']
  simp only
  split
  · exact ⟨_, rfl⟩
  obtain ⟨s, hs⟩ := neighborSum_some adjacency[i] (⟨0, 0, 0⟩ : XrVector3f α)
    (hadj _ (List.getElem_mem hi'))
  rw [hs, List.getElem?_eq_getElem hi]
  simp only
  rw [setVertex_some _ (by omega : i < nv.length)]
  exact ⟨_, rfl⟩

theorem thirdPassLoop_length {vertices : List (XrVector3f α)} {adjacency : List (List Nat)}
    (is : List Nat) :
    ∀ {nv nv' : List (XrVector3f α)}, thirdPassLoop vertices adjacency is nv = some nv' →
      nv'.length = nv.length := by
  induction is with
  | nil =>
    intro nv nv' h
    simp only [thirdPassLoop, Option.some.injEq] at h
    rw [h]
  | cons i rest ih =>
    intro nv nv' h
    simp only [thirdPassLoop] at h
    split at h
    · cases h
    rename_i nv1 h1
    rw [ih h, thirdPassStep_length h1]

theorem thirdPassLoop_some {vertices : List (XrVector3f α)} {adjacency : List (List Nat)}
    (hlen : adjacency.length = vertices.length)
    (hadj : ∀ l ∈ adjacency, ∀ n ∈ l, n < vertices.length) (is : List Nat) :
    ∀ (nv : List (XrVector3f α)), (∀ i ∈ is, i < vertices.length) →
      vertices.length ≤ nv.length →
      ∃ nv', thirdPassLoop vertices adjacency is nv = some nv' := by
  induction is with
  | nil =>
    intro nv _ _
    exact ⟨nv, rfl⟩
  | cons i rest ih =>
    intro nv his hnv
    obtain ⟨nv1, h1⟩ := thirdPassStep_some hlen hadj (his i (List.mem_cons_self _ _)) hnv
    have hl := thirdPassStep_length h1
    obtain ⟨nv', h'⟩ := ih nv1 (fun j hj => his j (List.mem_cons_of_mem _ hj))
      (by omega)
    exact ⟨nv', by simp only [thirdPassLoop, h1, h']⟩

/-! ## One round -/

/-- The number of map entries equals the number of distinct edge keys. -/
theorem length_eq_distinctEdgeCount {mids : List (Edge × Nat)} {indices : List Nat}
    (hs : KeysSorted mids)
    (hk : ∀ e, (mapFind mids e).isSome = decide (e ∈ edgeKeys indices)) :
    mids.length = distinctEdgeCount indices := by
  have hnd := keysSorted_nodup hs
  have hset : (mids.map Prod.fst).toFinset = (edgeKeys indices).toFinset := by
    ext e
    simp only [List.mem_toFinset]
    have h := hk e
    by_cases hm : e ∈ edgeKeys indices
    · simp only [hm, decide_True] at h
      have : mapFind mids e ≠ none := by
        intro hn
        rw [hn] at h
        cases h
      rw [Ne, mapFind_none_iff, not_not] at this
      exact ⟨fun _ => hm, fun _ => this⟩
    · simp only [hm, decide_False] at h
      have : mapFind mids e = none := by
        cases hf : mapFind mids e with
        | none => rfl
        | some v =>
          rw [hf] at h
          cases h
      rw [mapFind_none_iff] at this
      exact ⟨fun h' => absurd h' this, fun h' => absurd h' hm⟩
  have h1 : (mids.map Prod.fst).toFinset.card = mids.length := by
    rw [List.toFinset_card_of_nodup hnd, List.length_map]
  rw [distinctEdgeCount, ← List.card_toFinset, ← hset, h1]

/-- What a round returns, in terms of the locals left by the first pass. -/
theorem apply_subdivision_eq_some {vertices : List (XrVector3f α)} {indices : List Nat}
    {r : List (XrVector3f α) × List Nat} (h : apply_subdivision vertices indices = some r) :
    ∃ st nv2, firstPass indices (initState vertices) = some st ∧
      secondPass vertices st.edgeToOppositeVertices st.edgeToMidpointIndex st.newVertices
        = some nv2 ∧
      thirdPassLoop vertices st.adjacency (List.range vertices.length) nv2 = some r.1 ∧
      r.2 = st.newIndices := by
  unfold apply_subdivision at h
  split at h
  · cases h
  rename_i st h1
  split at h
  · cases h
  rename_i nv2 h2
  split at h
  · cases h
  rename_i nv3 h3
  simp only [Option.some.injEq] at h
  subst h
  exact ⟨st, nv2, h1, h2, h3, rfl⟩

/-- A round that returns was given a well-formed mesh, and returns a well-formed
mesh with 4 times the triangles and one more vertex per distinct edge. -/
theorem apply_subdivision_inv {vertices : List (XrVector3f α)} {indices : List Nat}
    {r : List (XrVector3f α) × List Nat} (h : apply_subdivision vertices indices = some r) :
    WellFormed vertices.length indices ∧ WellFormed r.1.length r.2 ∧
      r.2.length = 4 * indices.length ∧
      r.1.length = vertices.length + distinctEdgeCount indices := by
  obtain ⟨st, nv2, h1, h2, h3, h4⟩ := apply_subdivision_eq_some h
  obtain ⟨inv, hwf, hlen, -, hkeys, -⟩ := firstPass_inv indices (stateInv_init vertices) h1
  have hl2 := secondPass_length _ h2
  have hl3 := thirdPassLoop_length _ h3
  have hcount : st.edgeToMidpointIndex.length = distinctEdgeCount indices := by
    apply length_eq_distinctEdgeCount inv.mid_sorted
    intro e
    rw [hkeys e]
    simp [initState, mapFind]
  have hnv := inv.nv_len
  simp only [initState, List.length_nil, Nat.zero_add] at hlen
  refine ⟨hwf, ⟨?_, ?_⟩, ?_, ?_⟩
  · rw [h4, hlen]
    have := hwf.1
    omega
  · intro i hi
    rw [h4] at hi
    have := inv.idx_lt i hi
    omega
  · rw [h4, hlen]
  · omega

/-- A round on a well-formed mesh returns. -/
theorem apply_subdivision_some {vertices : List (XrVector3f α)} {indices : List Nat}
    (hwf : WellFormed vertices.length indices) :
    ∃ r, apply_subdivision vertices indices = some r := by
  obtain ⟨st, h1⟩ := firstPass_some indices (stateInv_init vertices) hwf
  obtain ⟨inv, -⟩ := firstPass_inv indices (stateInv_init vertices) h1
  obtain ⟨nv2, h2⟩ := secondPass_some inv.opp_lt st.edgeToMidpointIndex st.newVertices
    (fun p hp => ⟨(inv.mid_key_lt p hp).1, (inv.mid_key_lt p hp).2, inv.mid_val_lt p hp⟩)
  have hl2 := secondPass_length _ h2
  have hnv := inv.nv_len
  obtain ⟨nv3, h3⟩ := thirdPassLoop_some inv.adj_len inv.adj_lt (List.range vertices.length)
    nv2 (fun i hi => List.mem_range.1 hi) (by omega)
  exact ⟨(nv3, st.newIndices), by simp only [apply_subdivision, h1, h2, h3]⟩


/-! ## Iterated rounds -/

theorem subdivideLoop_add (a b : Nat) :
    ∀ (vertices : List (XrVector3f α)) (indices : List Nat),
      subdivideLoop (a + b) vertices indices =
        (subdivideLoop a vertices indices).bind (fun m => subdivideLoop b m.1 m.2) := by
  induction a with
  | zero =>
    intro vertices indices
    simp [subdivideLoop]
  | succ n ih =>
    intro vertices indices
    rw [Nat.add_right_comm]
    simp only [subdivideLoop]
    cases apply_subdivision vertices indices with
    | none => rfl
    | some r => exact ih r.1 r.2

theorem subdivideLoop_some (n : Nat) :
    ∀ {vertices : List (XrVector3f α)} {indices : List Nat},
      WellFormed vertices.length indices →
      ∃ r, subdivideLoop n vertices indices = some r ∧ WellFormed r.1.length r.2 ∧
        r.2.length = 4 ^ n * indices.length := by
  induction n with
  | zero =>
    intro vertices indices hwf
    exact ⟨(vertices, indices), rfl, hwf, by simp⟩
  | succ n ih =>
    intro vertices indices hwf
    obtain ⟨r1, h1⟩ := apply_subdivision_some hwf
    obtain ⟨-, hwf1, hlen1, -⟩ := apply_subdivision_inv h1
    obtain ⟨r, hr, hwfr, hlenr⟩ := ih hwf1
    refine ⟨r, by simp only [subdivideLoop, h1, hr], hwfr, ?_⟩
    rw [hlenr, hlen1, pow_succ]
    ring

theorem subdivide_of_nonneg (vertices : List (XrVector3f α)) (indices : List Nat)
    {iterations : Int} (h : 0 ≤ iterations) :
    subdivide vertices indices iterations =
      subdivideLoop iterations.toNat vertices indices := by
  unfold subdivide
  split
  · rename_i h0
    have : iterations = 0 := le_antisymm h0 h
    subst this
    rfl
  · rfl

theorem subdivide_some {vertices : List (XrVector3f α)} {indices : List Nat}
    (hwf : WellFormed vertices.length indices) (iterations : Int) :
    ∃ r, subdivide vertices indices iterations = some r ∧ WellFormed r.1.length r.2 ∧
      r.2.length = 4 ^ iterations.toNat * indices.length := by
  by_cases h : 0 ≤ iterations
  · rw [subdivide_of_nonneg _ _ h]
    exact subdivideLoop_some _ hwf
  · have h0 : iterations ≤ 0 := by omega
    have ht : iterations.toNat = 0 := by omega
    refine ⟨(vertices, indices), by simp [subdivide, h0], hwf, ?_⟩
    rw [ht]
    simp

theorem subdivide_add (vertices : List (XrVector3f α)) (indices : List Nat)
    {a b : Int} (ha : 0 ≤ a) (hb : 0 ≤ b) :
    (subdivide vertices indices a).bind (fun m => subdivide m.1 m.2 b) =
      subdivide vertices indices (a + b) := by
  rw [subdivide_of_nonneg _ _ ha, subdivide_of_nonneg _ _ (add_nonneg ha hb),
    Int.toNat_add ha hb, subdivideLoop_add]
  congr 1
  funext m
  exact subdivide_of_nonneg _ _ hb

/-! ## Midpoint positions -/

/-- The locals after one turn of the inner loop, spelled out. -/
theorem processEdge_cases {p0 p1 opp m : Nat} {st st' : SubdivState α}
    (h : processEdge p0 p1 opp st = some (st', m)) :
    st'.edgeToOppositeVertices = mapInsert st.edgeToOppositeVertices (min p0 p1, max p0 p1)
        ((mapFind st.edgeToOppositeVertices (min p0 p1, max p0 p1)).getD [] ++ [opp]) ∧
      st'.newIndices = st.newIndices ∧
      (∃ adj1, pushAt st.adjacency p0 p1 = some adj1 ∧
        pushAt adj1 p1 p0 = some st'.adjacency) ∧
      ((mapFind st.edgeToMidpointIndex (min p0 p1, max p0 p1) = some m ∧
          st'.edgeToMidpointIndex = st.edgeToMidpointIndex ∧
          st'.newVertices = st.newVertices) ∨
        (mapFind st.edgeToMidpointIndex (min p0 p1, max p0 p1) = none ∧
          m = st.newVertices.length % 2 ^ 32 ∧
          st'.edgeToMidpointIndex =
            mapInsert st.edgeToMidpointIndex (min p0 p1, max p0 p1) m ∧
          st'.newVertices = st.newVertices ++ [⟨0, 0, 0⟩])) := by
  unfold processEdge at h
  split at h
  · cases h
  rename_i adj1 ha1
  split at h
  · cases h
  rename_i adj2 ha2
  simp only at h
  split at h
  · rename_i m' hm
    simp only [Option.some.injEq, Prod.mk.injEq] at h
    obtain ⟨hst, hmm⟩ := h
    subst hst hmm
    exact ⟨rfl, rfl, ⟨adj1, ha1, ha2⟩, Or.inl ⟨hm, rfl, rfl⟩⟩
  · rename_i hm
    simp only [Option.some.injEq, Prod.mk.injEq] at h
    obtain ⟨hst, hmm⟩ := h
    subst hst hmm
    exact ⟨rfl, rfl, ⟨adj1, ha1, ha2⟩, Or.inr ⟨hm, rfl, rfl, rfl⟩⟩

theorem midInv_init {γ : Type} (vertices : List (XrVector3f γ)) :
    MidInv vertices.length (initState vertices) where
  mid_ge := by simp [initState]
  mid_inj := by simp [initState]
  same_keys := by simp [initState, mapFind]

theorem processEdge_midInv {V p0 p1 opp m : Nat} {st st' : SubdivState α}
    (hinv : StateInv V st) (hmid : MidInv V st) (hsz : st'.newVertices.length ≤ 2 ^ 32)
    (h : processEdge p0 p1 opp st = some (st', m)) : MidInv V st' := by
  obtain ⟨hopp, -, -, hcase⟩ := processEdge_cases h
  have hkeys : ∀ e, (mapFind st'.edgeToOppositeVertices e).isSome =
      ((mapFind st.edgeToOppositeVertices e).isSome ||
        decide (e = (min p0 p1, max p0 p1))) := by
    intro e
    rw [hopp, mapFind_mapInsert]
    by_cases he : (min p0 p1, max p0 p1) = e
    · simp [he]
    · simp [he, Ne.symm he]
  rcases hcase with ⟨hm, hmids, hnv⟩ | ⟨hm, hmval, hmids, hnv⟩
  · refine ⟨?_, ?_, ?_⟩
    · rw [hmids]
      exact hmid.mid_ge
    · rw [hmids]
      exact hmid.mid_inj
    · intro e
      rw [hkeys e, hmids, hmid.same_keys e]
      by_cases he : e = (min p0 p1, max p0 p1)
      · subst he
        simp [hm]
      · simp [he]
  · have hlt : st.newVertices.length < 2 ^ 32 := by
      rw [hnv, List.length_append, List.length_singleton] at hsz
      omega
    have hmod : st.newVertices.length % 2 ^ 32 = st.newVertices.length :=
      Nat.mod_eq_of_lt hlt
    rw [hmod] at hmval
    subst hmval
    have hlen := hinv.nv_len
    refine ⟨?_, ?_, ?_⟩
    · intro p hp
      rw [hmids] at hp
      rcases mem_mapInsert hp with h1 | h1
      · subst h1
        simp only
        omega
      · exact hmid.mid_ge p h1
    · intro p hp q hq hpq
      rw [hmids] at hp hq
      rcases mem_mapInsert hp with h1 | h1 <;> rcases mem_mapInsert hq with h2 | h2
      · rw [h1, h2]
      · have := hinv.mid_val_lt q h2
        subst h1
        simp only at hpq
        omega
      · have := hinv.mid_val_lt p h1
        subst h2
        simp only at hpq
        omega
      · exact hmid.mid_inj p h1 q h2 hpq
    · intro e
      rw [hkeys e, hmids, hmid.same_keys e, mapFind_mapInsert]
      by_cases he : e = (min p0 p1, max p0 p1)
      · subst he
        simp
      · simp [he, Ne.symm he]

theorem processTriangle_midInv {V v0 v1 v2 : Nat} {st st' : SubdivState α}
    (hinv : StateInv V st) (hmid : MidInv V st) (hsz : st'.newVertices.length ≤ 2 ^ 32)
    (h : processTriangle v0 v1 v2 st = some st') : MidInv V st' := by
  obtain ⟨-, hv0, hv1, hv2, -⟩ := processTriangle_inv hinv h
  unfold processTriangle at h
  split at h
  · cases h
  rename_i st1 m0 h0
  split at h
  · cases h
  rename_i st2 m1 h1
  split at h
  · cases h
  rename_i st3 m2 h2
  simp only [Option.some.injEq] at h
  subst h
  simp only at hsz
  obtain ⟨i1, -, -, -, -, l1, -⟩ := processEdge_inv hinv hv2 h0
  obtain ⟨i2, -, -, -, -, l2, -⟩ := processEdge_inv i1 hv0 h1
  obtain ⟨-, -, -, -, -, l3, -⟩ := processEdge_inv i2 hv1 h2
  have k1 := processEdge_midInv hinv hmid (by omega) h0
  have k2 := processEdge_midInv i1 k1 (by omega) h1
  have k3 := processEdge_midInv i2 k2 hsz h2
  exact ⟨k3.mid_ge, k3.mid_inj, k3.same_keys⟩

theorem firstPass_midInv {V : Nat} (indices : List Nat) :
    ∀ {st st' : SubdivState α}, StateInv V st → MidInv V st →
      st'.newVertices.length ≤ 2 ^ 32 →
      firstPass indices st = some st' → MidInv V st' := by
  induction indices using edgeKeys.induct with
  | case1 v0 v1 v2 rest ih =>
    intro st st' hinv hmid hsz h
    simp only [firstPass] at h
    split at h
    · cases h
    rename_i st1 h1
    have i1 := (processTriangle_inv hinv h1).1
    obtain ⟨-, -, -, l2, -⟩ := firstPass_inv rest i1 h
    exact ih i1 (processTriangle_midInv hinv hmid (by omega) h1) hsz h
  | case2 l hl =>
    intro st st' hinv hmid hsz h
    match l, hl with
    | [], _ =>
      simp only [firstPass, Option.some.injEq] at h
      subst h
      exact hmid
    | [_], _ => simp [firstPass] at h
    | [_, _], _ => simp [firstPass] at h
    | v0 :: v1 :: v2 :: rest, hl => exact absurd rfl (hl v0 v1 v2 rest)

/-- The first pass leaves one vertex slot per input vertex and per distinct
edge key. -/
theorem firstPass_vertex_count {vertices : List (XrVector3f α)} {indices : List Nat}
    {st : SubdivState α} (h : firstPass indices (initState vertices) = some st) :
    st.newVertices.length = vertices.length + distinctEdgeCount indices := by
  obtain ⟨inv, -, -, -, hkeys, -⟩ := firstPass_inv indices (stateInv_init vertices) h
  have hcount : st.edgeToMidpointIndex.length = distinctEdgeCount indices := by
    apply length_eq_distinctEdgeCount inv.mid_sorted
    intro e
    rw [hkeys e]
    simp [initState, mapFind]
  rw [inv.nv_len, hcount]

/-- The second pass stores, for each entry of the midpoint map, the position
computed for its edge at its midpoint index, and touches nothing else, when no
two entries share a midpoint index. -/
theorem secondPass_get {vertices : List (XrVector3f α)} {opps : List (Edge × List Nat)}
    (mids : List (Edge × Nat)) :
    ∀ {nv nv' : List (XrVector3f α)}, (mids.map Prod.snd).Nodup →
      secondPass vertices opps mids nv = some nv' →
      (∀ p ∈ mids, ∃ pos, midpointPosition vertices opps p.1 = some pos ∧
        nv'[p.2]? = some pos) ∧
      (∀ j, (∀ p ∈ mids, p.2 ≠ j) → nv'[j]? = nv[j]?) := by
  induction mids with
  | nil =>
    intro nv nv' _ h
    simp only [secondPass, Option.some.injEq] at h
    subst h
    exact ⟨by simp, fun _ _ => rfl⟩
  | cons q rest ih =>
    intro nv nv' hnd h
    obtain ⟨edge, mid⟩ := q
    simp only [List.map_cons, List.nodup_cons, List.mem_map, not_exists, not_and] at hnd
    simp only [secondPass] at h
    split at h
    · cases h
    rename_i pos hpos
    split at h
    · cases h
    rename_i nv1 hset
    obtain ⟨hlt, hnv1, -⟩ := setVertex_inv hset
    obtain ⟨ih1, ih2⟩ := ih hnd.2 h
    constructor
    · intro p hp
      rcases List.mem_cons.1 hp with hp | hp
      · subst hp
        refine ⟨pos, hpos, ?_⟩
        rw [ih2 mid (fun p' hp' heq => hnd.1 p' hp' heq), hnv1]
        simp [hlt]
      · exact ih1 p hp
    · intro j hj
      rw [ih2 j (fun p hp => hj p (List.mem_cons_of_mem _ hp)), hnv1]
      have : mid ≠ j := hj (edge, mid) (List.mem_cons_self _ _)
      simp [List.getElem?_set, this]

theorem thirdPassStep_get {vertices : List (XrVector3f α)} {adjacency : List (List Nat)}
    {nv nv' : List (XrVector3f α)} {i : Nat}
    (h : thirdPassStep vertices adjacency nv i = some nv') :
    ∀ j, j ≠ i → nv'[j]? = nv[j]? := by
  intro j hj
  unfold thirdPassStep at h
  split at h
  · cases h
  simp only at h
  split at h
  · simp only [Option.some.injEq] at h
    rw [h]
  split at h
  · cases h
  split at h
  · cases h
  rw [(setVertex_inv h).2.1]
  simp [List.getElem?_set, Ne.symm hj]

/-- The third pass leaves alone every slot whose index it does not visit. -/
theorem thirdPassLoop_get {vertices : List (XrVector3f α)} {adjacency : List (List Nat)}
    (is : List Nat) :
    ∀ {nv nv' : List (XrVector3f α)}, thirdPassLoop vertices adjacency is nv = some nv' →
      ∀ j, j ∉ is → nv'[j]? = nv[j]? := by
  induction is with
  | nil =>
    intro nv nv' h j _
    simp only [thirdPassLoop, Option.some.injEq] at h
    rw [h]
  | cons i rest ih =>
    intro nv nv' h j hj
    simp only [thirdPassLoop] at h
    split at h
    · cases h
    rename_i nv1 h1
    simp only [List.mem_cons, not_or] at hj
    rw [ih h j hj.2, thirdPassStep_get h1 j hj.1]

theorem nodup_midpoint_indices {γ : Type} {V : Nat} {st : SubdivState γ}
    (hinv : StateInv V st) (hmid : MidInv V st) :
    (st.edgeToMidpointIndex.map Prod.snd).Nodup := by
  rw [List.Nodup, List.pairwise_map]
  have hs : st.edgeToMidpointIndex.Pairwise (fun a b => edgeLess a.1 b.1 = true) :=
    hinv.mid_sorted
  refine List.Pairwise.imp_of_mem ?_ hs
  intro a b ha hb hlt heq
  rw [hmid.mid_inj a ha b hb heq, edgeLess_irrefl] at hlt
  exact Bool.noConfusion hlt

/-- After a round that returns at most `2 ^ 32` vertices, every edge key of the
first pass has a midpoint index past the original vertices, and the output
holds at that index the position the second pass computed for the edge. -/
theorem apply_subdivision_midpoint {vertices : List (XrVector3f α)} {indices : List Nat}
    (hwf : WellFormed vertices.length indices)
    (hsz : vertices.length + distinctEdgeCount indices ≤ 2 ^ 32)
    {e : Edge} {os : List Nat} (he : oppositesOf vertices indices e = some os) :
    ∃ r st m pos, apply_subdivision vertices indices = some r ∧
      firstPass indices (initState vertices) = some st ∧
      mapFind st.edgeToOppositeVertices e = some os ∧
      midpointIndexOf vertices indices e = some m ∧
      midpointPosition vertices st.edgeToOppositeVertices e = some pos ∧
      vertices.length ≤ m ∧ r.1[m]? = some pos := by
  obtain ⟨r, hr⟩ := apply_subdivision_some hwf
  obtain ⟨st, nv2, h1, h2, h3, -⟩ := apply_subdivision_eq_some hr
  obtain ⟨inv, -⟩ := firstPass_inv indices (stateInv_init vertices) h1
  have hmid := firstPass_midInv indices (stateInv_init vertices) (midInv_init vertices)
    (by rw [firstPass_vertex_count h1]; exact hsz) h1
  simp only [oppositesOf, h1] at he
  have hsome : (mapFind st.edgeToMidpointIndex e).isSome = true := by
    rw [← hmid.same_keys e, he]
    rfl
  obtain ⟨m, hm⟩ := Option.isSome_iff_exists.1 hsome
  have hmem := mem_of_mapFind hm
  obtain ⟨g1, -⟩ := secondPass_get st.edgeToMidpointIndex (nodup_midpoint_indices inv hmid) h2
  obtain ⟨pos, hpos, hget⟩ := g1 (e, m) hmem
  have hge : vertices.length ≤ m := hmid.mid_ge (e, m) hmem
  refine ⟨r, st, m, pos, hr, h1, he, by simp only [midpointIndexOf, h1, hm], hpos, hge, ?_⟩
  rw [thirdPassLoop_get _ h3 m (by simp only [List.mem_range]; omega)]
  exact hget

theorem add_comm_vec (a b : XrVector3f α) : add a b = add b a := by
  simp only [add, XrVector3f.mk.injEq]
  exact ⟨add_comm _ _, add_comm _ _, add_comm _ _⟩

theorem midpointPosition_interior {vertices : List (XrVector3f α)}
    {opps : List (Edge × List Nat)} {e : Edge} {C D : Nat} {pos : XrVector3f α}
    (ho : mapFind opps e = some [C, D]) (h : midpointPosition vertices opps e = some pos) :
    ∃ p0 p1 pC pD, vertices[e.1]? = some p0 ∧ vertices[e.2]? = some p1 ∧
      vertices[C]? = some pC ∧ vertices[D]? = some pD ∧
      pos = add (scalar_multiply (add p0 p1) (3 / 8)) (scalar_multiply (add pC pD) (1 / 8)) := by
  unfold midpointPosition at h
  split at h
  · rename_i p0 p1 h0 h1
    simp only [ho, Option.getD_some] at h
    split at h
    · rename_i pC pD hC hD
      simp only [Option.some.injEq] at h
      exact ⟨p0, p1, pC, pD, h0, h1, hC, hD, h.symm⟩
    · cases h
  · cases h

theorem midpointPosition_boundary {vertices : List (XrVector3f α)}
    {opps : List (Edge × List Nat)} {e : Edge} {os : List Nat} {pos : XrVector3f α}
    (ho : mapFind opps e = some os) (hlen : os.length ≠ 2)
    (h : midpointPosition vertices opps e = some pos) :
    ∃ p0 p1, vertices[e.1]? = some p0 ∧ vertices[e.2]? = some p1 ∧
      pos = scalar_multiply (add p0 p1) (1 / 2) := by
  unfold midpointPosition at h
  split at h
  · rename_i p0 p1 h0 h1
    simp only [ho, Option.getD_some] at h
    split at h
    · exact absurd rfl hlen
    · simp only [Option.some.injEq] at h
      exact ⟨p0, p1, h0, h1, h.symm⟩
  · cases h

theorem wellFormed_of_oppositesOf {vertices : List (XrVector3f α)} {indices : List Nat}
    {e : Edge} {os : List Nat} (h : oppositesOf vertices indices e = some os) :
    WellFormed vertices.length indices := by
  unfold oppositesOf at h
  split at h
  · cases h
  · rename_i st hst
    exact (firstPass_inv indices (stateInv_init vertices) hst).2.1

/-- The endpoints of a canonical key, read back in the order `A`, `B`. -/
theorem endpoints_of_key {vertices : List (XrVector3f α)} {A B : Nat} {p0 p1 : XrVector3f α}
    (h0 : vertices[(min A B, max A B).1]? = some p0)
    (h1 : vertices[(min A B, max A B).2]? = some p1) :
    ∃ pA pB, vertices[A]? = some pA ∧ vertices[B]? = some pB ∧ add p0 p1 = add pA pB := by
  simp only at h0 h1
  rcases Nat.le_total A B with hab | hab
  · rw [Nat.min_eq_left hab] at h0
    rw [Nat.max_eq_right hab] at h1
    exact ⟨p0, p1, h0, h1, rfl⟩
  · rw [Nat.min_eq_right hab] at h0
    rw [Nat.max_eq_left hab] at h1
    exact ⟨p1, p0, h1, h0, add_comm_vec p0 p1⟩

/-! ## The mesh expander -/

theorem expand_mesh_of_small (sqrt : α → α) (vertices : List (XrVector3f α))
    (indices : List Nat) {d : α} (hd : |d| < 1 / 1000000) :
    expand_mesh sqrt vertices indices d = some vertices := by
  unfold expand_mesh
  rw [if_pos hd]

theorem zero_add_vec (n : XrVector3f α) : add ⟨0, 0, 0⟩ n = n := by
  cases n
  simp [add]

theorem add_zero_vec (v : XrVector3f α) : add v ⟨0, 0, 0⟩ = v := by
  cases v
  simp [add]

/-- Step 1 on a single triangle leaves the face normal in all three
accumulators. -/
theorem accumulateNormals_single (v0 v1 v2 : XrVector3f α) :
    accumulateNormals [v0, v1, v2] [0, 1, 2]
        (List.replicate ([v0, v1, v2] : List (XrVector3f α)).length ⟨0, 0, 0⟩) =
      some [cross_product (subtract v1 v0) (subtract v2 v0),
        cross_product (subtract v1 v0) (subtract v2 v0),
        cross_product (subtract v1 v0) (subtract v2 v0)] := by
  simp [accumulateNormals, addAt, List.replicate, zero_add_vec]

/-- The result of `expand_mesh` on a single triangle once the distance passes
the tolerance test. -/
theorem expand_mesh_single (sqrt : α → α) (v0 v1 v2 : XrVector3f α) {d : α}
    (hd : ¬ |d| < 1 / 1000000) :
    expand_mesh sqrt [v0, v1, v2] [0, 1, 2] d =
      some [add v0 (scalar_multiply
              (VectorMath.normalize sqrt (cross_product (subtract v1 v0) (subtract v2 v0))) d),
            add v1 (scalar_multiply
              (VectorMath.normalize sqrt (cross_product (subtract v1 v0) (subtract v2 v0))) d),
            add v2 (scalar_multiply
              (VectorMath.normalize sqrt (cross_product (subtract v1 v0) (subtract v2 v0))) d)] := by
  unfold expand_mesh
  rw [if_neg hd, accumulateNormals_single]
  rfl

/-- A vector scaled to length `|d|` along `n`, over the reals. -/
theorem magnitude_scaled (n : XrVector3f ℝ) (d : ℝ) (hn : 0 < magnitude Real.sqrt n) :
    magnitude Real.sqrt (scalar_multiply n (d / magnitude Real.sqrt n)) = |d| := by
  have hS : 0 ≤ n.x * n.x + n.y * n.y + n.z * n.z :=
    add_nonneg (add_nonneg (mul_self_nonneg _) (mul_self_nonneg _)) (mul_self_nonneg _)
  have hm : magnitude Real.sqrt n * magnitude Real.sqrt n =
      n.x * n.x + n.y * n.y + n.z * n.z := Real.mul_self_sqrt hS
  have hne : magnitude Real.sqrt n ≠ 0 := ne_of_gt hn
  have hsum : n.x * (d / magnitude Real.sqrt n) * (n.x * (d / magnitude Real.sqrt n)) +
      n.y * (d / magnitude Real.sqrt n) * (n.y * (d / magnitude Real.sqrt n)) +
      n.z * (d / magnitude Real.sqrt n) * (n.z * (d / magnitude Real.sqrt n)) = d ^ 2 := by
    have : n.x * (d / magnitude Real.sqrt n) * (n.x * (d / magnitude Real.sqrt n)) +
        n.y * (d / magnitude Real.sqrt n) * (n.y * (d / magnitude Real.sqrt n)) +
        n.z * (d / magnitude Real.sqrt n) * (n.z * (d / magnitude Real.sqrt n)) =
        (n.x * n.x + n.y * n.y + n.z * n.z) * d ^ 2 /
          (magnitude Real.sqrt n * magnitude Real.sqrt n) := by
      field_simp
      ring
    rw [this, hm]
    field_simp [(hm ▸ mul_ne_zero hne hne : n.x * n.x + n.y * n.y + n.z * n.z ≠ 0)]
  show Real.sqrt _ = |d|
  simp only [scalar_multiply]
  rw [hsum, Real.sqrt_sq_eq_abs]

/-! ## Original vertices -/

theorem neighborSum_eq {vertices : List (XrVector3f α)} (nbrs : List Nat) :
    ∀ {acc s : XrVector3f α}, neighborSum vertices nbrs acc = some s →
      s = add acc (positionSum vertices nbrs) := by
  induction nbrs with
  | nil =>
    intro acc s h
    simp only [neighborSum, Option.some.injEq] at h
    subst h
    cases acc
    simp [add, positionSum]
  | cons n rest ih =>
    intro acc s h
    simp only [neighborSum] at h
    split at h
    · cases h
    rename_i p hp
    rw [ih h]
    have hget : vertices.getD n ⟨0, 0, 0⟩ = p := by
      rw [List.getD_eq_getElem?_getD, hp]
      rfl
    simp only [add, positionSum, List.map_cons, List.sum_cons, hget, XrVector3f.mk.injEq]
    refine ⟨?_, ?_, ?_⟩ <;> ring

/-- What the body of the third-pass loop leaves at the index it visits. -/
theorem thirdPassStep_self {vertices : List (XrVector3f α)} {adjacency : List (List Nat)}
    {nv nv' : List (XrVector3f α)} {i : Nat} {nbrs : List Nat}
    (hadj : adjacency[i]? = some nbrs)
    (h : thirdPassStep vertices adjacency nv i = some nv') :
    (nbrs.length < 2 → nv' = nv) ∧
    (2 ≤ nbrs.length → ∃ p, vertices[i]? = some p ∧
      nv'[i]? = some (smoothedPosition nbrs.length p (positionSum vertices nbrs))) := by
  unfold thirdPassStep at h
  rw [hadj] at h
  simp only at h
  split at h
  · rename_i hk
    simp only [Option.some.injEq] at h
    exact ⟨fun _ => h.symm, fun h2 => absurd hk (by omega)⟩
  rename_i hk
  refine ⟨fun h2 => absurd h2 hk, fun _ => ?_⟩
  split at h
  · cases h
  rename_i s hs
  split at h
  · cases h
  rename_i p hp
  obtain ⟨hlt, hset, -⟩ := setVertex_inv h
  refine ⟨p, hp, ?_⟩
  rw [hset, neighborSum_eq nbrs hs, zero_add_vec]
  simp only [List.getElem?_set, hlt, if_true, Option.some.injEq, add, scalar_multiply,
    smoothedPosition, betaWeight, XrVector3f.mk.injEq]
  refine ⟨?_, ?_, ?_⟩ <;> ring

/-- The third pass leaves at a visited index what the loop body computed for
it. -/
theorem thirdPassLoop_self {vertices : List (XrVector3f α)} {adjacency : List (List Nat)}
    {i : Nat} {nbrs : List Nat} (hadj : adjacency[i]? = some nbrs) (is : List Nat) :
    ∀ {nv nv' : List (XrVector3f α)}, is.Nodup → i ∈ is →
      thirdPassLoop vertices adjacency is nv = some nv' →
      (nbrs.length < 2 → nv'[i]? = nv[i]?) ∧
      (2 ≤ nbrs.length → ∃ p, vertices[i]? = some p ∧
        nv'[i]? = some (smoothedPosition nbrs.length p (positionSum vertices nbrs))) := by
  induction is with
  | nil =>
    intro nv nv' _ hi _
    cases hi
  | cons j rest ih =>
    intro nv nv' hnd hi h
    simp only [thirdPassLoop] at h
    split at h
    · cases h
    rename_i nv1 h1
    rw [List.nodup_cons] at hnd
    by_cases hij : i = j
    · subst hij
      have hrest := thirdPassLoop_get rest h i hnd.1
      obtain ⟨s1, s2⟩ := thirdPassStep_self hadj h1
      refine ⟨fun hk => ?_, fun hk => ?_⟩
      · rw [hrest, s1 hk]
      · obtain ⟨p, hp, hv⟩ := s2 hk
        exact ⟨p, hp, by rw [hrest, hv]⟩
    · have hi' : i ∈ rest := by
        rcases List.mem_cons.1 hi with h' | h'
        · exact absurd h' hij
        · exact h'
      obtain ⟨r1, r2⟩ := ih hnd.2 hi' h
      have hstep := thirdPassStep_get h1 i hij
      refine ⟨fun hk => ?_, r2⟩
      rw [r1 hk, hstep]

theorem processEdge_extends {p0 p1 opp m : Nat} {st st' : SubdivState α}
    (h : processEdge p0 p1 opp st = some (st', m)) :
    st.newVertices <+: st'.newVertices := by
  obtain ⟨-, -, -, hcase⟩ := processEdge_cases h
  rcases hcase with ⟨-, -, hnv⟩ | ⟨-, -, -, hnv⟩
  · rw [hnv]
  · rw [hnv]
    exact List.prefix_append _ _

theorem processTriangle_extends {v0 v1 v2 : Nat} {st st' : SubdivState α}
    (h : processTriangle v0 v1 v2 st = some st') :
    st.newVertices <+: st'.newVertices := by
  unfold processTriangle at h
  split at h
  · cases h
  rename_i st1 m0 h0
  split at h
  · cases h
  rename_i st2 m1 h1
  split at h
  · cases h
  rename_i st3 m2 h2
  simp only [Option.some.injEq] at h
  subst h
  have q0 := processEdge_extends h0
  have q1 := processEdge_extends h1
  have q2 := processEdge_extends h2
  exact q0.trans (q1.trans q2)

/-- The first pass only appends to `newVertices`. -/
theorem firstPass_extends (indices : List Nat) :
    ∀ {st st' : SubdivState α}, firstPass indices st = some st' →
      st.newVertices <+: st'.newVertices := by
  induction indices using edgeKeys.induct with
  | case1 v0 v1 v2 rest ih =>
    intro st st' h
    simp only [firstPass] at h
    split at h
    · cases h
    rename_i st1 h1
    exact (processTriangle_extends h1).trans (ih h)
  | case2 l hl =>
    intro st st' h
    match l, hl with
    | [], _ =>
      simp only [firstPass, Option.some.injEq] at h
      subst h
      exact List.prefix_refl _
    | [_], _ => simp [firstPass] at h
    | [_, _], _ => simp [firstPass] at h
    | v0 :: v1 :: v2 :: rest, hl => exact absurd rfl (hl v0 v1 v2 rest)

theorem wellFormed_of_adjacencyOf {vertices : List (XrVector3f α)} {indices : List Nat}
    {i : Nat} {nbrs : List Nat} (h : adjacencyOf vertices indices i = some nbrs) :
    WellFormed vertices.length indices ∧ i < vertices.length := by
  unfold adjacencyOf at h
  split at h
  · cases h
  · rename_i st hst
    obtain ⟨inv, hwf, -⟩ := firstPass_inv indices (stateInv_init vertices) hst
    refine ⟨hwf, ?_⟩
    have := (List.getElem?_eq_some_iff.1 h).1
    rw [inv.adj_len] at this
    exact this

/-- What a round leaves at the index of an original vertex with at least two
adjacency entries: the smoothed position, whatever the second pass wrote. -/
theorem apply_subdivision_smoothed {vertices : List (XrVector3f α)} {indices : List Nat}
    {i : Nat} {nbrs : List Nat} (hadj : adjacencyOf vertices indices i = some nbrs)
    (hk : 2 ≤ nbrs.length) :
    ∃ r p, apply_subdivision vertices indices = some r ∧ vertices[i]? = some p ∧
      r.1[i]? = some (smoothedPosition nbrs.length p (positionSum vertices nbrs)) := by
  obtain ⟨hwf, hi⟩ := wellFormed_of_adjacencyOf hadj
  obtain ⟨r, hr⟩ := apply_subdivision_some hwf
  obtain ⟨st, nv2, h1, h2, h3, -⟩ := apply_subdivision_eq_some hr
  simp only [adjacencyOf, h1] at hadj
  obtain ⟨-, s2⟩ := thirdPassLoop_self hadj (List.range vertices.length)
    (List.nodup_range _) (List.mem_range.2 hi) h3
  obtain ⟨p, hp, hv⟩ := s2 hk
  exact ⟨r, p, hr, hp, hv⟩

/-- What a round that returns at most `2 ^ 32` vertices leaves at the index of
an original vertex with fewer than two adjacency entries: its input position. -/
theorem apply_subdivision_untouched {vertices : List (XrVector3f α)} {indices : List Nat}
    {i : Nat} {nbrs : List Nat} (hsz : vertices.length + distinctEdgeCount indices ≤ 2 ^ 32)
    (hadj : adjacencyOf vertices indices i = some nbrs) (hk : nbrs.length < 2) :
    ∃ r, apply_subdivision vertices indices = some r ∧ r.1[i]? = vertices[i]? := by
  obtain ⟨hwf, hi⟩ := wellFormed_of_adjacencyOf hadj
  obtain ⟨r, hr⟩ := apply_subdivision_some hwf
  obtain ⟨st, nv2, h1, h2, h3, -⟩ := apply_subdivision_eq_some hr
  simp only [adjacencyOf, h1] at hadj
  obtain ⟨inv, -⟩ := firstPass_inv indices (stateInv_init vertices) h1
  have hmid := firstPass_midInv indices (stateInv_init vertices) (midInv_init vertices)
    (by rw [firstPass_vertex_count h1]; exact hsz) h1
  obtain ⟨s1, -⟩ := thirdPassLoop_self hadj (List.range vertices.length)
    (List.nodup_range _) (List.mem_range.2 hi) h3
  obtain ⟨-, g2⟩ := secondPass_get st.edgeToMidpointIndex (nodup_midpoint_indices inv hmid) h2
  have hpass2 : nv2[i]? = st.newVertices[i]? := by
    apply g2
    intro p hp heq
    have := hmid.mid_ge p hp
    omega
  obtain ⟨tail, htail⟩ := firstPass_extends indices h1
  have hpass1 : st.newVertices[i]? = vertices[i]? := by
    rw [← htail]
    simp only [initState]
    exact List.getElem?_append_left hi
  exact ⟨r, hr, by rw [s1 hk, hpass2, hpass1]⟩

theorem pushAt_get_of_ne {adj adj' : List (List Nat)} {p q j : Nat}
    (h : pushAt adj p q = some adj') (hj : j ≠ p) : adj'[j]? = adj[j]? := by
  unfold pushAt at h
  split at h
  · simp only [Option.some.injEq] at h
    subst h
    simp [List.getElem?_set, Ne.symm hj]
  · cases h

theorem processEdge_adjacency_of_ne {p0 p1 opp m j : Nat} {st st' : SubdivState α}
    (h : processEdge p0 p1 opp st = some (st', m)) (h0 : j ≠ p0) (h1 : j ≠ p1) :
    st'.adjacency[j]? = st.adjacency[j]? := by
  obtain ⟨-, -, ⟨adj1, ha1, ha2⟩, -⟩ := processEdge_cases h
  rw [pushAt_get_of_ne ha2 h1, pushAt_get_of_ne ha1 h0]

theorem processTriangle_adjacency_of_ne {v0 v1 v2 j : Nat} {st st' : SubdivState α}
    (h : processTriangle v0 v1 v2 st = some st') (h0 : j ≠ v0) (h1 : j ≠ v1) (h2 : j ≠ v2) :
    st'.adjacency[j]? = st.adjacency[j]? := by
  unfold processTriangle at h
  split at h
  · cases h
  rename_i st1 m0 e0
  split at h
  · cases h
  rename_i st2 m1 e1
  split at h
  · cases h
  rename_i st3 m2 e2
  simp only [Option.some.injEq] at h
  subst h
  have q0 := processEdge_adjacency_of_ne e0 h0 h1
  have q1 := processEdge_adjacency_of_ne e1 h1 h2
  have q2 := processEdge_adjacency_of_ne e2 h2 h0
  simp only
  rw [q2, q1, q0]

/-- The first pass leaves alone the adjacency list of a vertex that no
triangle references. -/
theorem firstPass_adjacency_of_not_mem (indices : List Nat) {j : Nat} :
    ∀ {st st' : SubdivState α}, firstPass indices st = some st' → j ∉ indices →
      st'.adjacency[j]? = st.adjacency[j]? := by
  induction indices using edgeKeys.induct with
  | case1 v0 v1 v2 rest ih =>
    intro st st' h hj
    simp only [firstPass] at h
    split at h
    · cases h
    rename_i st1 h1
    simp only [List.mem_cons, not_or] at hj
    rw [ih h hj.2.2.2, processTriangle_adjacency_of_ne h1 hj.1 hj.2.1 hj.2.2.1]
  | case2 l hl =>
    intro st st' h hj
    match l, hl with
    | [], _ =>
      simp only [firstPass, Option.some.injEq] at h
      subst h
      rfl
    | [_], _ => simp [firstPass] at h
    | [_, _], _ => simp [firstPass] at h
    | v0 :: v1 :: v2 :: rest, hl => exact absurd rfl (hl v0 v1 v2 rest)

theorem adjacencyOf_of_not_mem {vertices : List (XrVector3f α)} {indices : List Nat}
    {i : Nat} (hwf : WellFormed vertices.length indices) (hi : i < vertices.length)
    (hmem : i ∉ indices) : adjacencyOf vertices indices i = some [] := by
  obtain ⟨st, h1⟩ := firstPass_some indices (stateInv_init vertices) hwf
  simp only [adjacencyOf, h1]
  rw [firstPass_adjacency_of_not_mem indices h1 hmem]
  simp [initState, hi]

/-! ## Emitted triangles -/

/-- The 12 indices one triangle appends, with the midpoint indices as the map
holds them afterwards. -/
theorem processTriangle_indices {V v0 v1 v2 : Nat} {st st' : SubdivState α}
    (hinv : StateInv V st) (h : processTriangle v0 v1 v2 st = some st') :
    ∃ m0 m1 m2, mapFind st'.edgeToMidpointIndex (min v0 v1, max v0 v1) = some m0 ∧
      mapFind st'.edgeToMidpointIndex (min v1 v2, max v1 v2) = some m1 ∧
      mapFind st'.edgeToMidpointIndex (min v2 v0, max v2 v0) = some m2 ∧
      st'.newIndices = st.newIndices ++
        [v0, m0, m2, v1, m1, m0, v2, m2, m1, m0, m1, m2] := by
  obtain ⟨-, hv0, hv1, hv2, -⟩ := processTriangle_inv hinv h
  unfold processTriangle at h
  split at h
  · cases h
  rename_i st1 m0 h0
  split at h
  · cases h
  rename_i st2 m1 h1
  split at h
  · cases h
  rename_i st3 m2 h2
  simp only [Option.some.injEq] at h
  subst h
  obtain ⟨i1, -, -, -, hi1, -, hk1, -, hp1⟩ := processEdge_inv hinv hv2 h0
  obtain ⟨i2, -, -, -, hi2, -, hk2, -, hp2⟩ := processEdge_inv i1 hv0 h1
  obtain ⟨-, -, -, -, hi3, -, hk3, -, hp3⟩ := processEdge_inv i2 hv1 h2
  refine ⟨m0, m1, m2, hp3 _ _ (hp2 _ _ hk1), hp3 _ _ hk2, hk3, ?_⟩
  simp only [hi3, hi2, hi1]

/-- The index buffer the first pass builds is `childIndices` of the input for
the midpoint map it ends with. -/
theorem firstPass_indices {V : Nat} (indices : List Nat) :
    ∀ {st st' : SubdivState α}, StateInv V st → firstPass indices st = some st' →
      st'.newIndices = st.newIndices ++
        childIndices (fun e => (mapFind st'.edgeToMidpointIndex e).getD 0) indices := by
  induction indices using edgeKeys.induct with
  | case1 v0 v1 v2 rest ih =>
    intro st st' hinv h
    simp only [firstPass] at h
    split at h
    · cases h
    rename_i st1 h1
    have i1 := (processTriangle_inv hinv h1).1
    obtain ⟨m0, m1, m2, f0, f1, f2, hidx⟩ := processTriangle_indices hinv h1
    obtain ⟨-, -, -, -, -, hpres⟩ := firstPass_inv rest i1 h
    rw [ih i1 h, hidx]
    simp only [childIndices, hpres _ _ f0, hpres _ _ f1, hpres _ _ f2, Option.getD_some,
      List.append_assoc]
  | case2 l hl =>
    intro st st' hinv h
    match l, hl with
    | [], _ =>
      simp only [firstPass, Option.some.injEq] at h
      subst h
      simp [childIndices]
    | [_], _ => simp [firstPass] at h
    | [_, _], _ => simp [firstPass] at h
    | v0 :: v1 :: v2 :: rest, hl => exact absurd rfl (hl v0 v1 v2 rest)

theorem childIndices_drop (mid : Edge → Nat) (t : Nat) :
    ∀ indices : List Nat,
      (childIndices mid indices).drop (12 * t) = childIndices mid (indices.drop (3 * t)) := by
  induction t with
  | zero =>
    intro indices
    simp
  | succ n ih =>
    intro indices
    match indices with
    | [] => simp [childIndices]
    | [_] => simp [childIndices]
    | [_, _] => simp [childIndices]
    | p0 :: p1 :: p2 :: rest =>
      have h12 : 12 * (n + 1) = 12 * n + 12 := by ring
      have h3 : 3 * (n + 1) = 3 * n + 3 := by ring
      rw [h12, h3]
      simp only [childIndices, List.drop_succ_cons]
      rw [← ih rest]
      rfl

/-- The part of the index buffer from position `3 * t` on starts with the
three ids of triangle `t`. -/
theorem drop_triangle {indices : List Nat} {t p0 p1 p2 : Nat}
    (h0 : indices[3 * t]? = some p0) (h1 : indices[3 * t + 1]? = some p1)
    (h2 : indices[3 * t + 2]? = some p2) :
    indices.drop (3 * t) = p0 :: p1 :: p2 :: indices.drop (3 * t + 3) := by
  obtain ⟨l0, e0⟩ := List.getElem?_eq_some_iff.1 h0
  obtain ⟨l1, e1⟩ := List.getElem?_eq_some_iff.1 h1
  obtain ⟨l2, e2⟩ := List.getElem?_eq_some_iff.1 h2
  rw [List.drop_eq_getElem_cons l0, List.drop_eq_getElem_cons l1,
    List.drop_eq_getElem_cons l2, e0, e1, e2]

/-- An edge key of the triangles from position `3 * n` on is an edge key of the
whole index buffer. -/
theorem mem_edgeKeys_of_drop (n : Nat) :
    ∀ (l : List Nat) (e : Edge), e ∈ edgeKeys (l.drop (3 * n)) → e ∈ edgeKeys l := by
  induction n with
  | zero =>
    intro l e he
    simpa using he
  | succ k ih =>
    intro l e he
    match l with
    | [] => simpa using he
    | [_] => simp [edgeKeys] at he
    | [_, _] => simp [edgeKeys] at he
    | q0 :: q1 :: q2 :: rest =>
      have h3 : 3 * (k + 1) = 3 * k + 3 := by ring
      rw [h3] at he
      simp only [List.drop_succ_cons] at he
      simp only [edgeKeys, List.mem_cons]
      exact Or.inr (Or.inr (Or.inr (ih rest e he)))

/-- The emitted index buffer of a round, and the midpoint indices of the sides
of triangle `t`. -/
theorem apply_subdivision_children {vertices : List (XrVector3f α)} {indices : List Nat}
    (hwf : WellFormed vertices.length indices) {t p0 p1 p2 : Nat}
    (h0 : indices[3 * t]? = some p0) (h1 : indices[3 * t + 1]? = some p1)
    (h2 : indices[3 * t + 2]? = some p2) :
    ∃ r m01 m12 m20, apply_subdivision vertices indices = some r ∧
      midpointIndexOf vertices indices (min p0 p1, max p0 p1) = some m01 ∧
      midpointIndexOf vertices indices (min p1 p2, max p1 p2) = some m12 ∧
      midpointIndexOf vertices indices (min p2 p0, max p2 p0) = some m20 ∧
      (r.2.drop (12 * t)).take 12 =
        [p0, m01, m20, p1, m12, m01, p2, m20, m12, m01, m12, m20] := by
  obtain ⟨r, hr⟩ := apply_subdivision_some hwf
  obtain ⟨st, nv2, h1', -, -, hidx⟩ := apply_subdivision_eq_some hr
  obtain ⟨-, -, -, -, hkeys, -⟩ := firstPass_inv indices (stateInv_init vertices) h1'
  have hfp := firstPass_indices indices (stateInv_init vertices) h1'
  simp only [initState, List.nil_append] at hfp
  have hdrop := drop_triangle h0 h1 h2
  have hsome : ∀ e, e ∈ edgeKeys (indices.drop (3 * t)) →
      ∃ m, mapFind st.edgeToMidpointIndex e = some m := by
    intro e he
    have hin : e ∈ edgeKeys indices := mem_edgeKeys_of_drop t indices e he
    have := hkeys e
    simp only [hin, decide_True, Bool.or_true] at this
    exact Option.isSome_iff_exists.1 this
  rw [hdrop] at hsome
  obtain ⟨m01, e01⟩ := hsome (min p0 p1, max p0 p1) (by simp [edgeKeys])
  obtain ⟨m12, e12⟩ := hsome (min p1 p2, max p1 p2) (by simp [edgeKeys])
  obtain ⟨m20, e20⟩ := hsome (min p2 p0, max p2 p0) (by simp [edgeKeys])
  refine ⟨r, m01, m12, m20, hr, by simp only [midpointIndexOf, h1', e01],
    by simp only [midpointIndexOf, h1', e12], by simp only [midpointIndexOf, h1', e20], ?_⟩
  rw [hidx, hfp, childIndices_drop, hdrop]
  simp only [childIndices, e01, e12, e20, Option.getD_some]
  simp

/-! ## Order of allocation -/

theorem orderInv_init {γ : Type} (vertices : List (XrVector3f γ)) :
    OrderInv vertices.length (initState vertices) [] where
  keys := by simp [initState, mapFind]
  index := by simp
  size := by simp [initState]

theorem processEdge_orderInv {V p0 p1 opp m : Nat} {st st' : SubdivState α}
    {seen : List Edge} (hord : OrderInv V st seen) (hsz : st'.newVertices.length ≤ 2 ^ 32)
    (h : processEdge p0 p1 opp st = some (st', m)) :
    OrderInv V st' (firstSeenStep seen (min p0 p1, max p0 p1)) := by
  obtain ⟨-, -, -, hcase⟩ := processEdge_cases h
  rcases hcase with ⟨hm, hmids, hnv⟩ | ⟨hm, hmval, hmids, hnv⟩
  · have hin : (min p0 p1, max p0 p1) ∈ seen := by
      have := hord.keys (min p0 p1, max p0 p1)
      rw [hm] at this
      simpa using this.symm
    rw [firstSeenStep, if_pos hin]
    exact ⟨by rw [hmids]; exact hord.keys, by rw [hmids]; exact hord.index,
      by rw [hnv]; exact hord.size⟩
  · have hnot : (min p0 p1, max p0 p1) ∉ seen := by
      have := hord.keys (min p0 p1, max p0 p1)
      rw [hm] at this
      simpa using this.symm
    have hlt : st.newVertices.length < 2 ^ 32 := by
      rw [hnv, List.length_append, List.length_singleton] at hsz
      omega
    rw [Nat.mod_eq_of_lt hlt, hord.size] at hmval
    rw [firstSeenStep, if_neg hnot]
    refine ⟨?_, ?_, ?_⟩
    · intro e
      rw [hmids, mapFind_mapInsert]
      by_cases he : (min p0 p1, max p0 p1) = e
      · simp [he]
      · rw [if_neg he, hord.keys e]
        simp [Ne.symm he]
    · intro j e hj
      rw [hmids, mapFind_mapInsert]
      by_cases hjl : j < seen.length
      · rw [List.getElem?_append_left hjl] at hj
        have hne : (min p0 p1, max p0 p1) ≠ e := by
          intro heq
          exact hnot (heq ▸ List.getElem?_mem hj)
        rw [if_neg hne]
        exact hord.index j e hj
      · have hjl' : seen.length ≤ j := by omega
        rw [List.getElem?_append_right hjl'] at hj
        have hj0 : j - seen.length = 0 := by
          by_contra hc
          have : 1 ≤ j - seen.length := by omega
          rw [List.getElem?_eq_none (by simpa using this)] at hj
          cases hj
        rw [hj0] at hj
        simp only [List.getElem?_cons_zero, Option.some.injEq] at hj
        rw [if_pos hj, hmval]
        congr 2
        omega
    · rw [hnv, List.length_append, List.length_append, hord.size]
      simp only [List.length_singleton]
      omega

theorem processTriangle_orderInv {V v0 v1 v2 : Nat} {st st' : SubdivState α}
    {seen : List Edge} (hinv : StateInv V st) (hord : OrderInv V st seen)
    (hsz : st'.newVertices.length ≤ 2 ^ 32)
    (h : processTriangle v0 v1 v2 st = some st') :
    OrderInv V st' (firstSeenStep (firstSeenStep (firstSeenStep seen
      (min v0 v1, max v0 v1)) (min v1 v2, max v1 v2)) (min v2 v0, max v2 v0)) := by
  obtain ⟨-, hv0, hv1, hv2, -⟩ := processTriangle_inv hinv h
  unfold processTriangle at h
  split at h
  · cases h
  rename_i st1 m0 h0
  split at h
  · cases h
  rename_i st2 m1 h1
  split at h
  · cases h
  rename_i st3 m2 h2
  simp only [Option.some.injEq] at h
  subst h
  simp only at hsz
  obtain ⟨i1, -, -, -, -, l1, -⟩ := processEdge_inv hinv hv2 h0
  obtain ⟨i2, -, -, -, -, l2, -⟩ := processEdge_inv i1 hv0 h1
  obtain ⟨-, -, -, -, -, l3, -⟩ := processEdge_inv i2 hv1 h2
  have k1 := processEdge_orderInv hord (by omega) h0
  have k2 := processEdge_orderInv k1 (by omega) h1
  have k3 := processEdge_orderInv k2 hsz h2
  exact ⟨k3.keys, k3.index, k3.size⟩

theorem firstPass_orderInv {V : Nat} (indices : List Nat) :
    ∀ {st st' : SubdivState α} {seen : List Edge}, StateInv V st → OrderInv V st seen →
      st'.newVertices.length ≤ 2 ^ 32 → firstPass indices st = some st' →
      OrderInv V st' ((edgeKeys indices).foldl firstSeenStep seen) := by
  induction indices using edgeKeys.induct with
  | case1 v0 v1 v2 rest ih =>
    intro st st' seen hinv hord hsz h
    simp only [firstPass] at h
    split at h
    · cases h
    rename_i st1 h1
    have i1 := (processTriangle_inv hinv h1).1
    obtain ⟨-, -, -, l2, -⟩ := firstPass_inv rest i1 h
    have k1 := processTriangle_orderInv hinv hord (by omega) h1
    simpa only [edgeKeys, List.foldl_cons] using ih i1 k1 hsz h
  | case2 l hl =>
    intro st st' seen hinv hord hsz h
    match l, hl with
    | [], _ =>
      simp only [firstPass, Option.some.injEq] at h
      subst h
      simpa [edgeKeys] using hord
    | [_], _ => simp [firstPass] at h
    | [_, _], _ => simp [firstPass] at h
    | v0 :: v1 :: v2 :: rest, hl => exact absurd rfl (hl v0 v1 v2 rest)

/-- A round that returns at most `2 ^ 32` vertices gives the `j`-th edge key in
order of first appearance the midpoint index `V + j`, and stores there the
position the second pass computes for that edge. -/
theorem apply_subdivision_order {vertices : List (XrVector3f α)} {indices : List Nat}
    (hwf : WellFormed vertices.length indices)
    (hsz : vertices.length + distinctEdgeCount indices ≤ 2 ^ 32) :
    ∃ r st, apply_subdivision vertices indices = some r ∧
      firstPass indices (initState vertices) = some st ∧
      r.1.length = vertices.length + (allocationOrder indices).length ∧
      ∀ j e, (allocationOrder indices)[j]? = some e →
        midpointIndexOf vertices indices e = some (vertices.length + j) ∧
        ∃ pos, midpointPosition vertices st.edgeToOppositeVertices e = some pos ∧
          r.1[vertices.length + j]? = some pos := by
  obtain ⟨r, hr⟩ := apply_subdivision_some hwf
  obtain ⟨st, nv2, h1, h2, h3, -⟩ := apply_subdivision_eq_some hr
  obtain ⟨inv, -⟩ := firstPass_inv indices (stateInv_init vertices) h1
  have hlen : st.newVertices.length ≤ 2 ^ 32 := by
    rw [firstPass_vertex_count h1]
    exact hsz
  have hmid := firstPass_midInv indices (stateInv_init vertices) (midInv_init vertices)
    hlen h1
  have hord := firstPass_orderInv indices (stateInv_init vertices) (orderInv_init vertices)
    hlen h1
  have hl2 := secondPass_length _ h2
  have hl3 := thirdPassLoop_length _ h3
  obtain ⟨g1, -⟩ := secondPass_get st.edgeToMidpointIndex (nodup_midpoint_indices inv hmid) h2
  refine ⟨r, st, hr, h1, ?_, ?_⟩
  · rw [hl3, hl2, hord.size]
    rfl
  · intro j e hj
    have hm := hord.index j e hj
    obtain ⟨pos, hpos, hget⟩ := g1 (e, vertices.length + j) (mem_of_mapFind hm)
    refine ⟨by simp only [midpointIndexOf, h1, hm], pos, hpos, ?_⟩
    rw [thirdPassLoop_get _ h3 (vertices.length + j)
      (by simp only [List.mem_range]; omega)]
    exact hget

/-! ## Midpoint indices of sides -/

theorem key_eq_iff (a b c d : Nat) :
    (min a b, max a b) = (min c d, max c d) ↔ (a = c ∧ b = d) ∨ (a = d ∧ b = c) := by
  simp only [Prod.mk.injEq]
  omega

theorem getElem?_of_drop_take {l w : List Nat} (n k : Nat) {x : Nat}
    (h : (l.drop n).take 12 = w) (hx : w[k]? = some x) : l[n + k]? = some x := by
  subst h
  rw [List.getElem?_take] at hx
  split at hx
  · rw [List.getElem?_drop] at hx
    exact hx
  · cases hx

/-- The midpoint index emitted for side `s` of triangle `t`, read from the
centre triangle of its four children, is the map's index for the side's key. -/
theorem side_midpoint {vertices : List (XrVector3f α)} {indices : List Nat}
    (hwf : WellFormed vertices.length indices) {t s a b : Nat} (hs : s < 3)
    (ha : indices[3 * t + s]? = some a) (hb : indices[3 * t + (s + 1) % 3]? = some b) :
    ∃ r m, apply_subdivision vertices indices = some r ∧
      r.2[12 * t + 9 + s]? = some m ∧
      midpointIndexOf vertices indices (min a b, max a b) = some m := by
  have hlen : 3 * t + s < indices.length := (List.getElem?_eq_some_iff.1 ha).1
  have h3 := hwf.1
  have l0 : 3 * t < indices.length := by omega
  have l1 : 3 * t + 1 < indices.length := by omega
  have l2 : 3 * t + 2 < indices.length := by omega
  obtain ⟨r, m01, m12, m20, hr, e01, e12, e20, hchild⟩ :=
    apply_subdivision_children hwf (List.getElem?_eq_getElem l0)
      (List.getElem?_eq_getElem l1) (List.getElem?_eq_getElem l2)
  have hs' : s = 0 ∨ s = 1 ∨ s = 2 := by omega
  rcases hs' with rfl | rfl | rfl
  · simp only [Nat.add_zero, List.getElem?_eq_getElem l0, List.getElem?_eq_getElem l1,
      Option.some.injEq] at ha hb
    subst ha hb
    exact ⟨r, m01, hr, getElem?_of_drop_take (12 * t) 9 hchild (by rfl), e01⟩
  · simp only [List.getElem?_eq_getElem l1, List.getElem?_eq_getElem l2,
      Option.some.injEq] at ha hb
    subst ha hb
    exact ⟨r, m12, hr, getElem?_of_drop_take (12 * t) 10 hchild (by rfl), e12⟩
  · simp only [Nat.reduceAdd, Nat.reduceMod, Nat.add_zero, List.getElem?_eq_getElem l0,
      List.getElem?_eq_getElem l2, Option.some.injEq] at ha hb
    subst ha hb
    exact ⟨r, m20, hr, getElem?_of_drop_take (12 * t) 11 hchild (by rfl), e20⟩

/-- In a round that returns at most `2 ^ 32` vertices, two edge keys with the
same midpoint index are the same key. -/
theorem midpointIndexOf_injective {vertices : List (XrVector3f α)} {indices : List Nat}
    (hsz : vertices.length + distinctEdgeCount indices ≤ 2 ^ 32) {e e' : Edge} {m : Nat}
    (h : midpointIndexOf vertices indices e = some m)
    (h' : midpointIndexOf vertices indices e' = some m) : e = e' := by
  unfold midpointIndexOf at h h'
  split at h
  · cases h
  rename_i st h1
  rw [h1] at h'
  simp only at h'
  have hmid := firstPass_midInv indices (stateInv_init vertices) (midInv_init vertices)
    (by rw [firstPass_vertex_count h1]; exact hsz) h1
  exact hmid.mid_inj (e, m) (mem_of_mapFind h) (e', m) (mem_of_mapFind h') rfl

/-! ## Vertex normals of the expander -/

theorem addAt_inv {normals normals' : List (XrVector3f α)} {i : Nat} {n : XrVector3f α}
    (h : addAt normals i n = some normals') :
    i < normals.length ∧ normals'.length = normals.length ∧
      ∀ j acc, normals[j]? = some acc →
        normals'[j]? = some (if i = j then add acc n else acc) := by
  unfold addAt at h
  split at h
  · rename_i old hold
    simp only [Option.some.injEq] at h
    subst h
    refine ⟨(List.getElem?_eq_some_iff.1 hold).1, by simp, ?_⟩
    intro j acc hj
    by_cases hij : i = j
    · subst hij
      rw [hold] at hj
      cases hj
      simp [List.getElem?_set, (List.getElem?_eq_some_iff.1 hold).1]
    · simp [List.getElem?_set, hij, hj]
  · cases h

theorem addAt_some {normals : List (XrVector3f α)} {i : Nat} (n : XrVector3f α)
    (h : i < normals.length) : ∃ normals', addAt normals i n = some normals' := by
  unfold addAt
  rw [List.getElem?_eq_getElem h]
  exact ⟨_, rfl⟩

theorem vectorSum_cons (v : XrVector3f α) (l : List (XrVector3f α)) :
    vectorSum (v :: l) = add v (vectorSum l) := by
  simp [vectorSum, add]

theorem add_assoc_vec (a b c : XrVector3f α) : add (add a b) c = add a (add b c) := by
  simp only [add, XrVector3f.mk.injEq]
  exact ⟨add_assoc _ _ _, add_assoc _ _ _, add_assoc _ _ _⟩

/-- Step 1 of `expand_mesh` adds to every accumulator the face normals of the
triangle slots that reference its vertex. -/
theorem accumulateNormals_get {vertices : List (XrVector3f α)} (indices : List Nat) :
    ∀ {normals normals' : List (XrVector3f α)},
      accumulateNormals vertices indices normals = some normals' →
      normals'.length = normals.length ∧
      ∀ j acc, normals[j]? = some acc →
        normals'[j]? = some (add acc (vectorSum (normalContributions vertices j indices))) := by
  induction indices using edgeKeys.induct with
  | case1 i0 i1 i2 rest ih =>
    intro normals normals' h
    simp only [accumulateNormals] at h
    split at h
    · rename_i v0 v1 v2 e0 e1 e2
      split at h
      · cases h
      rename_i n0 a0
      split at h
      · cases h
      rename_i n1 a1
      split at h
      · cases h
      rename_i n2 a2
      obtain ⟨-, l0, g0⟩ := addAt_inv a0
      obtain ⟨-, l1, g1⟩ := addAt_inv a1
      obtain ⟨-, l2, g2⟩ := addAt_inv a2
      obtain ⟨lr, gr⟩ := ih h
      refine ⟨by omega, ?_⟩
      intro j acc hj
      have hfn : faceNormal vertices i0 i1 i2 =
          cross_product (subtract v1 v0) (subtract v2 v0) := by
        simp only [faceNormal, List.getD_eq_getElem?_getD, e0, e1, e2, Option.getD_some]
      rw [gr j _ (g2 j _ (g1 j _ (g0 j acc hj)))]
      simp only [normalContributions, hfn]
      by_cases c0 : i0 = j <;> by_cases c1 : i1 = j <;> by_cases c2 : i2 = j <;>
        simp only [c0, c1, c2, if_true, if_false, List.nil_append, List.singleton_append,
          vectorSum_cons, add_assoc_vec]
    · cases h
  | case2 l hl =>
    intro normals normals' h
    match l, hl with
    | [], _ =>
      simp only [accumulateNormals, Option.some.injEq] at h
      subst h
      refine ⟨rfl, ?_⟩
      intro j acc hj
      rw [hj]
      simp [normalContributions, vectorSum, add]
    | [_], _ => simp [accumulateNormals] at h
    | [_, _], _ => simp [accumulateNormals] at h
    | v0 :: v1 :: v2 :: rest, hl => exact absurd rfl (hl v0 v1 v2 rest)

theorem accumulateNormals_some {vertices : List (XrVector3f α)} (indices : List Nat) :
    ∀ (normals : List (XrVector3f α)), normals.length = vertices.length →
      WellFormed vertices.length indices →
      ∃ normals', accumulateNormals vertices indices normals = some normals' := by
  induction indices using edgeKeys.induct with
  | case1 i0 i1 i2 rest ih =>
    intro normals hlen hwf
    have h0 : i0 < vertices.length := hwf.2 i0 (by simp)
    have h1 : i1 < vertices.length := hwf.2 i1 (by simp)
    have h2 : i2 < vertices.length := hwf.2 i2 (by simp)
    have hwf' : WellFormed vertices.length rest := by
      refine ⟨?_, fun i hi => hwf.2 i (by simp [hi])⟩
      have := hwf.1
      simp only [List.length_cons] at this
      omega
    obtain ⟨n0, a0⟩ := addAt_some
      (cross_product (subtract vertices[i1] vertices[i0]) (subtract vertices[i2] vertices[i0]))
      (by omega : i0 < normals.length)
    have l0 := (addAt_inv a0).2.1
    obtain ⟨n1, a1⟩ := addAt_some
      (cross_product (subtract vertices[i1] vertices[i0]) (subtract vertices[i2] vertices[i0]))
      (by omega : i1 < n0.length)
    have l1 := (addAt_inv a1).2.1
    obtain ⟨n2, a2⟩ := addAt_some
      (cross_product (subtract vertices[i1] vertices[i0]) (subtract vertices[i2] vertices[i0]))
      (by omega : i2 < n1.length)
    have l2 := (addAt_inv a2).2.1
    obtain ⟨normals', h'⟩ := ih n2 (by omega) hwf'
    refine ⟨normals', ?_⟩
    simp only [accumulateNormals, List.getElem?_eq_getElem h0, List.getElem?_eq_getElem h1,
      List.getElem?_eq_getElem h2, a0, a1, a2, h']
  | case2 l hl =>
    intro normals hlen hwf
    match l, hl with
    | [], _ => exact ⟨normals, rfl⟩
    | [_], _ => simp [WellFormed] at hwf
    | [_, _], _ => simp [WellFormed] at hwf
    | v0 :: v1 :: v2 :: rest, hl => exact absurd rfl (hl v0 v1 v2 rest)

theorem normalContributions_of_not_mem {vertices : List (XrVector3f α)} {i : Nat}
    (indices : List Nat) (h : i ∉ indices) : normalContributions vertices i indices = [] := by
  induction indices using edgeKeys.induct with
  | case1 i0 i1 i2 rest ih =>
    simp only [List.mem_cons, not_or] at h
    simp [normalContributions, Ne.symm h.1, Ne.symm h.2.1, Ne.symm h.2.2.1, ih h.2.2.2]
  | case2 l hl =>
    match l, hl with
    | [], _ => rfl
    | [_], _ => rfl
    | [_, _], _ => rfl
    | v0 :: v1 :: v2 :: rest, hl => exact absurd rfl (hl v0 v1 v2 rest)

/-- The vertex buffer `expand_mesh` leaves, once the distance passes the
tolerance test, on a well-formed mesh. -/
theorem expand_mesh_get (sqrt : α → α) {vertices : List (XrVector3f α)}
    {indices : List Nat} {d : α} (hwf : WellFormed vertices.length indices)
    (hd : ¬ |d| < 1 / 1000000) :
    ∃ out, expand_mesh sqrt vertices indices d = some out ∧
      out.length = vertices.length ∧
      ∀ i p, vertices[i]? = some p →
        out[i]? = some (add p (scalar_multiply
          (VectorMath.normalize sqrt (vertexNormal vertices indices i)) d)) := by
  obtain ⟨normals, hn⟩ := accumulateNormals_some indices
    (List.replicate vertices.length (⟨0, 0, 0⟩ : XrVector3f α)) (by simp) hwf
  obtain ⟨hlen, hget⟩ := accumulateNormals_get indices hn
  simp only [List.length_replicate] at hlen
  refine ⟨List.zipWith
    (fun v n => add v (scalar_multiply (VectorMath.normalize sqrt n) d)) vertices normals,
    by simp only [expand_mesh, if_neg hd, hn], ?_, ?_⟩
  · simp [hlen]
  · intro i p hp
    have hi : i < vertices.length := (List.getElem?_eq_some_iff.1 hp).1
    have hacc := hget i ⟨0, 0, 0⟩ (by simp [hi])
    rw [zero_add_vec] at hacc
    simp only [List.getElem?_zipWith, hp, hacc, vertexNormal]

theorem normalize_zero (sqrt : α → α) :
    VectorMath.normalize sqrt (⟨0, 0, 0⟩ : XrVector3f α) = ⟨0, 0, 0⟩ := by
  unfold VectorMath.normalize
  simp only
  split
  · simp [scalar_multiply]
  · rfl

theorem normalize_eq (sqrt : α → α) (n : XrVector3f α) :
    VectorMath.normalize sqrt n =
      if 1 / 1000000 < magnitude sqrt n then
        ⟨n.x / magnitude sqrt n, n.y / magnitude sqrt n, n.z / magnitude sqrt n⟩
      else ⟨0, 0, 0⟩ := by
  unfold VectorMath.normalize
  simp only [gt_iff_lt, scalar_multiply, mul_one_div]

/-- Over the reals the offset `normalize n * d` has length `|d|`, or is the zero
vector when `n` is no longer than the tolerance. -/
theorem magnitude_offset (n : XrVector3f ℝ) (d : ℝ) :
    (1 / 1000000 < magnitude Real.sqrt n ∧
      magnitude Real.sqrt (scalar_multiply (VectorMath.normalize Real.sqrt n) d) = |d|) ∨
    (magnitude Real.sqrt n ≤ 1 / 1000000 ∧
      scalar_multiply (VectorMath.normalize Real.sqrt n) d = ⟨0, 0, 0⟩ ∧
      magnitude Real.sqrt (scalar_multiply (VectorMath.normalize Real.sqrt n) d) = 0) := by
  by_cases hN : 1 / 1000000 < magnitude Real.sqrt n
  · left
    refine ⟨hN, ?_⟩
    have hpos : 0 < magnitude Real.sqrt n := lt_trans (by norm_num) hN
    have hnorm : scalar_multiply (VectorMath.normalize Real.sqrt n) d =
        scalar_multiply n (d / magnitude Real.sqrt n) := by
      unfold VectorMath.normalize
      simp only [gt_iff_lt, hN, if_true, scalar_multiply, XrVector3f.mk.injEq]
      refine ⟨?_, ?_, ?_⟩ <;> ring
    rw [hnorm]
    exact magnitude_scaled n d hpos
  · right
    have hz : scalar_multiply (VectorMath.normalize Real.sqrt n) d = ⟨0, 0, 0⟩ := by
      rw [normalize_eq, if_neg hN]
      simp [scalar_multiply]
    refine ⟨not_lt.1 hN, hz, ?_⟩
    rw [hz]
    simp [magnitude]

/-! ## Contents of the adjacency and opposite-vertex lists -/

theorem pushAt_get {adj adj' : List (List Nat)} {p q : Nat}
    (h : pushAt adj p q = some adj') :
    ∀ j l, adj[j]? = some l → adj'[j]? = some (l ++ if p = j then [q] else []) := by
  intro j l hj
  by_cases hpj : p = j
  · subst hpj
    unfold pushAt at h
    rw [hj] at h
    simp only [Option.some.injEq] at h
    subst h
    simp [List.getElem?_set, (List.getElem?_eq_some_iff.1 hj).1]
  · rw [pushAt_get_of_ne h (Ne.symm hpj), hj]
    simp [hpj]

theorem processEdge_adjacency {p0 p1 opp m : Nat} {st st' : SubdivState α}
    (h : processEdge p0 p1 opp st = some (st', m)) :
    ∀ j l, st.adjacency[j]? = some l →
      st'.adjacency[j]? = some (l ++ sideNeighbors j p0 p1) := by
  intro j l hj
  obtain ⟨-, -, ⟨adj1, ha1, ha2⟩, -⟩ := processEdge_cases h
  rw [pushAt_get ha2 j _ (pushAt_get ha1 j l hj)]
  simp [sideNeighbors, List.append_assoc]

theorem processTriangle_adjacency {v0 v1 v2 : Nat} {st st' : SubdivState α}
    (h : processTriangle v0 v1 v2 st = some st') :
    ∀ j l, st.adjacency[j]? = some l →
      st'.adjacency[j]? = some (l ++ (sideNeighbors j v0 v1 ++ (sideNeighbors j v1 v2 ++
        sideNeighbors j v2 v0))) := by
  intro j l hj
  unfold processTriangle at h
  split at h
  · cases h
  rename_i st1 m0 e0
  split at h
  · cases h
  rename_i st2 m1 e1
  split at h
  · cases h
  rename_i st3 m2 e2
  simp only [Option.some.injEq] at h
  subst h
  have q := processEdge_adjacency e2 j _
    (processEdge_adjacency e1 j _ (processEdge_adjacency e0 j l hj))
  simp only [q, List.append_assoc]

/-- The first pass appends to every adjacency list the entries of
`adjacencyList`. -/
theorem firstPass_adjacency (indices : List Nat) :
    ∀ {st st' : SubdivState α}, firstPass indices st = some st' →
      ∀ j l, st.adjacency[j]? = some l →
        st'.adjacency[j]? = some (l ++ adjacencyList j indices) := by
  induction indices using edgeKeys.induct with
  | case1 v0 v1 v2 rest ih =>
    intro st st' h j l hj
    simp only [firstPass] at h
    split at h
    · cases h
    rename_i st1 h1
    rw [ih h j _ (processTriangle_adjacency h1 j l hj)]
    simp only [adjacencyList, List.append_assoc]
  | case2 l' hl =>
    intro st st' h j l hj
    match l', hl with
    | [], _ =>
      simp only [firstPass, Option.some.injEq] at h
      subst h
      simp [adjacencyList, hj]
    | [_], _ => simp [firstPass] at h
    | [_, _], _ => simp [firstPass] at h
    | v0 :: v1 :: v2 :: rest, hl => exact absurd rfl (hl v0 v1 v2 rest)

theorem adjacencyOf_eq {vertices : List (XrVector3f α)} {indices : List Nat} {i : Nat}
    (hwf : WellFormed vertices.length indices) (hi : i < vertices.length) :
    adjacencyOf vertices indices i = some (adjacencyList i indices) := by
  obtain ⟨st, h1⟩ := firstPass_some indices (stateInv_init vertices) hwf
  simp only [adjacencyOf, h1]
  rw [firstPass_adjacency indices h1 i [] (by simp [initState, hi])]
  rfl

theorem length_sideNeighbors (i p0 p1 : Nat) :
    (sideNeighbors i p0 p1).length = (if p0 = i then 1 else 0) + (if p1 = i then 1 else 0) := by
  unfold sideNeighbors
  by_cases h0 : p0 = i <;> by_cases h1 : p1 = i <;> simp [h0, h1]

theorem length_adjacencyList (i : Nat) (indices : List Nat) (h : indices.length % 3 = 0) :
    (adjacencyList i indices).length = 2 * indices.count i := by
  induction indices using edgeKeys.induct with
  | case1 v0 v1 v2 rest ih =>
    have hrest : rest.length % 3 = 0 := by
      simp only [List.length_cons] at h
      omega
    simp only [adjacencyList, List.length_append, length_sideNeighbors, ih hrest,
      List.count_cons, beq_iff_eq]
    by_cases h0 : v0 = i <;> by_cases h1 : v1 = i <;> by_cases h2 : v2 = i <;>
      simp [h0, h1, h2] <;> omega
  | case2 l hl =>
    match l, hl with
    | [], _ => rfl
    | [_], _ => simp at h
    | [_, _], _ => simp at h
    | v0 :: v1 :: v2 :: rest, hl => exact absurd rfl (hl v0 v1 v2 rest)

theorem processEdge_opposites {p0 p1 opp m : Nat} {st st' : SubdivState α}
    (h : processEdge p0 p1 opp st = some (st', m)) (e : Edge) :
    mapFind st'.edgeToOppositeVertices e =
      if (min p0 p1, max p0 p1) = e then
        some ((mapFind st.edgeToOppositeVertices e).getD [] ++ [opp])
      else mapFind st.edgeToOppositeVertices e := by
  obtain ⟨hopp, -⟩ := processEdge_cases h
  rw [hopp, mapFind_mapInsert]
  split
  · rename_i he
    rw [he]
  · rfl

/-- The opposite-vertex list of a key, read as empty when the key is absent. -/
theorem processEdge_opposites_getD {p0 p1 opp m : Nat} {st st' : SubdivState α}
    (h : processEdge p0 p1 opp st = some (st', m)) (e : Edge) :
    (mapFind st'.edgeToOppositeVertices e).getD [] =
      (mapFind st.edgeToOppositeVertices e).getD [] ++
        (if (min p0 p1, max p0 p1) = e then [opp] else []) ∧
    (mapFind st'.edgeToOppositeVertices e).isSome =
      ((mapFind st.edgeToOppositeVertices e).isSome ||
        decide (e = (min p0 p1, max p0 p1))) := by
  rw [processEdge_opposites h e]
  by_cases he : (min p0 p1, max p0 p1) = e
  · simp [he]
  · simp [he, Ne.symm he]

theorem processTriangle_opposites {v0 v1 v2 : Nat} {st st' : SubdivState α}
    (h : processTriangle v0 v1 v2 st = some st') (e : Edge) :
    (mapFind st'.edgeToOppositeVertices e).getD [] =
      (mapFind st.edgeToOppositeVertices e).getD [] ++
        ((if (min v0 v1, max v0 v1) = e then [v2] else []) ++
        ((if (min v1 v2, max v1 v2) = e then [v0] else []) ++
        (if (min v2 v0, max v2 v0) = e then [v1] else []))) ∧
    (mapFind st'.edgeToOppositeVertices e).isSome =
      ((mapFind st.edgeToOppositeVertices e).isSome ||
        decide (e ∈ [(min v0 v1, max v0 v1), (min v1 v2, max v1 v2),
          (min v2 v0, max v2 v0)])) := by
  unfold processTriangle at h
  split at h
  · cases h
  rename_i st1 m0 e0
  split at h
  · cases h
  rename_i st2 m1 e1
  split at h
  · cases h
  rename_i st3 m2 e2
  simp only [Option.some.injEq] at h
  subst h
  obtain ⟨a0, b0⟩ := processEdge_opposites_getD e0 e
  obtain ⟨a1, b1⟩ := processEdge_opposites_getD e1 e
  obtain ⟨a2, b2⟩ := processEdge_opposites_getD e2 e
  refine ⟨?_, ?_⟩
  · simp only [a2, a1, a0, List.append_assoc]
  · simp only [b2, b1, b0, List.mem_cons, List.mem_singleton, List.not_mem_nil, or_false,
      Bool.or_assoc, Bool.decide_or]

/-- The first pass appends to the opposite-vertex list of every key the
entries of `oppositeList`, and creates an entry exactly for the keys it meets. -/
theorem firstPass_opposites (indices : List Nat) :
    ∀ {st st' : SubdivState α}, firstPass indices st = some st' → ∀ e : Edge,
      (mapFind st'.edgeToOppositeVertices e).getD [] =
        (mapFind st.edgeToOppositeVertices e).getD [] ++ oppositeList e indices ∧
      (mapFind st'.edgeToOppositeVertices e).isSome =
        ((mapFind st.edgeToOppositeVertices e).isSome || decide (e ∈ edgeKeys indices)) := by
  induction indices using edgeKeys.induct with
  | case1 v0 v1 v2 rest ih =>
    intro st st' h e
    simp only [firstPass] at h
    split at h
    · cases h
    rename_i st1 h1
    obtain ⟨a1, b1⟩ := processTriangle_opposites h1 e
    obtain ⟨a2, b2⟩ := ih h e
    refine ⟨?_, ?_⟩
    · simp only [a2, a1, oppositeList, List.append_assoc]
    · simp only [b2, b1, edgeKeys, List.mem_cons, List.mem_singleton, List.not_mem_nil,
        or_false, Bool.or_assoc, Bool.decide_or]
  | case2 l hl =>
    intro st st' h e
    match l, hl with
    | [], _ =>
      simp only [firstPass, Option.some.injEq] at h
      subst h
      simp [oppositeList, edgeKeys]
    | [_], _ => simp [firstPass] at h
    | [_, _], _ => simp [firstPass] at h
    | v0 :: v1 :: v2 :: rest, hl => exact absurd rfl (hl v0 v1 v2 rest)

theorem oppositesOf_eq {vertices : List (XrVector3f α)} {indices : List Nat}
    (hwf : WellFormed vertices.length indices) (e : Edge) :
    oppositesOf vertices indices e =
      if e ∈ edgeKeys indices then some (oppositeList e indices) else none := by
  obtain ⟨st, h1⟩ := firstPass_some indices (stateInv_init vertices) hwf
  obtain ⟨a, b⟩ := firstPass_opposites indices h1 e
  simp only [oppositesOf, h1]
  simp only [initState, mapFind, Option.getD_none, List.nil_append, Option.isSome_none,
    Bool.false_or] at a b
  by_cases he : e ∈ edgeKeys indices
  · simp only [he, decide_True, if_true] at b ⊢
    obtain ⟨os, hos⟩ := Option.isSome_iff_exists.1 b
    rw [hos] at a ⊢
    simp only [Option.getD_some] at a
    rw [a]
  · simp only [he, decide_False, if_false] at b ⊢
    cases hf : mapFind st.edgeToOppositeVertices e with
    | none => rfl
    | some v =>
      rw [hf] at b
      cases b

theorem length_oppositeList (e : Edge) (indices : List Nat) :
    (oppositeList e indices).length = (edgeKeys indices).count e := by
  induction indices using edgeKeys.induct with
  | case1 v0 v1 v2 rest ih =>
    simp only [oppositeList, edgeKeys, List.length_append, ih, List.count_cons, beq_iff_eq]
    by_cases h0 : (min v0 v1, max v0 v1) = e <;> by_cases h1 : (min v1 v2, max v1 v2) = e <;>
      by_cases h2 : (min v2 v0, max v2 v0) = e <;> simp [h0, h1, h2] <;> omega
  | case2 l hl =>
    match l, hl with
    | [], _ => rfl
    | [_], _ => rfl
    | [_, _], _ => rfl
    | v0 :: v1 :: v2 :: rest, hl => exact absurd rfl (hl v0 v1 v2 rest)

/-! ## A single triangle -/

/-- One round on the mesh made of the single triangle `(v0, v1, v2)`. -/
theorem apply_subdivision_single (v0 v1 v2 : XrVector3f α) :
    apply_subdivision [v0, v1, v2] [0, 1, 2] =
      some ([add (scalar_multiply v0 (1 - ((2 : Nat) : α) * betaWeight 2))
               (scalar_multiply (add (add ⟨0, 0, 0⟩ v1) v2) (betaWeight 2)),
             add (scalar_multiply v1 (1 - ((2 : Nat) : α) * betaWeight 2))
               (scalar_multiply (add (add ⟨0, 0, 0⟩ v0) v2) (betaWeight 2)),
             add (scalar_multiply v2 (1 - ((2 : Nat) : α) * betaWeight 2))
               (scalar_multiply (add (add ⟨0, 0, 0⟩ v1) v0) (betaWeight 2)),
             scalar_multiply (add v0 v1) (1 / 2),
             scalar_multiply (add v1 v2) (1 / 2),
             scalar_multiply (add v0 v2) (1 / 2)],
            [0, 3, 5, 1, 4, 3, 2, 5, 4, 3, 4, 5]) := by
  rfl

/-! ## A round in closed form -/

theorem getElem?_keyIndex {e : Edge} (l : List Edge) (h : e ∈ l) :
    l[keyIndex e l]? = some e := by
  induction l with
  | nil => cases h
  | cons k rest ih =>
    simp only [keyIndex]
    split
    · rename_i hk
      simp [hk]
    · rename_i hk
      rcases List.mem_cons.1 h with h' | h'
      · exact absurd h'.symm hk
      · simpa using ih h'

theorem childIndices_congr {f g : Edge → Nat} (indices : List Nat)
    (h : ∀ e ∈ edgeKeys indices, f e = g e) : childIndices f indices = childIndices g indices := by
  induction indices using edgeKeys.induct with
  | case1 v0 v1 v2 rest ih =>
    have hrest : ∀ e ∈ edgeKeys rest, f e = g e := by
      intro e he
      exact h e (by simp [edgeKeys, he])
    simp only [childIndices, ih hrest, h (min v0 v1, max v0 v1) (by simp [edgeKeys]),
      h (min v1 v2, max v1 v2) (by simp [edgeKeys]),
      h (min v2 v0, max v2 v0) (by simp [edgeKeys])]
  | case2 l hl =>
    match l, hl with
    | [], _ => rfl
    | [_], _ => rfl
    | [_, _], _ => rfl
    | v0 :: v1 :: v2 :: rest, hl => exact absurd rfl (hl v0 v1 v2 rest)

theorem midpointPosition_congr (vertices : List (XrVector3f α))
    {o o' : List (Edge × List Nat)} {e : Edge}
    (h : (mapFind o e).getD [] = (mapFind o' e).getD []) :
    midpointPosition vertices o e = midpointPosition vertices o' e := by
  unfold midpointPosition
  rw [h]

/-- After the first pass the keys of the midpoint map are the edge keys of the
index buffer, which are the entries of `allocationOrder`. -/
theorem mem_allocationOrder {γ : Type} {indices : List Nat} {st : SubdivState γ} {V : Nat}
    (hkeys : ∀ e, (mapFind st.edgeToMidpointIndex e).isSome = decide (e ∈ edgeKeys indices))
    (hord : OrderInv V st (allocationOrder indices)) (e : Edge) :
    e ∈ allocationOrder indices ↔ e ∈ edgeKeys indices := by
  have h1 := hkeys e
  have h2 := hord.keys e
  rw [h1] at h2
  exact (decide_eq_decide.1 h2).symm

/-- One round, on a well-formed mesh whose output has at most `2 ^ 32` vertices,
in terms of the two input buffers alone. -/
theorem apply_subdivision_closed_form {vertices : List (XrVector3f α)} {indices : List Nat}
    (hwf : WellFormed vertices.length indices)
    (hsz : vertices.length + distinctEdgeCount indices ≤ 2 ^ 32) :
    ∃ r, apply_subdivision vertices indices = some r ∧
      r.2 = childIndices
        (fun e => vertices.length + keyIndex e (allocationOrder indices)) indices ∧
      r.1.length = vertices.length + (allocationOrder indices).length ∧
      (∀ i p, vertices[i]? = some p →
        r.1[i]? = some (if (adjacencyList i indices).length < 2 then p
          else smoothedPosition (adjacencyList i indices).length p
            (positionSum vertices (adjacencyList i indices)))) ∧
      (∀ j e, (allocationOrder indices)[j]? = some e →
        ∃ pos, midpointPosition vertices [(e, oppositeList e indices)] e = some pos ∧
          r.1[vertices.length + j]? = some pos) ∧
      (∀ e, e ∈ allocationOrder indices ↔ e ∈ edgeKeys indices) := by
  obtain ⟨r, st, hr, h1, hlen, hmidpoints⟩ := apply_subdivision_order hwf hsz
  obtain ⟨inv, -, -, -, hkeys, -⟩ := firstPass_inv indices (stateInv_init vertices) h1
  have hkeys' : ∀ e, (mapFind st.edgeToMidpointIndex e).isSome =
      decide (e ∈ edgeKeys indices) := by
    intro e
    rw [hkeys e]
    simp [initState, mapFind]
  have hsize : st.newVertices.length ≤ 2 ^ 32 := by
    rw [firstPass_vertex_count h1]
    exact hsz
  have hord := firstPass_orderInv indices (stateInv_init vertices) (orderInv_init vertices)
    hsize h1
  have hmem := mem_allocationOrder hkeys' hord
  obtain ⟨st', nv2, h1', -, -, hidx⟩ := apply_subdivision_eq_some hr
  rw [h1] at h1'
  cases h1'
  have hfp := firstPass_indices indices (stateInv_init vertices) h1
  simp only [initState, List.nil_append] at hfp
  refine ⟨r, hr, ?_, hlen, ?_, ?_, hmem⟩
  · rw [hidx, hfp]
    apply childIndices_congr
    intro e he
    have hin : e ∈ allocationOrder indices := (hmem e).2 he
    rw [hord.index _ e (getElem?_keyIndex _ hin)]
    rfl
  · intro i p hp
    have hi : i < vertices.length := (List.getElem?_eq_some_iff.1 hp).1
    have hadj := adjacencyOf_eq hwf hi
    by_cases hk : (adjacencyList i indices).length < 2
    · obtain ⟨r', hr', hget⟩ := apply_subdivision_untouched hsz hadj hk
      rw [hr] at hr'
      cases hr'
      rw [if_pos hk, hget, hp]
    · obtain ⟨r', p', hr', hp', hget⟩ := apply_subdivision_smoothed hadj (by omega)
      rw [hr] at hr'
      cases hr'
      rw [hp] at hp'
      cases hp'
      rw [if_neg hk, hget]
  · intro j e hj
    obtain ⟨-, pos, hpos, hget⟩ := hmidpoints j e hj
    refine ⟨pos, ?_, hget⟩
    rw [← hpos]
    apply midpointPosition_congr
    rw [(firstPass_opposites indices h1 e).1]
    simp [initState, mapFind]

/-! ## Translation -/

theorem mem_of_mem_adjacencyList {i n : Nat} (indices : List Nat)
    (h : n ∈ adjacencyList i indices) : n ∈ indices := by
  induction indices using edgeKeys.induct with
  | case1 v0 v1 v2 rest ih =>
    simp only [adjacencyList, sideNeighbors, List.mem_append] at h
    simp only [List.mem_cons]
    rcases h with (h | h) | (h | h) | (h | h) | h
    · split at h
      · simp only [List.mem_singleton] at h
        exact Or.inr (Or.inl h)
      · cases h
    · split at h
      · simp only [List.mem_singleton] at h
        exact Or.inl h
      · cases h
    · split at h
      · simp only [List.mem_singleton] at h
        exact Or.inr (Or.inr (Or.inl h))
      · cases h
    · split at h
      · simp only [List.mem_singleton] at h
        exact Or.inr (Or.inl h)
      · cases h
    · split at h
      · simp only [List.mem_singleton] at h
        exact Or.inl h
      · cases h
    · split at h
      · simp only [List.mem_singleton] at h
        exact Or.inr (Or.inr (Or.inl h))
      · cases h
    · exact Or.inr (Or.inr (Or.inr (ih h)))
  | case2 l hl =>
    match l, hl with
    | [], _ => simp [adjacencyList] at h
    | [_], _ => simp [adjacencyList] at h
    | [_, _], _ => simp [adjacencyList] at h
    | v0 :: v1 :: v2 :: rest, hl => exact absurd rfl (hl v0 v1 v2 rest)

theorem positionSum_map (vertices : List (XrVector3f α)) (t : XrVector3f α)
    (nbrs : List Nat) (h : ∀ n ∈ nbrs, n < vertices.length) :
    positionSum (vertices.map (fun v => add v t)) nbrs =
      add (positionSum vertices nbrs) (scalar_multiply t (nbrs.length : α)) := by
  induction nbrs with
  | nil => simp [positionSum, add, scalar_multiply]
  | cons n rest ih =>
    have hn : n < vertices.length := h n (List.mem_cons_self _ _)
    have hrest := ih (fun m hm => h m (List.mem_cons_of_mem _ hm))
    have hget : (vertices.map (fun v => add v t)).getD n ⟨0, 0, 0⟩ =
        add (vertices.getD n ⟨0, 0, 0⟩) t := by
      simp [List.getD_eq_getElem?_getD, List.getElem?_map, List.getElem?_eq_getElem hn]
    have hx := congrArg XrVector3f.x hrest
    have hy := congrArg XrVector3f.y hrest
    have hz := congrArg XrVector3f.z hrest
    simp only [positionSum] at hx hy hz
    simp only [positionSum, List.map_cons, List.sum_cons, hget, hx, hy, hz]
    simp only [add, scalar_multiply, List.length_cons, Nat.cast_succ, XrVector3f.mk.injEq]
    refine ⟨?_, ?_, ?_⟩ <;> ring

theorem smoothedPosition_shift (k : Nat) (p s t : XrVector3f α) :
    smoothedPosition k (add p t) (add s (scalar_multiply t (k : α))) =
      add (smoothedPosition k p s) t := by
  simp only [smoothedPosition, add, scalar_multiply, XrVector3f.mk.injEq]
  refine ⟨?_, ?_, ?_⟩ <;> ring

theorem midpointPosition_map (vertices : List (XrVector3f α)) (t : XrVector3f α)
    (o : List (Edge × List Nat)) (e : Edge) :
    midpointPosition (vertices.map (fun v => add v t)) o e =
      (midpointPosition vertices o e).map (fun v => add v t) := by
  unfold midpointPosition
  simp only [List.getElem?_map]
  cases h1 : vertices[e.1]? with
  | none => simp
  | some p1 =>
    cases h2 : vertices[e.2]? with
    | none => simp
    | some p2 =>
      simp only [Option.map_some']
      split
      · rename_i o0 o1 ho
        cases h3 : vertices[o0]? with
        | none => simp
        | some p3 =>
          cases h4 : vertices[o1]? with
          | none => simp
          | some p4 =>
            simp only [Option.map_some', Option.some.injEq, add, scalar_multiply,
              XrVector3f.mk.injEq]
            refine ⟨?_, ?_, ?_⟩ <;> ring
      · simp only [Option.map_some', Option.some.injEq, add, scalar_multiply,
          XrVector3f.mk.injEq]
        refine ⟨?_, ?_, ?_⟩ <;> ring

/-! ## Reversed winding -/

theorem wellFormed_reverseWinding {V : Nat} (indices : List Nat)
    (h : WellFormed V indices) : WellFormed V (reverseWinding indices) := by
  induction indices using edgeKeys.induct with
  | case1 v0 v1 v2 rest ih =>
    have hrest : WellFormed V rest := by
      refine ⟨?_, fun i hi => h.2 i (by simp [hi])⟩
      have := h.1
      simp only [List.length_cons] at this
      omega
    obtain ⟨l, m⟩ := ih hrest
    refine ⟨?_, ?_⟩
    · simp only [reverseWinding, List.length_cons]
      omega
    · intro i hi
      simp only [reverseWinding, List.mem_cons] at hi
      rcases hi with hi | hi | hi | hi
      · exact h.2 i (by simp [hi])
      · exact h.2 i (by simp [hi])
      · exact h.2 i (by simp [hi])
      · exact m i hi
  | case2 l hl =>
    match l, hl with
    | [], _ => exact h
    | [_], _ => exact h
    | [_, _], _ => exact h
    | v0 :: v1 :: v2 :: rest, hl => exact absurd rfl (hl v0 v1 v2 rest)

theorem faceNormal_swap (vertices : List (XrVector3f α)) (i0 i1 i2 : Nat) :
    faceNormal vertices i0 i2 i1 = scalar_multiply (faceNormal vertices i0 i1 i2) (-1) := by
  simp only [faceNormal, cross_product, subtract, scalar_multiply, XrVector3f.mk.injEq]
  refine ⟨?_, ?_, ?_⟩ <;> ring

theorem vectorSum_append (a b : List (XrVector3f α)) :
    vectorSum (a ++ b) = add (vectorSum a) (vectorSum b) := by
  simp [vectorSum, add]

theorem vectorSum_ite (c : Prop) [Decidable c] (v : XrVector3f α) :
    vectorSum (if c then [v] else []) = if c then v else ⟨0, 0, 0⟩ := by
  split <;> simp [vectorSum]

/-- Reversing the winding negates every accumulated vertex normal. -/
theorem vertexNormal_reverseWinding (vertices : List (XrVector3f α)) (i : Nat)
    (indices : List Nat) :
    vertexNormal vertices (reverseWinding indices) i =
      scalar_multiply (vertexNormal vertices indices i) (-1) := by
  unfold vertexNormal
  induction indices using edgeKeys.induct with
  | case1 v0 v1 v2 rest ih =>
    simp only [reverseWinding, normalContributions, vectorSum_append, vectorSum_ite, ih,
      faceNormal_swap vertices v0 v1 v2]
    by_cases h0 : v0 = i <;> by_cases h1 : v1 = i <;> by_cases h2 : v2 = i <;>
      simp only [h0, h1, h2, if_true, if_false, add, scalar_multiply, XrVector3f.mk.injEq] <;>
      refine ⟨?_, ?_, ?_⟩ <;> ring
  | case2 l hl =>
    match l, hl with
    | [], _ => simp [reverseWinding, normalContributions, vectorSum, scalar_multiply]
    | [_], _ => simp [reverseWinding, normalContributions, vectorSum, scalar_multiply]
    | [_, _], _ => simp [reverseWinding, normalContributions, vectorSum, scalar_multiply]
    | v0 :: v1 :: v2 :: rest, hl => exact absurd rfl (hl v0 v1 v2 rest)

theorem normalize_neg (sqrt : α → α) (n : XrVector3f α) :
    VectorMath.normalize sqrt (scalar_multiply n (-1)) =
      scalar_multiply (VectorMath.normalize sqrt n) (-1) := by
  have hmag : magnitude sqrt (scalar_multiply n (-1)) = magnitude sqrt n := by
    unfold magnitude
    congr 1
    simp only [scalar_multiply]
    ring
  unfold VectorMath.normalize
  simp only [hmag]
  split
  · simp only [scalar_multiply, XrVector3f.mk.injEq]
    refine ⟨?_, ?_, ?_⟩ <;> ring
  · simp [scalar_multiply]

/-! ## Closed manifolds -/

theorem countP_flatMap_ite {β γ : Type} (T : List β) (f : β → List γ) (Q : γ → Bool)
    (P : β → Bool) (c : Nat)
    (h : ∀ t ∈ T, (f t).countP Q = if P t = true then c else 0) :
    (T.flatMap f).countP Q = c * T.countP P := by
  induction T with
  | nil => simp
  | cons t rest ih =>
    rw [List.flatMap_cons, List.countP_append, h t (List.mem_cons_self _ _),
      ih (fun s hs => h s (List.mem_cons_of_mem _ hs)), List.countP_cons]
    split_ifs <;> simp [Nat.mul_add, Nat.add_comm]

theorem countP_eq_one_of_pairwise {β : Type} (R : β → β → Prop) (P : β → Bool) (l : List β)
    (hpw : l.Pairwise (fun s t => ¬ R s t))
    (hR : ∀ s ∈ l, ∀ t ∈ l, P s = true → P t = true → R s t)
    (hex : ∃ t ∈ l, P t = true) : l.countP P = 1 := by
  induction l with
  | nil => obtain ⟨t, ht, -⟩ := hex; cases ht
  | cons t rest ih =>
    rw [List.pairwise_cons] at hpw
    rw [List.countP_cons]
    by_cases hP : P t = true
    · have h0 : rest.countP P = 0 := by
        rw [List.countP_eq_zero]
        intro s hs hPs
        exact hpw.1 s hs (hR t (List.mem_cons_self _ _) s (List.mem_cons_of_mem _ hs) hP hPs)
      rw [h0, if_pos hP]
    · obtain ⟨u, hu, hPu⟩ := hex
      have hu' : u ∈ rest := by
        rcases List.mem_cons.1 hu with rfl | h
        · exact absurd hPu hP
        · exact h
      rw [ih hpw.2 (fun s hs u hu => hR s (List.mem_cons_of_mem _ hs) u
        (List.mem_cons_of_mem _ hu)) ⟨u, hu', hPu⟩, if_neg hP]

theorem sides_ne (a b c : Nat) (hab : a ≠ b) (hbc : b ≠ c) (hca : c ≠ a) :
    (min a b, max a b) ≠ (min b c, max b c) ∧ (min b c, max b c) ≠ (min c a, max c a) ∧
      (min c a, max c a) ≠ (min a b, max a b) := by
  simp only [ne_eq, key_eq_iff]
  omega

theorem vertices_of_two_sides (s : Nat × Nat × Nat) (e f : Edge) (he : e ∈ triangleSides s)
    (hf : f ∈ triangleSides s) (hne : e ≠ f) (v : Nat) :
    v ∈ triangleVertices s ↔ v = e.1 ∨ v = e.2 ∨ v = f.1 ∨ v = f.2 := by
  obtain ⟨a, b, c⟩ := s
  simp only [triangleSides, List.mem_cons, List.mem_nil_iff, or_false, List.mem_singleton] at he hf
  simp only [triangleVertices, List.mem_cons, List.mem_nil_iff, or_false, List.mem_singleton]
  rcases he with rfl | rfl | rfl <;> rcases hf with rfl | rfl | rfl <;>
    first
    | exact absurd rfl hne
    | (clear hne; dsimp only; omega)

theorem sameVertices_of_two_sides (s t : Nat × Nat × Nat) (e f : Edge)
    (he : e ∈ triangleSides s) (hf : f ∈ triangleSides s)
    (he' : e ∈ triangleSides t) (hf' : f ∈ triangleSides t) (hne : e ≠ f) :
    SameVertices s t := by
  constructor
  · intro v hv
    exact (vertices_of_two_sides t e f he' hf' hne v).2
      ((vertices_of_two_sides s e f he hf hne v).1 hv)
  · intro v hv
    exact (vertices_of_two_sides s e f he hf hne v).2
      ((vertices_of_two_sides t e f he' hf' hne v).1 hv)

theorem mids_of_triangle (V : Nat) (mid : Edge → Nat) (a b c : Nat)
    (hab : a ≠ b) (hbc : b ≠ c) (hca : c ≠ a) (hge : ∀ e, V ≤ mid e)
    (hinj : ∀ e ∈ triangleSides (a, b, c), ∀ f ∈ triangleSides (a, b, c),
      mid e = mid f → e = f) :
    (V ≤ mid (min a b, max a b) ∧ V ≤ mid (min b c, max b c) ∧ V ≤ mid (min c a, max c a)) ∧
      mid (min a b, max a b) ≠ mid (min b c, max b c) ∧
      mid (min b c, max b c) ≠ mid (min c a, max c a) ∧
      mid (min c a, max c a) ≠ mid (min a b, max a b) := by
  obtain ⟨h1, h2, h3⟩ := sides_ne a b c hab hbc hca
  refine ⟨⟨hge _, hge _, hge _⟩, fun h => h1 (hinj _ ?_ _ ?_ h), fun h => h2 (hinj _ ?_ _ ?_ h),
    fun h => h3 (hinj _ ?_ _ ?_ h)⟩ <;> simp [triangleSides]

theorem child_distinct (V : Nat) (mid : Edge → Nat) (t : Nat × Nat × Nat)
    (ht : t.1 < V ∧ t.2.1 < V ∧ t.2.2 < V) (htd : t.1 ≠ t.2.1 ∧ t.2.1 ≠ t.2.2 ∧ t.2.2 ≠ t.1)
    (hge : ∀ e, V ≤ mid e)
    (hinj : ∀ e ∈ triangleSides t, ∀ f ∈ triangleSides t, mid e = mid f → e = f) :
    ∀ x ∈ childTriangles mid t, x.1 ≠ x.2.1 ∧ x.2.1 ≠ x.2.2 ∧ x.2.2 ≠ x.1 := by
  obtain ⟨a, b, c⟩ := t
  obtain ⟨ha, hb, hc⟩ := ht
  obtain ⟨hab, hbc, hca⟩ := htd
  obtain ⟨⟨g1, g2, g3⟩, m12, m23, m31⟩ := mids_of_triangle V mid a b c hab hbc hca hge hinj
  clear hinj hge
  intro x hx
  simp only [childTriangles, List.mem_cons, List.mem_nil_iff, or_false, List.mem_singleton] at hx
  dsimp only at ha hb hc
  rcases hx with rfl | rfl | rfl | rfl <;> dsimp only <;> omega

theorem children_pairwise (V : Nat) (mid : Edge → Nat) (t : Nat × Nat × Nat)
    (ht : t.1 < V ∧ t.2.1 < V ∧ t.2.2 < V) (htd : t.1 ≠ t.2.1 ∧ t.2.1 ≠ t.2.2 ∧ t.2.2 ≠ t.1)
    (hge : ∀ e, V ≤ mid e) :
    (childTriangles mid t).Pairwise (fun x y => ¬ SameVertices x y) := by
  obtain ⟨a, b, c⟩ := t
  obtain ⟨ha, hb, hc⟩ := ht
  obtain ⟨hab, hbc, hca⟩ := htd
  have g1 := hge (min a b, max a b)
  have g2 := hge (min b c, max b c)
  have g3 := hge (min c a, max c a)
  clear hge
  dsimp only at ha hb hc hab hbc hca
  simp only [childTriangles, List.pairwise_cons, List.mem_cons, List.mem_nil_iff, or_false,
    List.mem_singleton, forall_eq_or_imp, forall_eq, List.Pairwise.nil, and_true,
    List.not_mem_nil, false_implies, implies_true]
  refine ⟨⟨?_, ?_, ?_⟩, ⟨?_, ?_⟩, ?_⟩ <;> intro h
  · have := h.1 a (by simp [triangleVertices])
    simp only [triangleVertices, List.mem_cons, List.mem_nil_iff, or_false,
      List.mem_singleton] at this
    omega
  · have := h.1 a (by simp [triangleVertices])
    simp only [triangleVertices, List.mem_cons, List.mem_nil_iff, or_false,
      List.mem_singleton] at this
    omega
  · have := h.1 a (by simp [triangleVertices])
    simp only [triangleVertices, List.mem_cons, List.mem_nil_iff, or_false,
      List.mem_singleton] at this
    omega
  · have := h.1 b (by simp [triangleVertices])
    simp only [triangleVertices, List.mem_cons, List.mem_nil_iff, or_false,
      List.mem_singleton] at this
    omega
  · have := h.1 b (by simp [triangleVertices])
    simp only [triangleVertices, List.mem_cons, List.mem_nil_iff, or_false,
      List.mem_singleton] at this
    omega
  · have := h.1 c (by simp [triangleVertices])
    simp only [triangleVertices, List.mem_cons, List.mem_nil_iff, or_false,
      List.mem_singleton] at this
    omega

theorem child_has_two_mids (mid : Edge → Nat) (s : Nat × Nat × Nat)
    (hsd : s.1 ≠ s.2.1 ∧ s.2.1 ≠ s.2.2 ∧ s.2.2 ≠ s.1) (x : Nat × Nat × Nat)
    (hx : x ∈ childTriangles mid s) :
    ∃ e f, e ∈ triangleSides s ∧ f ∈ triangleSides s ∧ e ≠ f ∧
      mid e ∈ triangleVertices x ∧ mid f ∈ triangleVertices x := by
  obtain ⟨a, b, c⟩ := s
  obtain ⟨h12, h23, h31⟩ := sides_ne a b c hsd.1 hsd.2.1 hsd.2.2
  simp only [childTriangles, List.mem_cons, List.mem_nil_iff, or_false, List.mem_singleton] at hx
  rcases hx with rfl | rfl | rfl | rfl
  · exact ⟨_, _, by simp [triangleSides], by simp [triangleSides], h31.symm,
      by simp [triangleVertices], by simp [triangleVertices]⟩
  · exact ⟨_, _, by simp [triangleSides], by simp [triangleSides], h12.symm,
      by simp [triangleVertices], by simp [triangleVertices]⟩
  · exact ⟨_, _, by simp [triangleSides], by simp [triangleSides], h23.symm,
      by simp [triangleVertices], by simp [triangleVertices]⟩
  · exact ⟨_, _, by simp [triangleSides], by simp [triangleSides], h12,
      by simp [triangleVertices], by simp [triangleVertices]⟩

theorem child_vertex_is_mid (V : Nat) (mid : Edge → Nat) (t : Nat × Nat × Nat)
    (ht : t.1 < V ∧ t.2.1 < V ∧ t.2.2 < V) (y : Nat × Nat × Nat)
    (hy : y ∈ childTriangles mid t) (v : Nat) (hv : v ∈ triangleVertices y) (hvV : V ≤ v) :
    ∃ g ∈ triangleSides t, v = mid g := by
  obtain ⟨a, b, c⟩ := t
  obtain ⟨ha, hb, hc⟩ := ht
  dsimp only at ha hb hc
  simp only [childTriangles, List.mem_cons, List.mem_nil_iff, or_false, List.mem_singleton] at hy
  rcases hy with rfl | rfl | rfl | rfl <;>
    simp only [triangleVertices, List.mem_cons, List.mem_nil_iff, or_false,
      List.mem_singleton] at hv <;>
    rcases hv with rfl | rfl | rfl <;>
    first
    | omega
    | exact ⟨_, by simp [triangleSides], rfl⟩

theorem parents_of_same_children (V : Nat) (mid : Edge → Nat) (s t : Nat × Nat × Nat)
    (hsd : s.1 ≠ s.2.1 ∧ s.2.1 ≠ s.2.2 ∧ s.2.2 ≠ s.1)
    (ht : t.1 < V ∧ t.2.1 < V ∧ t.2.2 < V) (hge : ∀ e, V ≤ mid e)
    (hinj : ∀ e ∈ triangleSides s, ∀ f ∈ triangleSides t, mid e = mid f → e = f)
    (x y : Nat × Nat × Nat) (hx : x ∈ childTriangles mid s) (hy : y ∈ childTriangles mid t)
    (hxy : SameVertices x y) : SameVertices s t := by
  obtain ⟨e, f, he, hf, hne, hex, hfx⟩ := child_has_two_mids mid s hsd x hx
  obtain ⟨g, hg, hge'⟩ := child_vertex_is_mid V mid t ht y hy _ (hxy.1 _ hex) (hge e)
  obtain ⟨h, hh, hfh⟩ := child_vertex_is_mid V mid t ht y hy _ (hxy.1 _ hfx) (hge f)
  have e1 := hinj e he g hg hge'
  have e2 := hinj f hf h hh hfh
  subst e1 e2
  exact sameVertices_of_two_sides s t e f he hf hg hh hne

theorem corner_side_iff (V p me a y z : Nat) (hp : p < V) (ha : a < V) (hme : V ≤ me)
    (hy : V ≤ y) (hz : V ≤ z) :
    (min p me, max p me) ∈ triangleSides (a, y, z) ↔ p = a ∧ (me = y ∨ me = z) := by
  simp only [triangleSides, List.mem_cons, Prod.mk.injEq, List.mem_nil_iff, or_false,
    List.mem_singleton]
  omega

theorem centre_side_not (V p me x y z : Nat) (hp : p < V) (hme : V ≤ me)
    (hx : V ≤ x) (hy : V ≤ y) (hz : V ≤ z) :
    ¬ (min p me, max p me) ∈ triangleSides (x, y, z) := by
  simp only [triangleSides, List.mem_cons, Prod.mk.injEq, List.mem_nil_iff, or_false,
    List.mem_singleton]
  omega

theorem count_one_of_three {E : Type} [DecidableEq E] (e s1 s2 s3 : E) (p a b c : Nat)
    (hab : a ≠ b) (hbc : b ≠ c) (hca : c ≠ a) (h12 : s1 ≠ s2) (h23 : s2 ≠ s3) (h31 : s3 ≠ s1)
    (hp1 : e = s1 → p = a ∨ p = b) (hp2 : e = s2 → p = b ∨ p = c)
    (hp3 : e = s3 → p = c ∨ p = a) :
    ((if p = c ∧ (e = s3 ∨ e = s2) then 1 else 0) + (if p = b ∧ (e = s2 ∨ e = s1) then 1 else 0)) +
      (if p = a ∧ (e = s1 ∨ e = s3) then 1 else 0) =
      if e = s1 ∨ e = s2 ∨ e = s3 then 1 else 0 := by
  by_cases h1 : e = s1
  · subst h1
    rcases hp1 rfl with rfl | rfl
    · simp [hab, hca.symm, h12, h31.symm]
    · simp [hab.symm, hbc, h12, h31.symm]
  · by_cases h2 : e = s2
    · subst h2
      rcases hp2 rfl with rfl | rfl
      · simp [hab.symm, hbc, h23, h12.symm]
      · simp [hbc.symm, hca, h23, h12.symm]
    · by_cases h3 : e = s3
      · subst h3
        rcases hp3 rfl with rfl | rfl
        · simp [hbc.symm, hca, h23.symm, h31]
        · simp [hab, hca.symm, h23.symm, h31]
      · simp [h1, h2, h3]

theorem countP_children_side_to_mid (V : Nat) (mid : Edge → Nat) (t : Nat × Nat × Nat)
    (e : Edge) (p : Nat)
    (ht : t.1 < V ∧ t.2.1 < V ∧ t.2.2 < V) (htd : t.1 ≠ t.2.1 ∧ t.2.1 ≠ t.2.2 ∧ t.2.2 ≠ t.1)
    (hge : ∀ e, V ≤ mid e) (hpV : p < V) (hp : p = e.1 ∨ p = e.2)
    (hinj : ∀ g ∈ triangleSides t, mid e = mid g → e = g) :
    (childTriangles mid t).countP
        (fun x => decide ((min p (mid e), max p (mid e)) ∈ triangleSides x)) =
      if decide (e ∈ triangleSides t) = true then 1 else 0 := by
  obtain ⟨a, b, c⟩ := t
  obtain ⟨ha, hb, hc⟩ := ht
  obtain ⟨hab, hbc, hca⟩ := htd
  dsimp only at ha hb hc hab hbc hca
  obtain ⟨h12, h23, h31⟩ := sides_ne a b c hab hbc hca
  have i1 : mid e = mid (min a b, max a b) ↔ e = (min a b, max a b) :=
    ⟨hinj _ (by simp [triangleSides]), fun h => congrArg mid h⟩
  have i2 : mid e = mid (min b c, max b c) ↔ e = (min b c, max b c) :=
    ⟨hinj _ (by simp [triangleSides]), fun h => congrArg mid h⟩
  have i3 : mid e = mid (min c a, max c a) ↔ e = (min c a, max c a) :=
    ⟨hinj _ (by simp [triangleSides]), fun h => congrArg mid h⟩
  have hp1 : e = (min a b, max a b) → p = a ∨ p = b := by
    intro h
    rw [h] at hp
    clear i1 i2 i3 hinj h12 h23 h31
    dsimp only at hp
    omega
  have hp2 : e = (min b c, max b c) → p = b ∨ p = c := by
    intro h
    rw [h] at hp
    clear i1 i2 i3 hinj h12 h23 h31 hp1
    dsimp only at hp
    omega
  have hp3 : e = (min c a, max c a) → p = c ∨ p = a := by
    intro h
    rw [h] at hp
    clear i1 i2 i3 hinj h12 h23 h31 hp1 hp2
    dsimp only at hp
    omega
  simp only [childTriangles, List.countP_cons, List.countP_nil, decide_eq_true_eq,
    corner_side_iff V p (mid e) _ _ _ hpV ha (hge _) (hge _) (hge _),
    corner_side_iff V p (mid e) _ _ _ hpV hb (hge _) (hge _) (hge _),
    corner_side_iff V p (mid e) _ _ _ hpV hc (hge _) (hge _) (hge _),
    centre_side_not V p (mid e) _ _ _ hpV (hge _) (hge _) (hge _) (hge _), if_false,
    Nat.zero_add, Nat.add_zero, i1, i2, i3]
  simp only [triangleSides, List.mem_cons, List.mem_nil_iff, or_false, List.mem_singleton]
  exact count_one_of_three e _ _ _ p a b c hab hbc hca h12 h23 h31 hp1 hp2 hp3

theorem corner_side_iff_mids (V x w a y z : Nat) (ha : a < V) (hx : V ≤ x) (hw : V ≤ w)
    (hy : V ≤ y) (hz : V ≤ z) :
    (min x w, max x w) ∈ triangleSides (a, y, z) ↔ (x = y ∧ w = z) ∨ (x = z ∧ w = y) := by
  simp only [triangleSides, List.mem_cons, Prod.mk.injEq, List.mem_nil_iff, or_false,
    List.mem_singleton]
  omega

theorem centre_side_iff_mids (x w y1 y2 y3 : Nat) :
    (min x w, max x w) ∈ triangleSides (y1, y2, y3) ↔
      ((x = y1 ∧ w = y2) ∨ (x = y2 ∧ w = y1)) ∨ ((x = y2 ∧ w = y3) ∨ (x = y3 ∧ w = y2)) ∨
        ((x = y3 ∧ w = y1) ∨ (x = y1 ∧ w = y3)) := by
  simp only [triangleSides, List.mem_cons, key_eq_iff, List.mem_nil_iff, or_false,
    List.mem_singleton]

theorem count_two_of_pairs {E : Type} [DecidableEq E] (e f s1 s2 s3 : E) (hef : e ≠ f)
    (h12 : s1 ≠ s2) (h23 : s2 ≠ s3) (h31 : s3 ≠ s1) :
    (((if ((e = s1 ∧ f = s2) ∨ (e = s2 ∧ f = s1)) ∨ ((e = s2 ∧ f = s3) ∨ (e = s3 ∧ f = s2)) ∨
          ((e = s3 ∧ f = s1) ∨ (e = s1 ∧ f = s3)) then 1 else 0) +
        (if (e = s3 ∧ f = s2) ∨ (e = s2 ∧ f = s3) then 1 else 0)) +
        (if (e = s2 ∧ f = s1) ∨ (e = s1 ∧ f = s2) then 1 else 0)) +
        (if (e = s1 ∧ f = s3) ∨ (e = s3 ∧ f = s1) then 1 else 0) =
      if (e = s1 ∨ e = s2 ∨ e = s3) ∧ (f = s1 ∨ f = s2 ∨ f = s3) then 2 else 0 := by
  by_cases h1 : e = s1
  · subst h1
    by_cases k2 : f = s2
    · subst k2
      simp [h12, h12.symm, h23, h23.symm, h31, h31.symm]
    · by_cases k3 : f = s3
      · subst k3
        simp [h12, h12.symm, h23, h23.symm, h31, h31.symm]
      · simp [h12, h12.symm, h23, h23.symm, h31, h31.symm, k2, k3, hef.symm]
  · by_cases h2 : e = s2
    · subst h2
      by_cases k1 : f = s1
      · subst k1
        simp [h12, h12.symm, h23, h23.symm, h31, h31.symm]
      · by_cases k3 : f = s3
        · subst k3
          simp [h12, h12.symm, h23, h23.symm, h31, h31.symm]
        · simp [h12, h12.symm, h23, h23.symm, h31, h31.symm, k1, k3, hef.symm]
    · by_cases h3 : e = s3
      · subst h3
        by_cases k1 : f = s1
        · subst k1
          simp [h12, h12.symm, h23, h23.symm, h31, h31.symm]
        · by_cases k2 : f = s2
          · subst k2
            simp [h12, h12.symm, h23, h23.symm, h31, h31.symm]
          · simp [h12, h12.symm, h23, h23.symm, h31, h31.symm, k1, k2, hef.symm]
      · simp [h1, h2, h3]

theorem countP_children_mid_to_mid (V : Nat) (mid : Edge → Nat) (t : Nat × Nat × Nat)
    (e f : Edge) (hef : e ≠ f)
    (ht : t.1 < V ∧ t.2.1 < V ∧ t.2.2 < V) (htd : t.1 ≠ t.2.1 ∧ t.2.1 ≠ t.2.2 ∧ t.2.2 ≠ t.1)
    (hge : ∀ e, V ≤ mid e)
    (hinje : ∀ g ∈ triangleSides t, mid e = mid g → e = g)
    (hinjf : ∀ g ∈ triangleSides t, mid f = mid g → f = g) :
    (childTriangles mid t).countP
        (fun x => decide ((min (mid e) (mid f), max (mid e) (mid f)) ∈ triangleSides x)) =
      if decide (e ∈ triangleSides t ∧ f ∈ triangleSides t) = true then 2 else 0 := by
  obtain ⟨a, b, c⟩ := t
  obtain ⟨ha, hb, hc⟩ := ht
  obtain ⟨hab, hbc, hca⟩ := htd
  dsimp only at ha hb hc hab hbc hca
  obtain ⟨h12, h23, h31⟩ := sides_ne a b c hab hbc hca
  have i1 : mid e = mid (min a b, max a b) ↔ e = (min a b, max a b) :=
    ⟨hinje _ (by simp [triangleSides]), fun h => congrArg mid h⟩
  have i2 : mid e = mid (min b c, max b c) ↔ e = (min b c, max b c) :=
    ⟨hinje _ (by simp [triangleSides]), fun h => congrArg mid h⟩
  have i3 : mid e = mid (min c a, max c a) ↔ e = (min c a, max c a) :=
    ⟨hinje _ (by simp [triangleSides]), fun h => congrArg mid h⟩
  have j1 : mid f = mid (min a b, max a b) ↔ f = (min a b, max a b) :=
    ⟨hinjf _ (by simp [triangleSides]), fun h => congrArg mid h⟩
  have j2 : mid f = mid (min b c, max b c) ↔ f = (min b c, max b c) :=
    ⟨hinjf _ (by simp [triangleSides]), fun h => congrArg mid h⟩
  have j3 : mid f = mid (min c a, max c a) ↔ f = (min c a, max c a) :=
    ⟨hinjf _ (by simp [triangleSides]), fun h => congrArg mid h⟩
  simp only [childTriangles, List.countP_cons, List.countP_nil, decide_eq_true_eq,
    corner_side_iff_mids V (mid e) (mid f) _ _ _ ha (hge _) (hge _) (hge _) (hge _),
    corner_side_iff_mids V (mid e) (mid f) _ _ _ hb (hge _) (hge _) (hge _) (hge _),
    corner_side_iff_mids V (mid e) (mid f) _ _ _ hc (hge _) (hge _) (hge _) (hge _),
    centre_side_iff_mids, Nat.zero_add, i1, i2, i3, j1, j2, j3]
  simp only [triangleSides, List.mem_cons, List.mem_nil_iff, or_false, List.mem_singleton]
  exact count_two_of_pairs e f _ _ _ hef h12 h23 h31

theorem child_side_cases (V : Nat) (mid : Edge → Nat) (t : Nat × Nat × Nat)
    (ht : t.1 < V ∧ t.2.1 < V ∧ t.2.2 < V) (htd : t.1 ≠ t.2.1 ∧ t.2.1 ≠ t.2.2 ∧ t.2.2 ≠ t.1)
    (x : Nat × Nat × Nat) (hx : x ∈ childTriangles mid t) (k : Edge)
    (hk : k ∈ triangleSides x) :
    (∃ e ∈ triangleSides t, ∃ p, p < V ∧ (p = e.1 ∨ p = e.2) ∧
        k = (min p (mid e), max p (mid e))) ∨
      ∃ e f, e ∈ triangleSides t ∧ f ∈ triangleSides t ∧ e ≠ f ∧
        k = (min (mid e) (mid f), max (mid e) (mid f)) := by
  obtain ⟨a, b, c⟩ := t
  obtain ⟨ha, hb, hc⟩ := ht
  obtain ⟨h12, h23, h31⟩ := sides_ne a b c htd.1 htd.2.1 htd.2.2
  dsimp only at ha hb hc
  have m1 : (min a b, max a b) ∈ triangleSides (a, b, c) := by simp [triangleSides]
  have m2 : (min b c, max b c) ∈ triangleSides (a, b, c) := by simp [triangleSides]
  have m3 : (min c a, max c a) ∈ triangleSides (a, b, c) := by simp [triangleSides]
  simp only [childTriangles, List.mem_cons, List.mem_nil_iff, or_false, List.mem_singleton] at hx
  rcases hx with rfl | rfl | rfl | rfl <;>
    simp only [triangleSides, List.mem_cons, List.mem_nil_iff, or_false,
      List.mem_singleton] at hk <;>
    rcases hk with rfl | rfl | rfl
  · exact Or.inl ⟨_, m1, a, ha, by dsimp only; omega, rfl⟩
  · exact Or.inr ⟨_, _, m1, m3, h31.symm, rfl⟩
  · exact Or.inl ⟨_, m3, a, ha, by dsimp only; omega, Prod.ext (min_comm _ _) (max_comm _ _)⟩
  · exact Or.inl ⟨_, m2, b, hb, by dsimp only; omega, rfl⟩
  · exact Or.inr ⟨_, _, m2, m1, h12.symm, rfl⟩
  · exact Or.inl ⟨_, m1, b, hb, by dsimp only; omega, Prod.ext (min_comm _ _) (max_comm _ _)⟩
  · exact Or.inl ⟨_, m3, c, hc, by dsimp only; omega, rfl⟩
  · exact Or.inr ⟨_, _, m3, m2, h23.symm, rfl⟩
  · exact Or.inl ⟨_, m2, c, hc, by dsimp only; omega, Prod.ext (min_comm _ _) (max_comm _ _)⟩
  · exact Or.inr ⟨_, _, m1, m2, h12, rfl⟩
  · exact Or.inr ⟨_, _, m2, m3, h23, rfl⟩
  · exact Or.inr ⟨_, _, m3, m1, h31, rfl⟩

theorem closedManifold_children (V : Nat) (mid : Edge → Nat) (T : List (Nat × Nat × Nat))
    (hV : ∀ t ∈ T, t.1 < V ∧ t.2.1 < V ∧ t.2.2 < V) (hge : ∀ e, V ≤ mid e)
    (hinj : ∀ e ∈ T.flatMap triangleSides, ∀ f ∈ T.flatMap triangleSides,
      mid e = mid f → e = f)
    (Ha : ∀ t ∈ T, t.1 ≠ t.2.1 ∧ t.2.1 ≠ t.2.2 ∧ t.2.2 ≠ t.1)
    (Hb : T.Pairwise (fun s t => ¬ SameVertices s t))
    (Hc : ∀ e ∈ T.flatMap triangleSides,
      T.countP (fun t => decide (e ∈ triangleSides t)) = 2) :
    (∀ x ∈ T.flatMap (childTriangles mid), x.1 ≠ x.2.1 ∧ x.2.1 ≠ x.2.2 ∧ x.2.2 ≠ x.1) ∧
    (T.flatMap (childTriangles mid)).Pairwise (fun x y => ¬ SameVertices x y) ∧
    ∀ k ∈ (T.flatMap (childTriangles mid)).flatMap triangleSides,
      (T.flatMap (childTriangles mid)).countP (fun x => decide (k ∈ triangleSides x)) = 2 := by
  have hkey : ∀ t ∈ T, ∀ g ∈ triangleSides t, g ∈ T.flatMap triangleSides :=
    fun t ht g hg => List.mem_flatMap.2 ⟨t, ht, hg⟩
  refine ⟨?_, ?_, ?_⟩
  · intro x hx
    obtain ⟨t, ht, hxt⟩ := List.mem_flatMap.1 hx
    exact child_distinct V mid t (hV t ht) (Ha t ht) hge
      (fun e he f hf => hinj e (hkey t ht e he) f (hkey t ht f hf)) x hxt
  · rw [List.pairwise_flatMap]
    refine ⟨fun t ht => children_pairwise V mid t (hV t ht) (Ha t ht) hge, ?_⟩
    refine List.Pairwise.imp_of_mem ?_ Hb
    intro s t hs ht hst x hx y hy hxy
    exact hst (parents_of_same_children V mid s t (Ha s hs) (hV t ht) hge
      (fun e he f hf => hinj e (hkey s hs e he) f (hkey t ht f hf)) x y hx hy hxy)
  · intro k hk
    obtain ⟨x, hx, hkx⟩ := List.mem_flatMap.1 hk
    obtain ⟨t0, ht0, hxt⟩ := List.mem_flatMap.1 hx
    rcases child_side_cases V mid t0 (hV t0 ht0) (Ha t0 ht0) x hxt k hkx with
      ⟨e, he, p, hpV, hp, rfl⟩ | ⟨e, f, he, hf, hef, rfl⟩
    · rw [countP_flatMap_ite T (childTriangles mid) _
        (fun t => decide (e ∈ triangleSides t)) 1
        (fun t ht => countP_children_side_to_mid V mid t e p (hV t ht) (Ha t ht) hge hpV hp
          (fun g hg => hinj e (hkey t0 ht0 e he) g (hkey t ht g hg))),
        Hc e (hkey t0 ht0 e he)]
    · rw [countP_flatMap_ite T (childTriangles mid) _
        (fun t => decide (e ∈ triangleSides t ∧ f ∈ triangleSides t)) 2
        (fun t ht => countP_children_mid_to_mid V mid t e f hef (hV t ht) (Ha t ht) hge
          (fun g hg => hinj e (hkey t0 ht0 e he) g (hkey t ht g hg))
          (fun g hg => hinj f (hkey t0 ht0 f hf) g (hkey t ht g hg))),
        countP_eq_one_of_pairwise SameVertices _ T Hb ?_ ⟨t0, ht0, by simp [he, hf]⟩]
      intro s _ t _ hPs hPt
      simp only [decide_eq_true_eq] at hPs hPt
      exact sameVertices_of_two_sides s t e f hPs.1 hPs.2 hPt.1 hPt.2 hef

theorem triangleList_childIndices (mid : Edge → Nat) (indices : List Nat) :
    triangleList (childIndices mid indices) =
      (triangleList indices).flatMap (childTriangles mid) := by
  induction indices using edgeKeys.induct with
  | case1 v0 v1 v2 rest ih =>
    simp only [childIndices, List.cons_append, List.nil_append, triangleList,
      List.flatMap_cons, childTriangles, List.append_eq, ih]
  | case2 l hl =>
    match l, hl with
    | [], _ => rfl
    | [_], _ => rfl
    | [_, _], _ => rfl
    | v0 :: v1 :: v2 :: rest, hl => exact absurd rfl (hl v0 v1 v2 rest)

theorem edgeKeys_eq_flatMap (indices : List Nat) :
    edgeKeys indices = (triangleList indices).flatMap triangleSides := by
  induction indices using edgeKeys.induct with
  | case1 v0 v1 v2 rest ih =>
    simp only [edgeKeys, triangleList, List.flatMap_cons, triangleSides, ih, List.cons_append,
      List.nil_append]
  | case2 l hl =>
    match l, hl with
    | [], _ => rfl
    | [_], _ => rfl
    | [_, _], _ => rfl
    | v0 :: v1 :: v2 :: rest, hl => exact absurd rfl (hl v0 v1 v2 rest)

theorem mem_of_mem_triangleList (indices : List Nat) (t : Nat × Nat × Nat)
    (ht : t ∈ triangleList indices) : t.1 ∈ indices ∧ t.2.1 ∈ indices ∧ t.2.2 ∈ indices := by
  induction indices using edgeKeys.induct with
  | case1 v0 v1 v2 rest ih =>
    simp only [triangleList, List.mem_cons] at ht
    rcases ht with rfl | ht
    · simp
    · obtain ⟨h0, h1, h2⟩ := ih ht
      simp [h0, h1, h2]
  | case2 l hl =>
    match l, hl, ht with
    | [], _, ht => cases ht
    | [_], _, ht => cases ht
    | [_, _], _, ht => cases ht
    | v0 :: v1 :: v2 :: rest, hl, _ => exact absurd rfl (hl v0 v1 v2 rest)

theorem keyIndex_injective (l : List Edge) (e f : Edge) (he : e ∈ l) (hf : f ∈ l)
    (h : keyIndex e l = keyIndex f l) : e = f := by
  have h1 := getElem?_keyIndex l he
  have h2 := getElem?_keyIndex l hf
  rw [h, h2] at h1
  exact (Option.some.inj h1).symm

theorem count_edgeKeys (indices : List Nat)
    (Ha : ∀ t ∈ triangleList indices, t.1 ≠ t.2.1 ∧ t.2.1 ≠ t.2.2 ∧ t.2.2 ≠ t.1) (e : Edge) :
    (edgeKeys indices).count e =
      (triangleList indices).countP (fun t => decide (e ∈ triangleSides t)) := by
  rw [edgeKeys_eq_flatMap, List.count, countP_flatMap_ite (triangleList indices) triangleSides _
    (fun t => decide (e ∈ triangleSides t)) 1, Nat.one_mul]
  intro t ht
  obtain ⟨a, b, c⟩ := t
  obtain ⟨h12, h23, h31⟩ := sides_ne a b c (Ha _ ht).1 (Ha _ ht).2.1 (Ha _ ht).2.2
  simp only [triangleSides, List.countP_cons, List.countP_nil, beq_iff_eq, List.mem_cons,
    List.mem_nil_iff, or_false, List.mem_singleton, decide_eq_true_eq, Nat.zero_add]
  by_cases h0 : (min a b, max a b) = e
  · subst h0
    simp [h12.symm, h31]
  · by_cases h1 : (min b c, max b c) = e
    · subst h1
      simp [h12, h23.symm]
    · by_cases h2 : (min c a, max c a) = e
      · subst h2
        simp [h31.symm, h23]
      · simp [h0, h1, h2, Ne.symm h0, Ne.symm h1, Ne.symm h2]

theorem closedManifold_childIndices (V : Nat) (mid : Edge → Nat) (indices : List Nat)
    (hlt : ∀ i ∈ indices, i < V) (hge : ∀ e, V ≤ mid e)
    (hinj : ∀ e ∈ edgeKeys indices, ∀ f ∈ edgeKeys indices, mid e = mid f → e = f)
    (hman : ClosedManifold indices) : ClosedManifold (childIndices mid indices) := by
  obtain ⟨Ha, Hb, Hc⟩ := hman
  rw [edgeKeys_eq_flatMap] at hinj Hc
  unfold ClosedManifold
  rw [edgeKeys_eq_flatMap, triangleList_childIndices]
  refine closedManifold_children V mid (triangleList indices) ?_ hge hinj Ha Hb Hc
  intro t ht
  obtain ⟨h0, h1, h2⟩ := mem_of_mem_triangleList indices t ht
  exact ⟨hlt _ h0, hlt _ h1, hlt _ h2⟩

/-! ## Claims -/

/-- C1: with `iterations = 0`, `subdivide` returns the two input buffers as they
were given, whatever they contain. -/
theorem subdivide_zero_identity (vertices : List (XrVector3f α)) (indices : List Nat) :
    subdivide vertices indices 0 = some (vertices, indices) := by
  simp [subdivide]

/-- C2: on a well-formed mesh, `a` rounds followed by `b` rounds return, and
return the same two buffers as one call with `a + b` rounds; in particular one
round twice is the same as two rounds. -/
theorem subdivide_compose (vertices : List (XrVector3f α)) (indices : List Nat)
    (a b : Int) (hwf : WellFormed vertices.length indices) (ha : 0 ≤ a) (hb : 0 ≤ b) :
    (∃ r, subdivide vertices indices (a + b) = some r ∧
      (subdivide vertices indices a).bind (fun m => subdivide m.1 m.2 b) = some r) ∧
    (∃ r, subdivide vertices indices 2 = some r ∧
      (subdivide vertices indices 1).bind (fun m => subdivide m.1 m.2 1) = some r) := by
  constructor
  · obtain ⟨r, hr, -⟩ := subdivide_some hwf (a + b)
    exact ⟨r, hr, by rw [subdivide_add vertices indices ha hb, hr]⟩
  · obtain ⟨r, hr, -⟩ := subdivide_some hwf 2
    refine ⟨r, hr, ?_⟩
    rw [subdivide_add vertices indices (by decide : (0 : Int) ≤ 1) (by decide : (0 : Int) ≤ 1)]
    exact hr

theorem subdivide_compose_witness :
    WellFormed ([⟨0, 0, 0⟩, ⟨1, 0, 0⟩, ⟨0, 1, 0⟩] : List (XrVector3f ℚ)).length [0, 1, 2] ∧
    (0 : Int) ≤ 1 ∧ (0 : Int) ≤ 2 ∧
    ((∃ r, subdivide ([⟨0, 0, 0⟩, ⟨1, 0, 0⟩, ⟨0, 1, 0⟩] : List (XrVector3f ℚ)) [0, 1, 2]
        (1 + 2) = some r ∧
      (subdivide ([⟨0, 0, 0⟩, ⟨1, 0, 0⟩, ⟨0, 1, 0⟩] : List (XrVector3f ℚ)) [0, 1, 2] 1).bind
        (fun m => subdivide m.1 m.2 2) = some r) ∧
    (∃ r, subdivide ([⟨0, 0, 0⟩, ⟨1, 0, 0⟩, ⟨0, 1, 0⟩] : List (XrVector3f ℚ)) [0, 1, 2]
        2 = some r ∧
      (subdivide ([⟨0, 0, 0⟩, ⟨1, 0, 0⟩, ⟨0, 1, 0⟩] : List (XrVector3f ℚ)) [0, 1, 2] 1).bind
        (fun m => subdivide m.1 m.2 1) = some r)) :=
  ⟨by decide, by decide, by decide,
    subdivide_compose _ _ 1 2 (by decide) (by decide) (by decide)⟩

/-- C3: for an index buffer of length `3 * F` with every id in range, one round
returns an index buffer of length `12 * F`, and `subdivide` with `n` iterations
returns `4 ^ n * F` triangles. -/
theorem subdivide_triangle_count (vertices : List (XrVector3f α)) (indices : List Nat)
    (F : Nat) (hlen : indices.length = 3 * F) (hrange : ∀ i ∈ indices, i < vertices.length) :
    (∃ r, apply_subdivision vertices indices = some r ∧ r.2.length = 12 * F) ∧
    ∀ n : Nat, ∃ r, subdivide vertices indices (n : Int) = some r ∧
      r.2.length = 3 * (4 ^ n * F) := by
  have hwf : WellFormed vertices.length indices := ⟨by omega, hrange⟩
  constructor
  · obtain ⟨r, hr⟩ := apply_subdivision_some hwf
    obtain ⟨-, -, h4, -⟩ := apply_subdivision_inv hr
    exact ⟨r, hr, by omega⟩
  · intro n
    obtain ⟨r, hr, -, hl⟩ := subdivide_some hwf (n : Int)
    refine ⟨r, hr, ?_⟩
    rw [hl, hlen, Int.toNat_natCast]
    ring

theorem subdivide_triangle_count_witness :
    ([0, 1, 2, 2, 1, 3] : List Nat).length = 3 * 2 ∧
    (∀ i ∈ ([0, 1, 2, 2, 1, 3] : List Nat),
      i < ([⟨0, 0, 0⟩, ⟨1, 0, 0⟩, ⟨0, 1, 0⟩, ⟨1, 1, 0⟩] : List (XrVector3f ℚ)).length) ∧
    ((∃ r, apply_subdivision
        ([⟨0, 0, 0⟩, ⟨1, 0, 0⟩, ⟨0, 1, 0⟩, ⟨1, 1, 0⟩] : List (XrVector3f ℚ))
        [0, 1, 2, 2, 1, 3] = some r ∧ r.2.length = 12 * 2) ∧
    ∀ n : Nat, ∃ r, subdivide
        ([⟨0, 0, 0⟩, ⟨1, 0, 0⟩, ⟨0, 1, 0⟩, ⟨1, 1, 0⟩] : List (XrVector3f ℚ))
        [0, 1, 2, 2, 1, 3] (n : Int) = some r ∧ r.2.length = 3 * (4 ^ n * 2)) :=
  ⟨by decide, by decide, subdivide_triangle_count _ _ 2 (by decide) (by decide)⟩

/-- C4: one round on a well-formed mesh with `V` vertices returns a vertex
buffer of length `V + E`, with `E` the number of distinct canonical edge keys
`(min a b, max a b)` over the three sides of all input triangles. -/
theorem apply_subdivision_vertex_count (vertices : List (XrVector3f α))
    (indices : List Nat) (hwf : WellFormed vertices.length indices) :
    ∃ r, apply_subdivision vertices indices = some r ∧
      r.1.length = vertices.length + distinctEdgeCount indices := by
  obtain ⟨r, hr⟩ := apply_subdivision_some hwf
  exact ⟨r, hr, (apply_subdivision_inv hr).2.2.2⟩

theorem apply_subdivision_vertex_count_witness :
    WellFormed ([⟨0, 0, 0⟩, ⟨1, 0, 0⟩, ⟨0, 1, 0⟩, ⟨1, 1, 0⟩] : List (XrVector3f ℚ)).length
      [0, 1, 2, 2, 1, 3] ∧
    distinctEdgeCount [0, 1, 2, 2, 1, 3] = 5 ∧
    ∃ r, apply_subdivision
        ([⟨0, 0, 0⟩, ⟨1, 0, 0⟩, ⟨0, 1, 0⟩, ⟨1, 1, 0⟩] : List (XrVector3f ℚ))
        [0, 1, 2, 2, 1, 3] = some r ∧
      r.1.length = ([⟨0, 0, 0⟩, ⟨1, 0, 0⟩, ⟨0, 1, 0⟩, ⟨1, 1, 0⟩] :
        List (XrVector3f ℚ)).length + distinctEdgeCount [0, 1, 2, 2, 1, 3] :=
  ⟨by decide, by decide, apply_subdivision_vertex_count _ _ (by decide)⟩

/-- C5: a tetrahedron (4 vertices, 4 triangles over them with 6 distinct edges)
passed to `subdivide` with `iterations = 1` yields 10 vertices and an index
buffer of length 48, that is 16 triangles. -/
theorem subdivide_tetrahedron (vertices : List (XrVector3f α)) (indices : List Nat)
    (hV : vertices.length = 4) (hF : indices.length = 3 * 4)
    (hrange : ∀ i ∈ indices, i < 4) (hE : distinctEdgeCount indices = 6) :
    ∃ r, subdivide vertices indices 1 = some r ∧ r.1.length = 10 ∧ r.2.length = 3 * 16 := by
  have hwf : WellFormed vertices.length indices := ⟨by omega, by rw [hV]; exact hrange⟩
  obtain ⟨r, hr⟩ := apply_subdivision_some hwf
  obtain ⟨-, -, h4, hv⟩ := apply_subdivision_inv hr
  refine ⟨r, ?_, by omega, by omega⟩
  rw [subdivide_of_nonneg _ _ (by decide : (0 : Int) ≤ 1)]
  show subdivideLoop 1 vertices indices = some r
  simp only [subdivideLoop, hr]

theorem subdivide_tetrahedron_witness :
    ([⟨1, 1, 1⟩, ⟨1, -1, -1⟩, ⟨-1, 1, -1⟩, ⟨-1, -1, 1⟩] : List (XrVector3f ℚ)).length = 4 ∧
    ([0, 1, 2, 0, 3, 1, 0, 2, 3, 1, 3, 2] : List Nat).length = 3 * 4 ∧
    (∀ i ∈ ([0, 1, 2, 0, 3, 1, 0, 2, 3, 1, 3, 2] : List Nat), i < 4) ∧
    distinctEdgeCount [0, 1, 2, 0, 3, 1, 0, 2, 3, 1, 3, 2] = 6 ∧
    ∃ r, subdivide ([⟨1, 1, 1⟩, ⟨1, -1, -1⟩, ⟨-1, 1, -1⟩, ⟨-1, -1, 1⟩] : List (XrVector3f ℚ))
        [0, 1, 2, 0, 3, 1, 0, 2, 3, 1, 3, 2] 1 = some r ∧
      r.1.length = 10 ∧ r.2.length = 3 * 16 :=
  ⟨by decide, by decide, by decide, by decide,
    subdivide_tetrahedron _ _ (by decide) (by decide) (by decide) (by decide)⟩

/-- C8: `subdivide` preserves index validity: on a mesh whose index buffer length
is a multiple of 3 with every id below the vertex count, every iteration count
returns buffers with the same two properties. -/
theorem subdivide_preserves_wellFormed (vertices : List (XrVector3f α))
    (indices : List Nat) (iterations : Int)
    (hlen : indices.length % 3 = 0) (hrange : ∀ i ∈ indices, i < vertices.length) :
    ∃ r, subdivide vertices indices iterations = some r ∧
      r.2.length % 3 = 0 ∧ ∀ i ∈ r.2, i < r.1.length := by
  obtain ⟨r, hr, hwf, -⟩ := subdivide_some (⟨hlen, hrange⟩ : WellFormed _ _) iterations
  exact ⟨r, hr, hwf.1, hwf.2⟩

theorem subdivide_preserves_wellFormed_witness :
    ([0, 1, 2, 2, 1, 3] : List Nat).length % 3 = 0 ∧
    (∀ i ∈ ([0, 1, 2, 2, 1, 3] : List Nat),
      i < ([⟨0, 0, 0⟩, ⟨1, 0, 0⟩, ⟨0, 1, 0⟩, ⟨1, 1, 0⟩] : List (XrVector3f ℚ)).length) ∧
    ∃ r, subdivide ([⟨0, 0, 0⟩, ⟨1, 0, 0⟩, ⟨0, 1, 0⟩, ⟨1, 1, 0⟩] : List (XrVector3f ℚ))
        [0, 1, 2, 2, 1, 3] 3 = some r ∧
      r.2.length % 3 = 0 ∧ ∀ i ∈ r.2, i < r.1.length :=
  ⟨by decide, by decide, subdivide_preserves_wellFormed _ _ 3 (by decide) (by decide)⟩

/-- C6: in a round whose output vertex ids fit `uint32_t` (at most `2 ^ 32`
output vertices), an edge with endpoints `A`, `B` whose opposite-vertex list is
`[C, D]` has a midpoint index, and the output vertex at that index is
`3/8 * (pos A + pos B) + 1/8 * (pos C + pos D)` over the input positions. -/
theorem interior_midpoint_rule (vertices : List (XrVector3f α)) (indices : List Nat)
    (A B C D : Nat) (hsz : vertices.length + distinctEdgeCount indices ≤ 2 ^ 32)
    (hopp : oppositesOf vertices indices (min A B, max A B) = some [C, D]) :
    ∃ r m pA pB pC pD, apply_subdivision vertices indices = some r ∧
      midpointIndexOf vertices indices (min A B, max A B) = some m ∧
      vertices[A]? = some pA ∧ vertices[B]? = some pB ∧
      vertices[C]? = some pC ∧ vertices[D]? = some pD ∧
      r.1[m]? = some (add (scalar_multiply (add pA pB) (3 / 8))
        (scalar_multiply (add pC pD) (1 / 8))) := by
  obtain ⟨r, st, m, pos, hr, -, ho, hm, hpos, -, hget⟩ :=
    apply_subdivision_midpoint (wellFormed_of_oppositesOf hopp) hsz hopp
  obtain ⟨p0, p1, pC, pD, h0, h1, hC, hD, hval⟩ := midpointPosition_interior ho hpos
  obtain ⟨pA, pB, hA, hB, hab⟩ := endpoints_of_key h0 h1
  refine ⟨r, m, pA, pB, pC, pD, hr, hm, hA, hB, hC, hD, ?_⟩
  rw [hget, hval, hab]

theorem interior_midpoint_rule_witness :
    ([⟨0, 0, 0⟩, ⟨1, 0, 0⟩, ⟨0, 1, 0⟩, ⟨1, 1, 0⟩] : List (XrVector3f ℚ)).length +
      distinctEdgeCount [0, 1, 2, 2, 1, 3] ≤ 2 ^ 32 ∧
    oppositesOf ([⟨0, 0, 0⟩, ⟨1, 0, 0⟩, ⟨0, 1, 0⟩, ⟨1, 1, 0⟩] : List (XrVector3f ℚ))
      [0, 1, 2, 2, 1, 3] (min 2 1, max 2 1) = some [0, 3] ∧
    ∃ r m pA pB pC pD,
      apply_subdivision ([⟨0, 0, 0⟩, ⟨1, 0, 0⟩, ⟨0, 1, 0⟩, ⟨1, 1, 0⟩] : List (XrVector3f ℚ))
        [0, 1, 2, 2, 1, 3] = some r ∧
      midpointIndexOf ([⟨0, 0, 0⟩, ⟨1, 0, 0⟩, ⟨0, 1, 0⟩, ⟨1, 1, 0⟩] : List (XrVector3f ℚ))
        [0, 1, 2, 2, 1, 3] (min 2 1, max 2 1) = some m ∧
      ([⟨0, 0, 0⟩, ⟨1, 0, 0⟩, ⟨0, 1, 0⟩, ⟨1, 1, 0⟩] : List (XrVector3f ℚ))[2]? = some pA ∧
      ([⟨0, 0, 0⟩, ⟨1, 0, 0⟩, ⟨0, 1, 0⟩, ⟨1, 1, 0⟩] : List (XrVector3f ℚ))[1]? = some pB ∧
      ([⟨0, 0, 0⟩, ⟨1, 0, 0⟩, ⟨0, 1, 0⟩, ⟨1, 1, 0⟩] : List (XrVector3f ℚ))[0]? = some pC ∧
      ([⟨0, 0, 0⟩, ⟨1, 0, 0⟩, ⟨0, 1, 0⟩, ⟨1, 1, 0⟩] : List (XrVector3f ℚ))[3]? = some pD ∧
      r.1[m]? = some (add (scalar_multiply (add pA pB) (3 / 8))
        (scalar_multiply (add pC pD) (1 / 8))) :=
  ⟨by decide, by rfl, interior_midpoint_rule _ _ 2 1 0 3 (by decide) (by rfl)⟩

/-- C7: in a round whose output vertex ids fit `uint32_t` (at most `2 ^ 32`
output vertices), an edge with endpoints `A`, `B` whose opposite-vertex list
has exactly one entry has a midpoint index, and the output vertex at that index
is `(pos A + pos B) / 2` component-wise over the input positions. -/
theorem boundary_midpoint_rule (vertices : List (XrVector3f α)) (indices : List Nat)
    (A B C : Nat) (hsz : vertices.length + distinctEdgeCount indices ≤ 2 ^ 32)
    (hopp : oppositesOf vertices indices (min A B, max A B) = some [C]) :
    ∃ r m pA pB, apply_subdivision vertices indices = some r ∧
      midpointIndexOf vertices indices (min A B, max A B) = some m ∧
      vertices[A]? = some pA ∧ vertices[B]? = some pB ∧
      r.1[m]? = some ⟨(pA.x + pB.x) / 2, (pA.y + pB.y) / 2, (pA.z + pB.z) / 2⟩ := by
  obtain ⟨r, st, m, pos, hr, -, ho, hm, hpos, -, hget⟩ :=
    apply_subdivision_midpoint (wellFormed_of_oppositesOf hopp) hsz hopp
  obtain ⟨p0, p1, h0, h1, hval⟩ := midpointPosition_boundary ho (by simp) hpos
  obtain ⟨pA, pB, hA, hB, hab⟩ := endpoints_of_key h0 h1
  refine ⟨r, m, pA, pB, hr, hm, hA, hB, ?_⟩
  rw [hget, hval, hab]
  simp only [add, scalar_multiply, Option.some.injEq, XrVector3f.mk.injEq]
  refine ⟨?_, ?_, ?_⟩ <;> ring

theorem boundary_midpoint_rule_witness :
    ([⟨0, 0, 0⟩, ⟨1, 0, 0⟩, ⟨0, 1, 0⟩, ⟨1, 1, 0⟩] : List (XrVector3f ℚ)).length +
      distinctEdgeCount [0, 1, 2, 2, 1, 3] ≤ 2 ^ 32 ∧
    oppositesOf ([⟨0, 0, 0⟩, ⟨1, 0, 0⟩, ⟨0, 1, 0⟩, ⟨1, 1, 0⟩] : List (XrVector3f ℚ))
      [0, 1, 2, 2, 1, 3] (min 0 1, max 0 1) = some [2] ∧
    ∃ r m pA pB,
      apply_subdivision ([⟨0, 0, 0⟩, ⟨1, 0, 0⟩, ⟨0, 1, 0⟩, ⟨1, 1, 0⟩] : List (XrVector3f ℚ))
        [0, 1, 2, 2, 1, 3] = some r ∧
      midpointIndexOf ([⟨0, 0, 0⟩, ⟨1, 0, 0⟩, ⟨0, 1, 0⟩, ⟨1, 1, 0⟩] : List (XrVector3f ℚ))
        [0, 1, 2, 2, 1, 3] (min 0 1, max 0 1) = some m ∧
      ([⟨0, 0, 0⟩, ⟨1, 0, 0⟩, ⟨0, 1, 0⟩, ⟨1, 1, 0⟩] : List (XrVector3f ℚ))[0]? = some pA ∧
      ([⟨0, 0, 0⟩, ⟨1, 0, 0⟩, ⟨0, 1, 0⟩, ⟨1, 1, 0⟩] : List (XrVector3f ℚ))[1]? = some pB ∧
      r.1[m]? = some ⟨(pA.x + pB.x) / 2, (pA.y + pB.y) / 2, (pA.z + pB.z) / 2⟩ :=
  ⟨by decide, by rfl, boundary_midpoint_rule _ _ 0 1 2 (by decide) (by rfl)⟩

/-- C9: for every mesh and every distance `d` with `|d| < 1e-6`, in particular
`d = 0`, `expand_mesh` returns the vertex buffer as it was given. -/
theorem expand_mesh_below_tolerance (sqrt : α → α) (vertices : List (XrVector3f α))
    (indices : List Nat) (d : α) (hd : |d| < 1 / 1000000) :
    expand_mesh sqrt vertices indices d = some vertices ∧
      expand_mesh sqrt vertices indices 0 = some vertices :=
  ⟨expand_mesh_of_small sqrt vertices indices hd,
    expand_mesh_of_small sqrt vertices indices (by rw [abs_zero]; positivity)⟩

theorem expand_mesh_below_tolerance_witness :
    |(1 / 2000000 : ℚ)| < 1 / 1000000 ∧
    expand_mesh (fun x => x) ([⟨0, 0, 0⟩, ⟨1, 0, 0⟩, ⟨0, 1, 0⟩] : List (XrVector3f ℚ))
      [0, 1, 2] (1 / 2000000) = some [⟨0, 0, 0⟩, ⟨1, 0, 0⟩, ⟨0, 1, 0⟩] ∧
    expand_mesh (fun x => x) ([⟨0, 0, 0⟩, ⟨1, 0, 0⟩, ⟨0, 1, 0⟩] : List (XrVector3f ℚ))
      [0, 1, 2] 0 = some [⟨0, 0, 0⟩, ⟨1, 0, 0⟩, ⟨0, 1, 0⟩] :=
  ⟨by rw [abs_of_pos] <;> norm_num,
    expand_mesh_below_tolerance _ _ _ (1 / 2000000) (by rw [abs_of_pos] <;> norm_num)⟩

/-- C10, as amended: for a single triangle `(v0, v1, v2)` whose face normal
`N = (v1 - v0) × (v2 - v0)` is longer than `1e-6`, and a distance `d` with
`|d| ≥ 1e-6`, `expand_mesh` moves each of the three vertices by the same
vector `N * (d / |N|)`, which has length exactly `|d|` (over the reals). -/
theorem expand_mesh_single_triangle (v0 v1 v2 : XrVector3f ℝ) (d : ℝ)
    (hd : 1 / 1000000 ≤ |d|)
    (hN : 1 / 1000000 <
      magnitude Real.sqrt (cross_product (subtract v1 v0) (subtract v2 v0))) :
    expand_mesh Real.sqrt [v0, v1, v2] [0, 1, 2] d =
      some [add v0 (scalar_multiply (cross_product (subtract v1 v0) (subtract v2 v0))
              (d / magnitude Real.sqrt (cross_product (subtract v1 v0) (subtract v2 v0)))),
            add v1 (scalar_multiply (cross_product (subtract v1 v0) (subtract v2 v0))
              (d / magnitude Real.sqrt (cross_product (subtract v1 v0) (subtract v2 v0)))),
            add v2 (scalar_multiply (cross_product (subtract v1 v0) (subtract v2 v0))
              (d / magnitude Real.sqrt (cross_product (subtract v1 v0) (subtract v2 v0))))] ∧
      magnitude Real.sqrt (scalar_multiply (cross_product (subtract v1 v0) (subtract v2 v0))
        (d / magnitude Real.sqrt (cross_product (subtract v1 v0) (subtract v2 v0)))) = |d| := by
  have hpos : 0 < magnitude Real.sqrt (cross_product (subtract v1 v0) (subtract v2 v0)) :=
    lt_trans (by norm_num) hN
  refine ⟨?_, magnitude_scaled _ d hpos⟩
  rw [expand_mesh_single Real.sqrt v0 v1 v2 (not_lt.2 hd)]
  have hnorm : scalar_multiply
      (VectorMath.normalize Real.sqrt (cross_product (subtract v1 v0) (subtract v2 v0))) d =
      scalar_multiply (cross_product (subtract v1 v0) (subtract v2 v0))
        (d / magnitude Real.sqrt (cross_product (subtract v1 v0) (subtract v2 v0))) := by
    unfold VectorMath.normalize
    simp only [gt_iff_lt, hN, if_true, scalar_multiply, XrVector3f.mk.injEq]
    refine ⟨?_, ?_, ?_⟩ <;> ring
  rw [hnorm]

theorem expand_mesh_single_triangle_witness :
    (1 / 1000000 : ℝ) ≤ |(1 : ℝ)| ∧
    1 / 1000000 < magnitude Real.sqrt
      (cross_product (subtract (⟨1, 0, 0⟩ : XrVector3f ℝ) ⟨0, 0, 0⟩)
        (subtract ⟨0, 1, 0⟩ ⟨0, 0, 0⟩)) ∧
    magnitude Real.sqrt (scalar_multiply
      (cross_product (subtract (⟨1, 0, 0⟩ : XrVector3f ℝ) ⟨0, 0, 0⟩)
        (subtract ⟨0, 1, 0⟩ ⟨0, 0, 0⟩))
      (1 / magnitude Real.sqrt
        (cross_product (subtract (⟨1, 0, 0⟩ : XrVector3f ℝ) ⟨0, 0, 0⟩)
          (subtract ⟨0, 1, 0⟩ ⟨0, 0, 0⟩)))) = |(1 : ℝ)| :=
  ⟨by rw [abs_one]; norm_num,
    by simp [magnitude, cross_product, subtract]; norm_num,
    (expand_mesh_single_triangle ⟨0, 0, 0⟩ ⟨1, 0, 0⟩ ⟨0, 1, 0⟩ 1
      (by rw [abs_one]; norm_num)
      (by simp [magnitude, cross_product, subtract]; norm_num)).2⟩

/-- C10 fails as stated: with the distance `1e-7` the triangle
`(0,0,0), (1,0,0), (0,1,0)` is not moved at all, and the degenerate triangle
with three equal corners is not moved by the distance `1`; in both cases no
common displacement of length `|d|` exists. -/
theorem expand_mesh_single_triangle_counterexample :
    (¬ ∃ disp : XrVector3f ℝ,
      expand_mesh Real.sqrt [⟨0, 0, 0⟩, ⟨1, 0, 0⟩, ⟨0, 1, 0⟩] [0, 1, 2] (1 / 10000000) =
        some [add ⟨0, 0, 0⟩ disp, add ⟨1, 0, 0⟩ disp, add ⟨0, 1, 0⟩ disp] ∧
      (∃ c, disp = scalar_multiply
        (cross_product (subtract ⟨1, 0, 0⟩ ⟨0, 0, 0⟩) (subtract ⟨0, 1, 0⟩ ⟨0, 0, 0⟩)) c) ∧
      magnitude Real.sqrt disp = |(1 / 10000000 : ℝ)|) ∧
    (¬ ∃ disp : XrVector3f ℝ,
      expand_mesh Real.sqrt [⟨0, 0, 0⟩, ⟨0, 0, 0⟩, ⟨0, 0, 0⟩] [0, 1, 2] 1 =
        some [add ⟨0, 0, 0⟩ disp, add ⟨0, 0, 0⟩ disp, add ⟨0, 0, 0⟩ disp] ∧
      (∃ c, disp = scalar_multiply
        (cross_product (subtract ⟨0, 0, 0⟩ ⟨0, 0, 0⟩) (subtract ⟨0, 0, 0⟩ ⟨0, 0, 0⟩)) c) ∧
      magnitude Real.sqrt disp = |(1 : ℝ)|) := by
  constructor
  · rintro ⟨disp, h1, -, h3⟩
    rw [expand_mesh_of_small Real.sqrt _ _ (by rw [abs_of_pos] <;> norm_num)] at h1
    simp only [Option.some.injEq, List.cons.injEq, zero_add_vec] at h1
    rw [← h1.1] at h3
    simp only [magnitude, mul_zero, add_zero, Real.sqrt_zero] at h3
    rw [abs_of_pos (by norm_num)] at h3
    norm_num at h3
  · rintro ⟨disp, h1, -, h3⟩
    rw [expand_mesh_single Real.sqrt _ _ _ (by rw [abs_one]; norm_num)] at h1
    have hz : VectorMath.normalize Real.sqrt
        (cross_product (subtract (⟨0, 0, 0⟩ : XrVector3f ℝ) ⟨0, 0, 0⟩)
          (subtract ⟨0, 0, 0⟩ ⟨0, 0, 0⟩)) = ⟨0, 0, 0⟩ := by
      simp [VectorMath.normalize, magnitude, cross_product, subtract]
    rw [hz] at h1
    simp only [Option.some.injEq, List.cons.injEq, zero_add_vec, scalar_multiply,
      zero_mul] at h1
    rw [← h1.1] at h3
    simp only [magnitude, mul_zero, add_zero, Real.sqrt_zero, abs_one] at h3
    norm_num at h3

/-- C16: in one round, an original vertex `i` whose adjacency list `nbrs` has
`k ≥ 2` entries ends at index `i` of the output with the position
`(1 - k * β) * pos i + β * Σ pos n`, the sum running over all entries `n` of
`nbrs` (duplicates counted), with `β = 3/16` if `k = 3` and `3 / (8 * k)`
otherwise, over the input positions. -/
theorem original_vertex_smoothing (vertices : List (XrVector3f α)) (indices : List Nat)
    (i : Nat) (nbrs : List Nat) (hadj : adjacencyOf vertices indices i = some nbrs)
    (hk : 2 ≤ nbrs.length) :
    ∃ r p, apply_subdivision vertices indices = some r ∧ vertices[i]? = some p ∧
      r.1[i]? = some (smoothedPosition nbrs.length p (positionSum vertices nbrs)) :=
  apply_subdivision_smoothed hadj hk

theorem original_vertex_smoothing_witness :
    adjacencyOf ([⟨0, 0, 0⟩, ⟨1, 0, 0⟩, ⟨0, 1, 0⟩, ⟨1, 1, 0⟩] : List (XrVector3f ℚ))
      [0, 1, 2, 2, 1, 3] 1 = some [0, 2, 2, 3] ∧
    2 ≤ ([0, 2, 2, 3] : List Nat).length ∧
    ∃ r p,
      apply_subdivision ([⟨0, 0, 0⟩, ⟨1, 0, 0⟩, ⟨0, 1, 0⟩, ⟨1, 1, 0⟩] : List (XrVector3f ℚ))
        [0, 1, 2, 2, 1, 3] = some r ∧
      ([⟨0, 0, 0⟩, ⟨1, 0, 0⟩, ⟨0, 1, 0⟩, ⟨1, 1, 0⟩] : List (XrVector3f ℚ))[1]? = some p ∧
      r.1[1]? = some (smoothedPosition ([0, 2, 2, 3] : List Nat).length p
        (positionSum ([⟨0, 0, 0⟩, ⟨1, 0, 0⟩, ⟨0, 1, 0⟩, ⟨1, 1, 0⟩] : List (XrVector3f ℚ))
          [0, 2, 2, 3])) :=
  ⟨by rfl, by decide, original_vertex_smoothing _ _ 1 [0, 2, 2, 3] (by rfl) (by decide)⟩

/-- C17: in one round that returns at most `2 ^ 32` vertices (so that vertex
ids fit `uint32_t`), an original vertex whose adjacency list has fewer than two
entries, in particular one that no triangle references, keeps its input
position at its index. -/
theorem original_vertex_untouched (vertices : List (XrVector3f α)) (indices : List Nat)
    (i : Nat) (hwf : WellFormed vertices.length indices)
    (hsz : vertices.length + distinctEdgeCount indices ≤ 2 ^ 32)
    (hi : i < vertices.length)
    (hk : (∃ nbrs, adjacencyOf vertices indices i = some nbrs ∧ nbrs.length < 2) ∨
      i ∉ indices) :
    ∃ r p, apply_subdivision vertices indices = some r ∧ vertices[i]? = some p ∧
      r.1[i]? = some p := by
  have hadj : ∃ nbrs, adjacencyOf vertices indices i = some nbrs ∧ nbrs.length < 2 := by
    rcases hk with h | h
    · exact h
    · exact ⟨[], adjacencyOf_of_not_mem hwf hi h, by decide⟩
  obtain ⟨nbrs, h1, h2⟩ := hadj
  obtain ⟨r, hr, hget⟩ := apply_subdivision_untouched hsz h1 h2
  exact ⟨r, vertices[i], hr, List.getElem?_eq_getElem hi,
    by rw [hget, List.getElem?_eq_getElem hi]⟩

theorem original_vertex_untouched_witness :
    WellFormed ([⟨0, 0, 0⟩, ⟨1, 0, 0⟩, ⟨0, 1, 0⟩, ⟨5, 5, 5⟩] : List (XrVector3f ℚ)).length
      [0, 1, 2] ∧
    ([⟨0, 0, 0⟩, ⟨1, 0, 0⟩, ⟨0, 1, 0⟩, ⟨5, 5, 5⟩] : List (XrVector3f ℚ)).length +
      distinctEdgeCount [0, 1, 2] ≤ 2 ^ 32 ∧
    3 < ([⟨0, 0, 0⟩, ⟨1, 0, 0⟩, ⟨0, 1, 0⟩, ⟨5, 5, 5⟩] : List (XrVector3f ℚ)).length ∧
    3 ∉ ([0, 1, 2] : List Nat) ∧
    ∃ r p,
      apply_subdivision ([⟨0, 0, 0⟩, ⟨1, 0, 0⟩, ⟨0, 1, 0⟩, ⟨5, 5, 5⟩] : List (XrVector3f ℚ))
        [0, 1, 2] = some r ∧
      ([⟨0, 0, 0⟩, ⟨1, 0, 0⟩, ⟨0, 1, 0⟩, ⟨5, 5, 5⟩] : List (XrVector3f ℚ))[3]? = some p ∧
      r.1[3]? = some p :=
  ⟨by decide, by decide, by decide, by decide,
    original_vertex_untouched _ _ 3 (by decide) (by decide) (by decide)
      (Or.inr (by decide))⟩

/-- C18: in one round, triangle `t` of the input, `(p0, p1, p2)`, with `m01`,
`m12`, `m20` the midpoint indices of its sides `(p0,p1)`, `(p1,p2)`, `(p2,p0)`,
fills positions `12 * t .. 12 * t + 11` of the output index buffer with
`(p0, m01, m20)`, `(p1, m12, m01)`, `(p2, m20, m12)`, `(m01, m12, m20)` in that
order; each child lists its corners in the cyclic direction `p0 → p1 → p2` of
the parent. -/
theorem child_triangles (vertices : List (XrVector3f α)) (indices : List Nat)
    (t p0 p1 p2 : Nat) (hwf : WellFormed vertices.length indices)
    (h0 : indices[3 * t]? = some p0) (h1 : indices[3 * t + 1]? = some p1)
    (h2 : indices[3 * t + 2]? = some p2) :
    ∃ r m01 m12 m20, apply_subdivision vertices indices = some r ∧
      midpointIndexOf vertices indices (min p0 p1, max p0 p1) = some m01 ∧
      midpointIndexOf vertices indices (min p1 p2, max p1 p2) = some m12 ∧
      midpointIndexOf vertices indices (min p2 p0, max p2 p0) = some m20 ∧
      (r.2.drop (12 * t)).take 12 =
        [p0, m01, m20, p1, m12, m01, p2, m20, m12, m01, m12, m20] :=
  apply_subdivision_children hwf h0 h1 h2

theorem child_triangles_witness :
    WellFormed ([⟨0, 0, 0⟩, ⟨1, 0, 0⟩, ⟨0, 1, 0⟩, ⟨1, 1, 0⟩] : List (XrVector3f ℚ)).length
      [0, 1, 2, 2, 1, 3] ∧
    ([0, 1, 2, 2, 1, 3] : List Nat)[3 * 1]? = some 2 ∧
    ([0, 1, 2, 2, 1, 3] : List Nat)[3 * 1 + 1]? = some 1 ∧
    ([0, 1, 2, 2, 1, 3] : List Nat)[3 * 1 + 2]? = some 3 ∧
    ∃ r m01 m12 m20,
      apply_subdivision ([⟨0, 0, 0⟩, ⟨1, 0, 0⟩, ⟨0, 1, 0⟩, ⟨1, 1, 0⟩] : List (XrVector3f ℚ))
        [0, 1, 2, 2, 1, 3] = some r ∧
      midpointIndexOf ([⟨0, 0, 0⟩, ⟨1, 0, 0⟩, ⟨0, 1, 0⟩, ⟨1, 1, 0⟩] : List (XrVector3f ℚ))
        [0, 1, 2, 2, 1, 3] (min 2 1, max 2 1) = some m01 ∧
      midpointIndexOf ([⟨0, 0, 0⟩, ⟨1, 0, 0⟩, ⟨0, 1, 0⟩, ⟨1, 1, 0⟩] : List (XrVector3f ℚ))
        [0, 1, 2, 2, 1, 3] (min 1 3, max 1 3) = some m12 ∧
      midpointIndexOf ([⟨0, 0, 0⟩, ⟨1, 0, 0⟩, ⟨0, 1, 0⟩, ⟨1, 1, 0⟩] : List (XrVector3f ℚ))
        [0, 1, 2, 2, 1, 3] (min 3 2, max 3 2) = some m20 ∧
      (r.2.drop (12 * 1)).take 12 = [2, m01, m20, 1, m12, m01, 3, m20, m12, m01, m12, m20] :=
  ⟨by decide, by decide, by decide, by decide,
    child_triangles _ _ 1 2 1 3 (by decide) (by decide) (by decide) (by decide)⟩

/-- C19: a round over `V` input vertices that returns at most `2 ^ 32` vertices
(so that vertex ids fit `uint32_t`) returns `V` plus one vertex per distinct
edge; index `i < V` holds original vertex `i`, repositioned by the third pass
(or as it was when its adjacency list has fewer than two entries); and the
`j`-th distinct edge first met when scanning the triangles in buffer order,
sides `(p0,p1)`, `(p1,p2)`, `(p2,p0)` in turn, has midpoint index `V + j`,
where the output holds the midpoint position computed for it. -/
theorem vertex_layout (vertices : List (XrVector3f α)) (indices : List Nat)
    (hwf : WellFormed vertices.length indices)
    (hsz : vertices.length + distinctEdgeCount indices ≤ 2 ^ 32) :
    ∃ r st, apply_subdivision vertices indices = some r ∧
      firstPass indices (initState vertices) = some st ∧
      r.1.length = vertices.length + (allocationOrder indices).length ∧
      (∀ i, i < vertices.length → ∃ nbrs p, adjacencyOf vertices indices i = some nbrs ∧
        vertices[i]? = some p ∧
        r.1[i]? = some (if nbrs.length < 2 then p
          else smoothedPosition nbrs.length p (positionSum vertices nbrs))) ∧
      (∀ j e, (allocationOrder indices)[j]? = some e →
        midpointIndexOf vertices indices e = some (vertices.length + j) ∧
        ∃ pos, midpointPosition vertices st.edgeToOppositeVertices e = some pos ∧
          r.1[vertices.length + j]? = some pos) := by
  obtain ⟨r, st, hr, h1, hlen, hmidpoints⟩ := apply_subdivision_order hwf hsz
  refine ⟨r, st, hr, h1, hlen, ?_, hmidpoints⟩
  intro i hi
  obtain ⟨inv, -⟩ := firstPass_inv indices (stateInv_init vertices) h1
  have hia : i < st.adjacency.length := by rw [inv.adj_len]; exact hi
  have hadj : adjacencyOf vertices indices i = some st.adjacency[i] := by
    simp only [adjacencyOf, h1, List.getElem?_eq_getElem hia]
  refine ⟨st.adjacency[i], vertices[i], hadj, List.getElem?_eq_getElem hi, ?_⟩
  by_cases hk : st.adjacency[i].length < 2
  · obtain ⟨r', hr', hget⟩ := apply_subdivision_untouched hsz hadj hk
    rw [hr] at hr'
    cases hr'
    rw [if_pos hk, hget, List.getElem?_eq_getElem hi]
  · obtain ⟨r', p, hr', hp, hget⟩ := apply_subdivision_smoothed hadj (by omega)
    rw [hr] at hr'
    cases hr'
    rw [List.getElem?_eq_getElem hi] at hp
    cases hp
    rw [if_neg hk, hget]

theorem vertex_layout_witness :
    WellFormed ([⟨0, 0, 0⟩, ⟨1, 0, 0⟩, ⟨0, 1, 0⟩, ⟨1, 1, 0⟩] : List (XrVector3f ℚ)).length
      [0, 1, 2, 2, 1, 3] ∧
    ([⟨0, 0, 0⟩, ⟨1, 0, 0⟩, ⟨0, 1, 0⟩, ⟨1, 1, 0⟩] : List (XrVector3f ℚ)).length +
      distinctEdgeCount [0, 1, 2, 2, 1, 3] ≤ 2 ^ 32 ∧
    allocationOrder [0, 1, 2, 2, 1, 3] = [(0, 1), (1, 2), (0, 2), (1, 3), (2, 3)] ∧
    ∃ r st,
      apply_subdivision ([⟨0, 0, 0⟩, ⟨1, 0, 0⟩, ⟨0, 1, 0⟩, ⟨1, 1, 0⟩] : List (XrVector3f ℚ))
        [0, 1, 2, 2, 1, 3] = some r ∧
      firstPass [0, 1, 2, 2, 1, 3]
        (initState ([⟨0, 0, 0⟩, ⟨1, 0, 0⟩, ⟨0, 1, 0⟩, ⟨1, 1, 0⟩] : List (XrVector3f ℚ))) =
        some st ∧
      r.1.length = ([⟨0, 0, 0⟩, ⟨1, 0, 0⟩, ⟨0, 1, 0⟩, ⟨1, 1, 0⟩] :
        List (XrVector3f ℚ)).length + (allocationOrder [0, 1, 2, 2, 1, 3]).length ∧
      (∀ i, i < ([⟨0, 0, 0⟩, ⟨1, 0, 0⟩, ⟨0, 1, 0⟩, ⟨1, 1, 0⟩] :
          List (XrVector3f ℚ)).length →
        ∃ nbrs p, adjacencyOf ([⟨0, 0, 0⟩, ⟨1, 0, 0⟩, ⟨0, 1, 0⟩, ⟨1, 1, 0⟩] :
            List (XrVector3f ℚ)) [0, 1, 2, 2, 1, 3] i = some nbrs ∧
          ([⟨0, 0, 0⟩, ⟨1, 0, 0⟩, ⟨0, 1, 0⟩, ⟨1, 1, 0⟩] : List (XrVector3f ℚ))[i]? = some p ∧
          r.1[i]? = some (if nbrs.length < 2 then p
            else smoothedPosition nbrs.length p
              (positionSum ([⟨0, 0, 0⟩, ⟨1, 0, 0⟩, ⟨0, 1, 0⟩, ⟨1, 1, 0⟩] :
                List (XrVector3f ℚ)) nbrs))) ∧
      (∀ j e, (allocationOrder [0, 1, 2, 2, 1, 3])[j]? = some e →
        midpointIndexOf ([⟨0, 0, 0⟩, ⟨1, 0, 0⟩, ⟨0, 1, 0⟩, ⟨1, 1, 0⟩] : List (XrVector3f ℚ))
          [0, 1, 2, 2, 1, 3] e =
          some (([⟨0, 0, 0⟩, ⟨1, 0, 0⟩, ⟨0, 1, 0⟩, ⟨1, 1, 0⟩] :
            List (XrVector3f ℚ)).length + j) ∧
        ∃ pos, midpointPosition ([⟨0, 0, 0⟩, ⟨1, 0, 0⟩, ⟨0, 1, 0⟩, ⟨1, 1, 0⟩] :
            List (XrVector3f ℚ)) st.edgeToOppositeVertices e = some pos ∧
          r.1[([⟨0, 0, 0⟩, ⟨1, 0, 0⟩, ⟨0, 1, 0⟩, ⟨1, 1, 0⟩] :
            List (XrVector3f ℚ)).length + j]? = some pos) :=
  ⟨by decide, by decide, by decide, vertex_layout _ _ (by decide) (by decide)⟩

/-- C20: in a round that returns at most `2 ^ 32` vertices (so that vertex ids
fit `uint32_t`), take side `s` of triangle `t`, running from `a` to `b`, and
side `s'` of triangle `t'`, running from `a'` to `b'`. The midpoint indices
`m` and `m'` emitted for them are the map entries of their keys, and `m = m'`
exactly when the two sides have the same unordered pair of endpoints; so a
side traversed as `(a, b)` and one traversed as `(b, a)` share their index. -/
theorem midpoint_index_unordered (vertices : List (XrVector3f α)) (indices : List Nat)
    (t s a b t' s' a' b' : Nat) (hwf : WellFormed vertices.length indices)
    (hsz : vertices.length + distinctEdgeCount indices ≤ 2 ^ 32)
    (hs : s < 3) (ha : indices[3 * t + s]? = some a)
    (hb : indices[3 * t + (s + 1) % 3]? = some b)
    (hs' : s' < 3) (ha' : indices[3 * t' + s']? = some a')
    (hb' : indices[3 * t' + (s' + 1) % 3]? = some b') :
    ∃ r m m', apply_subdivision vertices indices = some r ∧
      r.2[12 * t + 9 + s]? = some m ∧ r.2[12 * t' + 9 + s']? = some m' ∧
      midpointIndexOf vertices indices (min a b, max a b) = some m ∧
      midpointIndexOf vertices indices (min a' b', max a' b') = some m' ∧
      (m = m' ↔ (a = a' ∧ b = b') ∨ (a = b' ∧ b = a')) := by
  obtain ⟨r, m, hr, hget, hm⟩ := side_midpoint hwf hs ha hb
  obtain ⟨r', m', hr', hget', hm'⟩ := side_midpoint hwf hs' ha' hb'
  rw [hr] at hr'
  cases hr'
  refine ⟨r, m, m', hr, hget, hget', hm, hm', ?_⟩
  rw [← key_eq_iff]
  constructor
  · intro h
    subst h
    exact midpointIndexOf_injective hsz hm hm'
  · intro h
    rw [h, hm'] at hm
    exact (Option.some.inj hm).symm

theorem midpoint_index_unordered_witness :
    WellFormed ([⟨0, 0, 0⟩, ⟨1, 0, 0⟩, ⟨0, 1, 0⟩, ⟨1, 1, 0⟩] : List (XrVector3f ℚ)).length
      [0, 1, 2, 2, 1, 3] ∧
    ([⟨0, 0, 0⟩, ⟨1, 0, 0⟩, ⟨0, 1, 0⟩, ⟨1, 1, 0⟩] : List (XrVector3f ℚ)).length +
      distinctEdgeCount [0, 1, 2, 2, 1, 3] ≤ 2 ^ 32 ∧
    ([0, 1, 2, 2, 1, 3] : List Nat)[3 * 0 + 1]? = some 1 ∧
    ([0, 1, 2, 2, 1, 3] : List Nat)[3 * 0 + (1 + 1) % 3]? = some 2 ∧
    ([0, 1, 2, 2, 1, 3] : List Nat)[3 * 1 + 0]? = some 2 ∧
    ([0, 1, 2, 2, 1, 3] : List Nat)[3 * 1 + (0 + 1) % 3]? = some 1 ∧
    ∃ r m m',
      apply_subdivision ([⟨0, 0, 0⟩, ⟨1, 0, 0⟩, ⟨0, 1, 0⟩, ⟨1, 1, 0⟩] : List (XrVector3f ℚ))
        [0, 1, 2, 2, 1, 3] = some r ∧
      r.2[12 * 0 + 9 + 1]? = some m ∧ r.2[12 * 1 + 9 + 0]? = some m' ∧
      midpointIndexOf ([⟨0, 0, 0⟩, ⟨1, 0, 0⟩, ⟨0, 1, 0⟩, ⟨1, 1, 0⟩] : List (XrVector3f ℚ))
        [0, 1, 2, 2, 1, 3] (min 1 2, max 1 2) = some m ∧
      midpointIndexOf ([⟨0, 0, 0⟩, ⟨1, 0, 0⟩, ⟨0, 1, 0⟩, ⟨1, 1, 0⟩] : List (XrVector3f ℚ))
        [0, 1, 2, 2, 1, 3] (min 2 1, max 2 1) = some m' ∧
      (m = m' ↔ (1 = 2 ∧ 2 = 1) ∨ (1 = 1 ∧ 2 = 2)) :=
  ⟨by decide, by decide, by decide, by decide, by decide, by decide,
    midpoint_index_unordered _ _ 0 1 1 2 1 0 2 1 (by decide) (by decide) (by decide)
      (by decide) (by decide) (by decide) (by decide) (by decide)⟩

/-- C11: on a well-formed mesh and for a distance `d` with `|d| ≥ 1e-6`,
`expand_mesh` sets every vertex `i` to `old i + normalize (N i) * d`, where
`N i` is the sum of the cross products `(v1 - v0) × (v2 - v0)`, over the input
positions, of the triangle slots that hold `i`, and `normalize N` is `N / |N|`
when `|N| > 1e-6` and the zero vector otherwise. A vertex that no triangle
references is not moved, and every vertex moves by a distance of exactly `|d|`
or `0` (over the reals). -/
theorem expand_mesh_vertex_rule (vertices : List (XrVector3f ℝ)) (indices : List Nat)
    (d : ℝ) (hwf : WellFormed vertices.length indices) (hd : 1 / 1000000 ≤ |d|) :
    ∃ out, expand_mesh Real.sqrt vertices indices d = some out ∧
      out.length = vertices.length ∧
      ∀ i p, vertices[i]? = some p →
        out[i]? = some (add p (scalar_multiply
          (VectorMath.normalize Real.sqrt (vertexNormal vertices indices i)) d)) ∧
        VectorMath.normalize Real.sqrt (vertexNormal vertices indices i) =
          (if 1 / 1000000 < magnitude Real.sqrt (vertexNormal vertices indices i) then
            ⟨(vertexNormal vertices indices i).x /
                magnitude Real.sqrt (vertexNormal vertices indices i),
              (vertexNormal vertices indices i).y /
                magnitude Real.sqrt (vertexNormal vertices indices i),
              (vertexNormal vertices indices i).z /
                magnitude Real.sqrt (vertexNormal vertices indices i)⟩
          else ⟨0, 0, 0⟩) ∧
        (i ∉ indices → out[i]? = some p) ∧
        (magnitude Real.sqrt (scalar_multiply
            (VectorMath.normalize Real.sqrt (vertexNormal vertices indices i)) d) = |d| ∨
          magnitude Real.sqrt (scalar_multiply
            (VectorMath.normalize Real.sqrt (vertexNormal vertices indices i)) d) = 0) := by
  obtain ⟨out, hout, hlen, hget⟩ := expand_mesh_get Real.sqrt hwf (not_lt.2 hd)
  refine ⟨out, hout, hlen, ?_⟩
  intro i p hp
  refine ⟨hget i p hp, normalize_eq Real.sqrt _, ?_, ?_⟩
  · intro hmem
    rw [hget i p hp]
    have hN : vertexNormal vertices indices i = ⟨0, 0, 0⟩ := by
      simp [vertexNormal, normalContributions_of_not_mem indices hmem, vectorSum]
    rw [hN, normalize_zero]
    cases p
    simp [add, scalar_multiply]
  · rcases magnitude_offset (vertexNormal vertices indices i) d with h | h
    · exact Or.inl h.2
    · exact Or.inr h.2.2

theorem expand_mesh_vertex_rule_witness :
    WellFormed ([⟨0, 0, 0⟩, ⟨1, 0, 0⟩, ⟨0, 1, 0⟩, ⟨5, 5, 5⟩] : List (XrVector3f ℝ)).length
      [0, 1, 2] ∧
    (1 / 1000000 : ℝ) ≤ |(1 : ℝ)| ∧
    ∃ out, expand_mesh Real.sqrt
        ([⟨0, 0, 0⟩, ⟨1, 0, 0⟩, ⟨0, 1, 0⟩, ⟨5, 5, 5⟩] : List (XrVector3f ℝ)) [0, 1, 2] 1 =
        some out ∧
      out.length = ([⟨0, 0, 0⟩, ⟨1, 0, 0⟩, ⟨0, 1, 0⟩, ⟨5, 5, 5⟩] : List (XrVector3f ℝ)).length ∧
      ∀ i p, ([⟨0, 0, 0⟩, ⟨1, 0, 0⟩, ⟨0, 1, 0⟩, ⟨5, 5, 5⟩] : List (XrVector3f ℝ))[i]? = some p →
        out[i]? = some (add p (scalar_multiply
          (VectorMath.normalize Real.sqrt
            (vertexNormal ([⟨0, 0, 0⟩, ⟨1, 0, 0⟩, ⟨0, 1, 0⟩, ⟨5, 5, 5⟩] : List (XrVector3f ℝ)) [0, 1, 2] i)) 1)) ∧
        VectorMath.normalize Real.sqrt
            (vertexNormal ([⟨0, 0, 0⟩, ⟨1, 0, 0⟩, ⟨0, 1, 0⟩, ⟨5, 5, 5⟩] : List (XrVector3f ℝ)) [0, 1, 2] i) =
          (if 1 / 1000000 < magnitude Real.sqrt
              (vertexNormal ([⟨0, 0, 0⟩, ⟨1, 0, 0⟩, ⟨0, 1, 0⟩, ⟨5, 5, 5⟩] : List (XrVector3f ℝ)) [0, 1, 2] i) then
            ⟨(vertexNormal ([⟨0, 0, 0⟩, ⟨1, 0, 0⟩, ⟨0, 1, 0⟩, ⟨5, 5, 5⟩] : List (XrVector3f ℝ)) [0, 1, 2] i).x /
                magnitude Real.sqrt
                  (vertexNormal ([⟨0, 0, 0⟩, ⟨1, 0, 0⟩, ⟨0, 1, 0⟩, ⟨5, 5, 5⟩] : List (XrVector3f ℝ)) [0, 1, 2] i),
              (vertexNormal ([⟨0, 0, 0⟩, ⟨1, 0, 0⟩, ⟨0, 1, 0⟩, ⟨5, 5, 5⟩] : List (XrVector3f ℝ)) [0, 1, 2] i).y /
                magnitude Real.sqrt
                  (vertexNormal ([⟨0, 0, 0⟩, ⟨1, 0, 0⟩, ⟨0, 1, 0⟩, ⟨5, 5, 5⟩] : List (XrVector3f ℝ)) [0, 1, 2] i),
              (vertexNormal ([⟨0, 0, 0⟩, ⟨1, 0, 0⟩, ⟨0, 1, 0⟩, ⟨5, 5, 5⟩] : List (XrVector3f ℝ)) [0, 1, 2] i).z /
                magnitude Real.sqrt
                  (vertexNormal ([⟨0, 0, 0⟩, ⟨1, 0, 0⟩, ⟨0, 1, 0⟩, ⟨5, 5, 5⟩] : List (XrVector3f ℝ)) [0, 1, 2] i)⟩
          else ⟨0, 0, 0⟩) ∧
        (i ∉ ([0, 1, 2] : List Nat) → out[i]? = some p) ∧
        (magnitude Real.sqrt (scalar_multiply
            (VectorMath.normalize Real.sqrt
              (vertexNormal ([⟨0, 0, 0⟩, ⟨1, 0, 0⟩, ⟨0, 1, 0⟩, ⟨5, 5, 5⟩] : List (XrVector3f ℝ)) [0, 1, 2] i)) 1) = |(1 : ℝ)| ∨
          magnitude Real.sqrt (scalar_multiply
            (VectorMath.normalize Real.sqrt
              (vertexNormal ([⟨0, 0, 0⟩, ⟨1, 0, 0⟩, ⟨0, 1, 0⟩, ⟨5, 5, 5⟩] : List (XrVector3f ℝ)) [0, 1, 2] i)) 1) = 0) :=
  ⟨by decide, by rw [abs_one]; norm_num,
    expand_mesh_vertex_rule _ [0, 1, 2] 1 (by decide) (by rw [abs_one]; norm_num)⟩

/-- C22: in a round that returns at most `2 ^ 32` vertices (so that vertex ids
fit `uint32_t`), an edge with endpoints `A`, `B` whose opposite-vertex list has
a length other than 2, in particular 3 or more (an edge shared by 3 or more
triangles), gets the plain average
`(pos A + pos B) / 2` at its midpoint index, as a boundary edge does, and the
round returns. -/
theorem nonmanifold_midpoint_rule (vertices : List (XrVector3f α)) (indices : List Nat)
    (A B : Nat) (os : List Nat)
    (hsz : vertices.length + distinctEdgeCount indices ≤ 2 ^ 32)
    (hopp : oppositesOf vertices indices (min A B, max A B) = some os)
    (hlen : os.length ≠ 2) :
    ∃ r m pA pB, apply_subdivision vertices indices = some r ∧
      midpointIndexOf vertices indices (min A B, max A B) = some m ∧
      vertices[A]? = some pA ∧ vertices[B]? = some pB ∧
      r.1[m]? = some ⟨(pA.x + pB.x) / 2, (pA.y + pB.y) / 2, (pA.z + pB.z) / 2⟩ := by
  obtain ⟨r, st, m, pos, hr, -, ho, hm, hpos, -, hget⟩ :=
    apply_subdivision_midpoint (wellFormed_of_oppositesOf hopp) hsz hopp
  obtain ⟨p0, p1, h0, h1, hval⟩ := midpointPosition_boundary ho hlen hpos
  obtain ⟨pA, pB, hA, hB, hab⟩ := endpoints_of_key h0 h1
  refine ⟨r, m, pA, pB, hr, hm, hA, hB, ?_⟩
  rw [hget, hval, hab]
  simp only [add, scalar_multiply, Option.some.injEq, XrVector3f.mk.injEq]
  refine ⟨?_, ?_, ?_⟩ <;> ring

theorem nonmanifold_midpoint_rule_witness :
    ([⟨0, 0, 0⟩, ⟨1, 0, 0⟩, ⟨0, 1, 0⟩, ⟨0, 0, 1⟩, ⟨1, 1, 1⟩] : List (XrVector3f ℚ)).length +
      distinctEdgeCount [0, 1, 2, 0, 1, 3, 0, 1, 4] ≤ 2 ^ 32 ∧
    oppositesOf ([⟨0, 0, 0⟩, ⟨1, 0, 0⟩, ⟨0, 1, 0⟩, ⟨0, 0, 1⟩, ⟨1, 1, 1⟩] : List (XrVector3f ℚ))
      [0, 1, 2, 0, 1, 3, 0, 1, 4] (min 0 1, max 0 1) = some [2, 3, 4] ∧
    ([2, 3, 4] : List Nat).length ≠ 2 ∧
    ∃ r m pA pB,
      apply_subdivision
        ([⟨0, 0, 0⟩, ⟨1, 0, 0⟩, ⟨0, 1, 0⟩, ⟨0, 0, 1⟩, ⟨1, 1, 1⟩] : List (XrVector3f ℚ))
        [0, 1, 2, 0, 1, 3, 0, 1, 4] = some r ∧
      midpointIndexOf
        ([⟨0, 0, 0⟩, ⟨1, 0, 0⟩, ⟨0, 1, 0⟩, ⟨0, 0, 1⟩, ⟨1, 1, 1⟩] : List (XrVector3f ℚ))
        [0, 1, 2, 0, 1, 3, 0, 1, 4] (min 0 1, max 0 1) = some m ∧
      ([⟨0, 0, 0⟩, ⟨1, 0, 0⟩, ⟨0, 1, 0⟩, ⟨0, 0, 1⟩, ⟨1, 1, 1⟩] : List (XrVector3f ℚ))[0]? =
        some pA ∧
      ([⟨0, 0, 0⟩, ⟨1, 0, 0⟩, ⟨0, 1, 0⟩, ⟨0, 0, 1⟩, ⟨1, 1, 1⟩] : List (XrVector3f ℚ))[1]? =
        some pB ∧
      r.1[m]? = some ⟨(pA.x + pB.x) / 2, (pA.y + pB.y) / 2, (pA.z + pB.z) / 2⟩ :=
  ⟨by decide, by rfl, by decide,
    nonmanifold_midpoint_rule _ _ 0 1 [2, 3, 4] (by decide) (by rfl) (by decide)⟩

/-- C25: on a mesh whose index buffer length is a multiple of 3 with every id
below the vertex count, one round and `expand_mesh` make no access out of
bounds: both return (an out-of-range access makes the embedded functions
return `none`), and the expander's accumulators match the vertex buffer in
length. -/
theorem accesses_in_bounds (vertices : List (XrVector3f α)) (indices : List Nat)
    (sqrt : α → α) (d : α)
    (hlen : indices.length % 3 = 0) (hrange : ∀ i ∈ indices, i < vertices.length) :
    (∃ r, apply_subdivision vertices indices = some r) ∧
    (∃ normals, accumulateNormals vertices indices
        (List.replicate vertices.length ⟨0, 0, 0⟩) = some normals ∧
      normals.length = vertices.length) ∧
    (∃ out, expand_mesh sqrt vertices indices d = some out ∧
      out.length = vertices.length) := by
  have hwf : WellFormed vertices.length indices := ⟨hlen, hrange⟩
  refine ⟨apply_subdivision_some hwf, ?_, ?_⟩
  · obtain ⟨normals, hn⟩ := accumulateNormals_some indices
      (List.replicate vertices.length (⟨0, 0, 0⟩ : XrVector3f α)) (by simp) hwf
    refine ⟨normals, hn, ?_⟩
    rw [(accumulateNormals_get indices hn).1, List.length_replicate]
  · by_cases hd : |d| < 1 / 1000000
    · exact ⟨vertices, expand_mesh_of_small sqrt vertices indices hd, rfl⟩
    · obtain ⟨out, hout, hl, -⟩ := expand_mesh_get sqrt hwf hd
      exact ⟨out, hout, hl⟩

theorem accesses_in_bounds_witness :
    ([0, 1, 2, 2, 1, 3] : List Nat).length % 3 = 0 ∧
    (∀ i ∈ ([0, 1, 2, 2, 1, 3] : List Nat),
      i < ([⟨0, 0, 0⟩, ⟨1, 0, 0⟩, ⟨0, 1, 0⟩, ⟨1, 1, 0⟩] : List (XrVector3f ℚ)).length) ∧
    ((∃ r, apply_subdivision
        ([⟨0, 0, 0⟩, ⟨1, 0, 0⟩, ⟨0, 1, 0⟩, ⟨1, 1, 0⟩] : List (XrVector3f ℚ))
        [0, 1, 2, 2, 1, 3] = some r) ∧
    (∃ normals, accumulateNormals
        ([⟨0, 0, 0⟩, ⟨1, 0, 0⟩, ⟨0, 1, 0⟩, ⟨1, 1, 0⟩] : List (XrVector3f ℚ))
        [0, 1, 2, 2, 1, 3]
        (List.replicate ([⟨0, 0, 0⟩, ⟨1, 0, 0⟩, ⟨0, 1, 0⟩, ⟨1, 1, 0⟩] :
          List (XrVector3f ℚ)).length ⟨0, 0, 0⟩) = some normals ∧
      normals.length = ([⟨0, 0, 0⟩, ⟨1, 0, 0⟩, ⟨0, 1, 0⟩, ⟨1, 1, 0⟩] :
        List (XrVector3f ℚ)).length) ∧
    (∃ out, expand_mesh (fun x => x)
        ([⟨0, 0, 0⟩, ⟨1, 0, 0⟩, ⟨0, 1, 0⟩, ⟨1, 1, 0⟩] : List (XrVector3f ℚ))
        [0, 1, 2, 2, 1, 3] 1 = some out ∧
      out.length = ([⟨0, 0, 0⟩, ⟨1, 0, 0⟩, ⟨0, 1, 0⟩, ⟨1, 1, 0⟩] :
        List (XrVector3f ℚ)).length)) :=
  ⟨by decide, by decide, accesses_in_bounds _ _ (fun x => x) 1 (by decide) (by decide)⟩

/-- C30: for a negative `iterations`, `subdivide` returns the two input buffers
as they were given, as for `iterations = 0`, whatever they contain (a
malformed index buffer too). -/
theorem subdivide_negative_identity (vertices : List (XrVector3f α)) (indices : List Nat)
    (iterations : Int) (hneg : iterations < 0) :
    subdivide vertices indices iterations = some (vertices, indices) ∧
      subdivide vertices indices iterations = subdivide vertices indices 0 := by
  have h0 : iterations ≤ 0 := le_of_lt hneg
  constructor
  · simp [subdivide, h0]
  · simp [subdivide, h0]

theorem subdivide_negative_identity_witness :
    (-3 : Int) < 0 ∧
    subdivide ([⟨0, 0, 0⟩, ⟨1, 0, 0⟩] : List (XrVector3f ℚ)) [0, 7] (-3) =
      some ([⟨0, 0, 0⟩, ⟨1, 0, 0⟩], [0, 7]) ∧
    subdivide ([⟨0, 0, 0⟩, ⟨1, 0, 0⟩] : List (XrVector3f ℚ)) [0, 7] (-3) =
      subdivide ([⟨0, 0, 0⟩, ⟨1, 0, 0⟩] : List (XrVector3f ℚ)) [0, 7] 0 :=
  ⟨by decide, subdivide_negative_identity _ _ (-3) (by decide)⟩

/-- C21: after the first pass of a round on a well-formed mesh, the
opposite-vertex list of an edge key `e` holds, in scan order, the third vertex
of every triangle side lying on `e`, one entry per such side (and there is no
list for a key that no side has); so it has 2 entries when exactly two sides
lie on `e` and 1 entry when exactly one does. -/
theorem opposite_list_contents (vertices : List (XrVector3f α)) (indices : List Nat)
    (e : Edge) (hwf : WellFormed vertices.length indices) :
    oppositesOf vertices indices e =
      (if e ∈ edgeKeys indices then some (oppositeList e indices) else none) ∧
    (oppositeList e indices).length = (edgeKeys indices).count e ∧
    ((edgeKeys indices).count e = 2 → ∃ C D, oppositesOf vertices indices e = some [C, D]) ∧
    ((edgeKeys indices).count e = 1 → ∃ C, oppositesOf vertices indices e = some [C]) := by
  have heq := oppositesOf_eq hwf e
  have hlen := length_oppositeList e indices
  refine ⟨heq, hlen, ?_, ?_⟩
  · intro hc
    have hmem : e ∈ edgeKeys indices := List.count_pos_iff.1 (by omega)
    rw [heq, if_pos hmem]
    rw [hc] at hlen
    match hl : oppositeList e indices, hlen with
    | [C, D], _ => exact ⟨C, D, rfl⟩
  · intro hc
    have hmem : e ∈ edgeKeys indices := List.count_pos_iff.1 (by omega)
    rw [heq, if_pos hmem]
    rw [hc] at hlen
    match hl : oppositeList e indices, hlen with
    | [C], _ => exact ⟨C, rfl⟩

theorem opposite_list_contents_witness :
    WellFormed ([⟨0, 0, 0⟩, ⟨1, 0, 0⟩, ⟨0, 1, 0⟩, ⟨1, 1, 0⟩] : List (XrVector3f ℚ)).length
      [0, 1, 2, 2, 1, 3] ∧
    oppositeList (1, 2) [0, 1, 2, 2, 1, 3] = [0, 3] ∧
    oppositesOf ([⟨0, 0, 0⟩, ⟨1, 0, 0⟩, ⟨0, 1, 0⟩, ⟨1, 1, 0⟩] : List (XrVector3f ℚ))
      [0, 1, 2, 2, 1, 3] (1, 2) =
      (if (1, 2) ∈ edgeKeys [0, 1, 2, 2, 1, 3] then
        some (oppositeList (1, 2) [0, 1, 2, 2, 1, 3]) else none) ∧
    (oppositeList (1, 2) [0, 1, 2, 2, 1, 3]).length =
      (edgeKeys [0, 1, 2, 2, 1, 3]).count (1, 2) ∧
    ((edgeKeys [0, 1, 2, 2, 1, 3]).count (1, 2) = 2 →
      ∃ C D, oppositesOf ([⟨0, 0, 0⟩, ⟨1, 0, 0⟩, ⟨0, 1, 0⟩, ⟨1, 1, 0⟩] : List (XrVector3f ℚ))
        [0, 1, 2, 2, 1, 3] (1, 2) = some [C, D]) ∧
    ((edgeKeys [0, 1, 2, 2, 1, 3]).count (1, 2) = 1 →
      ∃ C, oppositesOf ([⟨0, 0, 0⟩, ⟨1, 0, 0⟩, ⟨0, 1, 0⟩, ⟨1, 1, 0⟩] : List (XrVector3f ℚ))
        [0, 1, 2, 2, 1, 3] (1, 2) = some [C]) :=
  ⟨by decide, by decide, opposite_list_contents _ _ (1, 2) (by decide)⟩

/-- C23, the code at the failing input: in the tetrahedron every vertex has 3
incident edges, but the adjacency list of vertex 0 has 6 entries, so the
weight used is `β = 3 / (8 * 6) = 1/16` and vertex 0 ends at `(1/2, 1/2, 1/2)`,
not at `(1/4, 1/4, 1/4)`, the position the rule gives for `k = 3`,
`β = 3/16`. -/
theorem tetrahedron_neighbor_count :
    ((edgeKeys [0, 1, 2, 0, 3, 1, 0, 2, 3, 1, 3, 2]).dedup.filter
      (fun e => decide (e.1 = 0 ∨ e.2 = 0))).length = 3 ∧
    adjacencyOf ([⟨1, 1, 1⟩, ⟨1, -1, -1⟩, ⟨-1, 1, -1⟩, ⟨-1, -1, 1⟩] : List (XrVector3f ℚ))
      [0, 1, 2, 0, 3, 1, 0, 2, 3, 1, 3, 2] 0 = some [1, 2, 3, 1, 2, 3] ∧
    (betaWeight 6 : ℚ) = 1 / 16 ∧
    (∃ r, apply_subdivision
        ([⟨1, 1, 1⟩, ⟨1, -1, -1⟩, ⟨-1, 1, -1⟩, ⟨-1, -1, 1⟩] : List (XrVector3f ℚ))
        [0, 1, 2, 0, 3, 1, 0, 2, 3, 1, 3, 2] = some r ∧
      r.1[0]? = some ⟨1 / 2, 1 / 2, 1 / 2⟩) ∧
    smoothedPosition 3 (⟨1, 1, 1⟩ : XrVector3f ℚ)
      (positionSum ([⟨1, 1, 1⟩, ⟨1, -1, -1⟩, ⟨-1, 1, -1⟩, ⟨-1, -1, 1⟩] : List (XrVector3f ℚ))
        [1, 2, 3]) = ⟨1 / 4, 1 / 4, 1 / 4⟩ := by
  refine ⟨by decide, by rfl, ?_, ?_, ?_⟩
  · norm_num [betaWeight]
  · have hadj : adjacencyOf ([⟨1, 1, 1⟩, ⟨1, -1, -1⟩, ⟨-1, 1, -1⟩, ⟨-1, -1, 1⟩] :
        List (XrVector3f ℚ)) [0, 1, 2, 0, 3, 1, 0, 2, 3, 1, 3, 2] 0 =
        some [1, 2, 3, 1, 2, 3] := by rfl
    obtain ⟨r, p, hr, hp, hget⟩ := apply_subdivision_smoothed hadj (by decide)
    refine ⟨r, hr, ?_⟩
    simp only [List.getElem?_cons_zero, Option.some.injEq] at hp
    subst hp
    rw [hget]
    norm_num [smoothedPosition, positionSum]
  · norm_num [smoothedPosition, positionSum]

/-- C24: in a round on a well-formed mesh, the adjacency list of a vertex `i`
has twice as many entries as the index buffer has positions holding `i`; its
length `k` is even, never 3, so `β = 3 / (8 * k)`, and for `k ≥ 2` the weight
`1 - k * β` of the old position is `5/8`. -/
theorem adjacency_count (vertices : List (XrVector3f α)) (indices : List Nat) (i : Nat)
    (hwf : WellFormed vertices.length indices) (hi : i < vertices.length) :
    ∃ nbrs, adjacencyOf vertices indices i = some nbrs ∧
      nbrs.length = 2 * indices.count i ∧ nbrs.length % 2 = 0 ∧ nbrs.length ≠ 3 ∧
      (betaWeight nbrs.length : α) = 3 / (8 * (nbrs.length : α)) ∧
      (2 ≤ nbrs.length → 1 - (nbrs.length : α) * betaWeight nbrs.length = 5 / 8) := by
  have hlen := length_adjacencyList i indices hwf.1
  have h3 : (adjacencyList i indices).length ≠ 3 := by omega
  refine ⟨adjacencyList i indices, adjacencyOf_eq hwf hi, hlen, by omega, h3, ?_, ?_⟩
  · rw [betaWeight, if_neg h3]
  · intro hk
    rw [betaWeight, if_neg h3]
    have hk0 : ((adjacencyList i indices).length : α) ≠ 0 := by
      have : 0 < (adjacencyList i indices).length := by omega
      exact Nat.cast_ne_zero.2 (by omega)
    field_simp
    ring

theorem adjacency_count_witness :
    WellFormed ([⟨1, 1, 1⟩, ⟨1, -1, -1⟩, ⟨-1, 1, -1⟩, ⟨-1, -1, 1⟩] : List (XrVector3f ℚ)).length
      [0, 1, 2, 0, 3, 1, 0, 2, 3, 1, 3, 2] ∧
    0 < ([⟨1, 1, 1⟩, ⟨1, -1, -1⟩, ⟨-1, 1, -1⟩, ⟨-1, -1, 1⟩] : List (XrVector3f ℚ)).length ∧
    ∃ nbrs, adjacencyOf
        ([⟨1, 1, 1⟩, ⟨1, -1, -1⟩, ⟨-1, 1, -1⟩, ⟨-1, -1, 1⟩] : List (XrVector3f ℚ))
        [0, 1, 2, 0, 3, 1, 0, 2, 3, 1, 3, 2] 0 = some nbrs ∧
      nbrs.length = 2 * ([0, 1, 2, 0, 3, 1, 0, 2, 3, 1, 3, 2] : List Nat).count 0 ∧
      nbrs.length % 2 = 0 ∧ nbrs.length ≠ 3 ∧
      (betaWeight nbrs.length : ℚ) = 3 / (8 * (nbrs.length : ℚ)) ∧
      (2 ≤ nbrs.length → 1 - (nbrs.length : ℚ) * betaWeight nbrs.length = 5 / 8) :=
  ⟨by decide, by decide, adjacency_count _ _ 0 (by decide) (by decide)⟩

/-- C27: one round on the single triangle `(v0, v1, v2)`, in exact arithmetic,
emits the children `(0,3,5)`, `(1,4,3)`, `(2,5,4)`, `(3,4,5)`, and the face
normal of each, over the output positions, is a positive multiple of the
parent's normal `(v1 - v0) × (v2 - v0)`: `1/16` of it for the three corner
triangles, `1/4` of it for the centre triangle. -/
theorem single_triangle_child_normals (v0 v1 v2 : XrVector3f α) :
    ∃ r, apply_subdivision [v0, v1, v2] [0, 1, 2] = some r ∧
      r.2 = [0, 3, 5, 1, 4, 3, 2, 5, 4, 3, 4, 5] ∧
      faceNormal r.1 0 3 5 = scalar_multiply (faceNormal [v0, v1, v2] 0 1 2) (1 / 16) ∧
      faceNormal r.1 1 4 3 = scalar_multiply (faceNormal [v0, v1, v2] 0 1 2) (1 / 16) ∧
      faceNormal r.1 2 5 4 = scalar_multiply (faceNormal [v0, v1, v2] 0 1 2) (1 / 16) ∧
      faceNormal r.1 3 4 5 = scalar_multiply (faceNormal [v0, v1, v2] 0 1 2) (1 / 4) ∧
      (0 : α) < 1 / 16 ∧ (0 : α) < 1 / 4 := by
  refine ⟨_, apply_subdivision_single v0 v1 v2, rfl, ?_, ?_, ?_, ?_, by norm_num, by norm_num⟩
  · simp only [faceNormal, List.getD_cons_zero, List.getD_cons_succ, cross_product, subtract,
      add, scalar_multiply, betaWeight, XrVector3f.mk.injEq]
    norm_num
    refine ⟨?_, ?_, ?_⟩ <;> ring
  · simp only [faceNormal, List.getD_cons_zero, List.getD_cons_succ, cross_product, subtract,
      add, scalar_multiply, betaWeight, XrVector3f.mk.injEq]
    norm_num
    refine ⟨?_, ?_, ?_⟩ <;> ring
  · simp only [faceNormal, List.getD_cons_zero, List.getD_cons_succ, cross_product, subtract,
      add, scalar_multiply, betaWeight, XrVector3f.mk.injEq]
    norm_num
    refine ⟨?_, ?_, ?_⟩ <;> ring
  · simp only [faceNormal, List.getD_cons_zero, List.getD_cons_succ, cross_product, subtract,
      add, scalar_multiply, betaWeight, XrVector3f.mk.injEq]
    refine ⟨?_, ?_, ?_⟩ <;> ring

/-- C28: one round commutes with translation, in exact arithmetic: on a
well-formed mesh whose output has at most `2 ^ 32` vertices (so that vertex
ids fit `uint32_t`), the round run on the vertices shifted by `t` returns the
same index buffer and the vertex buffer of the unshifted run with every vertex
shifted by `t`. -/
theorem translation_commutes (vertices : List (XrVector3f α)) (indices : List Nat)
    (t : XrVector3f α) (hwf : WellFormed vertices.length indices)
    (hsz : vertices.length + distinctEdgeCount indices ≤ 2 ^ 32) :
    ∃ r, apply_subdivision vertices indices = some r ∧
      apply_subdivision (vertices.map (fun v => add v t)) indices =
        some (r.1.map (fun v => add v t), r.2) := by
  have hlenmap : (vertices.map (fun v => add v t)).length = vertices.length :=
    List.length_map _ _
  obtain ⟨r, hr, hidx, hlen, horig, hmidp, -⟩ := apply_subdivision_closed_form hwf hsz
  obtain ⟨r', hr', hidx', hlen', horig', hmidp', -⟩ :=
    @apply_subdivision_closed_form α _ (vertices.map (fun v => add v t)) indices
      (by rw [hlenmap]; exact hwf) (by rw [hlenmap]; exact hsz)
  refine ⟨r, hr, ?_⟩
  rw [hr']
  rw [hlenmap] at hidx' hlen' hmidp'
  have h2 : r'.2 = r.2 := by rw [hidx', hidx]
  have h1 : r'.1 = r.1.map (fun v => add v t) := by
    apply List.ext_getElem?
    intro n
    rw [List.getElem?_map]
    by_cases hn : n < vertices.length
    · have hp : vertices[n]? = some vertices[n] := List.getElem?_eq_getElem hn
      have hp' : (vertices.map (fun v => add v t))[n]? = some (add vertices[n] t) := by
        rw [List.getElem?_map, hp]
        rfl
      rw [horig' n _ hp', horig n _ hp]
      by_cases hk : (adjacencyList n indices).length < 2
      · simp only [if_pos hk, Option.map_some']
      · simp only [if_neg hk, Option.map_some']
        rw [positionSum_map vertices t _
          (fun m hm => hwf.2 m (mem_of_mem_adjacencyList indices hm)),
          smoothedPosition_shift]
    · by_cases hj : n - vertices.length < (allocationOrder indices).length
      · have hn' : n = vertices.length + (n - vertices.length) := by omega
        have he := List.getElem?_eq_getElem hj
        obtain ⟨pos, hpos, hget⟩ := hmidp _ _ he
        obtain ⟨pos', hpos', hget'⟩ := hmidp' _ _ he
        rw [midpointPosition_map, hpos] at hpos'
        rw [hn', hget, hget', ← hpos']
      · rw [List.getElem?_eq_none (by omega), List.getElem?_eq_none (by omega)]
        rfl
  rw [← h1, ← h2]

theorem translation_commutes_witness :
    WellFormed ([⟨0, 0, 0⟩, ⟨1, 0, 0⟩, ⟨0, 1, 0⟩, ⟨1, 1, 0⟩] : List (XrVector3f ℚ)).length
      [0, 1, 2, 2, 1, 3] ∧
    ([⟨0, 0, 0⟩, ⟨1, 0, 0⟩, ⟨0, 1, 0⟩, ⟨1, 1, 0⟩] : List (XrVector3f ℚ)).length +
      distinctEdgeCount [0, 1, 2, 2, 1, 3] ≤ 2 ^ 32 ∧
    ∃ r, apply_subdivision
        ([⟨0, 0, 0⟩, ⟨1, 0, 0⟩, ⟨0, 1, 0⟩, ⟨1, 1, 0⟩] : List (XrVector3f ℚ))
        [0, 1, 2, 2, 1, 3] = some r ∧
      apply_subdivision
        (([⟨0, 0, 0⟩, ⟨1, 0, 0⟩, ⟨0, 1, 0⟩, ⟨1, 1, 0⟩] : List (XrVector3f ℚ)).map
          (fun v => add v ⟨3, -2, 7⟩)) [0, 1, 2, 2, 1, 3] =
        some (r.1.map (fun v => add v ⟨3, -2, 7⟩), r.2) :=
  ⟨by decide, by decide, translation_commutes _ _ ⟨3, -2, 7⟩ (by decide) (by decide)⟩

/-- C29: on a well-formed mesh, `expand_mesh` with the winding of every
triangle reversed (second and third id swapped) and the distance `d` returns
the same vertex positions as `expand_mesh` on the original index buffer with
the distance `-d` (exact arithmetic, any square root). -/
theorem expand_mesh_reversed_winding (sqrt : α → α) (vertices : List (XrVector3f α))
    (indices : List Nat) (d : α) (hwf : WellFormed vertices.length indices) :
    ∃ out, expand_mesh sqrt vertices (reverseWinding indices) d = some out ∧
      expand_mesh sqrt vertices indices (-d) = some out := by
  by_cases hd : |d| < 1 / 1000000
  · exact ⟨vertices, expand_mesh_of_small sqrt vertices _ hd,
      expand_mesh_of_small sqrt vertices _ (by rw [abs_neg]; exact hd)⟩
  · have hd' : ¬ |(-d)| < 1 / 1000000 := by rw [abs_neg]; exact hd
    obtain ⟨out, hout, hlen, hget⟩ :=
      expand_mesh_get sqrt (wellFormed_reverseWinding indices hwf) hd
    obtain ⟨out', hout', hlen', hget'⟩ := expand_mesh_get sqrt hwf hd'
    refine ⟨out, hout, ?_⟩
    rw [hout']
    congr 1
    apply List.ext_getElem?
    intro n
    by_cases hn : n < vertices.length
    · have hp := List.getElem?_eq_getElem hn
      rw [hget' n _ hp, hget n _ hp, vertexNormal_reverseWinding, normalize_neg]
      simp only [add, scalar_multiply, Option.some.injEq, XrVector3f.mk.injEq]
      refine ⟨?_, ?_, ?_⟩ <;> ring
    · rw [List.getElem?_eq_none (by omega), List.getElem?_eq_none (by omega)]

theorem expand_mesh_reversed_winding_witness :
    WellFormed ([⟨0, 0, 0⟩, ⟨1, 0, 0⟩, ⟨0, 1, 0⟩, ⟨1, 1, 0⟩] : List (XrVector3f ℝ)).length
      [0, 1, 2, 2, 1, 3] ∧
    reverseWinding [0, 1, 2, 2, 1, 3] = [0, 2, 1, 2, 3, 1] ∧
    ∃ out, expand_mesh Real.sqrt
        ([⟨0, 0, 0⟩, ⟨1, 0, 0⟩, ⟨0, 1, 0⟩, ⟨1, 1, 0⟩] : List (XrVector3f ℝ))
        (reverseWinding [0, 1, 2, 2, 1, 3]) 1 = some out ∧
      expand_mesh Real.sqrt
        ([⟨0, 0, 0⟩, ⟨1, 0, 0⟩, ⟨0, 1, 0⟩, ⟨1, 1, 0⟩] : List (XrVector3f ℝ))
        [0, 1, 2, 2, 1, 3] (-1) = some out :=
  ⟨by decide, by decide, expand_mesh_reversed_winding Real.sqrt _ _ 1 (by decide)⟩

/-- C26: one round preserves closed-manifold topology. On a well-formed mesh
whose output vertex ids fit `uint32_t`, if no triangle of the input repeats a
vertex, no two triangles have the same set of three vertices and every edge is
a side of exactly two triangles, then the round returns and the same three
conditions hold for the output index buffer; hence every edge of the output has
exactly two opposite vertices, the case of the interior midpoint rule. -/
theorem closed_manifold_preserved (vertices : List (XrVector3f α)) (indices : List Nat)
    (hwf : WellFormed vertices.length indices)
    (hsz : vertices.length + distinctEdgeCount indices ≤ 2 ^ 32)
    (hman : ClosedManifold indices) :
    ∃ r, apply_subdivision vertices indices = some r ∧ ClosedManifold r.2 ∧
      ∀ e ∈ edgeKeys r.2, ∃ C D, oppositesOf r.1 r.2 e = some [C, D] := by
  obtain ⟨r, hr, hidx, -, -, -, hmem⟩ := apply_subdivision_closed_form hwf hsz
  have hcm : ClosedManifold r.2 := by
    rw [hidx]
    refine closedManifold_childIndices vertices.length _ indices hwf.2
      (fun e => Nat.le_add_right _ _) ?_ hman
    intro e he f hf h
    exact keyIndex_injective (allocationOrder indices) e f ((hmem e).2 he) ((hmem f).2 hf)
      (Nat.add_left_cancel h)
  refine ⟨r, hr, hcm, ?_⟩
  intro e he
  have hwf2 := (apply_subdivision_inv hr).2.1
  rw [oppositesOf_eq hwf2 e, if_pos he]
  have hlen : (oppositeList e r.2).length = 2 := by
    rw [length_oppositeList, count_edgeKeys r.2 hcm.1 e]
    exact hcm.2.2 e he
  match oppositeList e r.2, hlen with
  | [C, D], _ => exact ⟨C, D, rfl⟩

theorem closed_manifold_preserved_witness :
    WellFormed ([⟨1, 1, 1⟩, ⟨1, -1, -1⟩, ⟨-1, 1, -1⟩, ⟨-1, -1, 1⟩] : List (XrVector3f ℚ)).length
      [0, 1, 2, 0, 3, 1, 0, 2, 3, 1, 3, 2] ∧
    ([⟨1, 1, 1⟩, ⟨1, -1, -1⟩, ⟨-1, 1, -1⟩, ⟨-1, -1, 1⟩] : List (XrVector3f ℚ)).length +
      distinctEdgeCount [0, 1, 2, 0, 3, 1, 0, 2, 3, 1, 3, 2] ≤ 2 ^ 32 ∧
    ClosedManifold [0, 1, 2, 0, 3, 1, 0, 2, 3, 1, 3, 2] ∧
    ∃ r, apply_subdivision
        ([⟨1, 1, 1⟩, ⟨1, -1, -1⟩, ⟨-1, 1, -1⟩, ⟨-1, -1, 1⟩] : List (XrVector3f ℚ))
        [0, 1, 2, 0, 3, 1, 0, 2, 3, 1, 3, 2] = some r ∧ ClosedManifold r.2 ∧
      ∀ e ∈ edgeKeys r.2, ∃ C D, oppositesOf r.1 r.2 e = some [C, D] :=
  ⟨by decide, by decide, by decide,
    closed_manifold_preserved _ _ (by decide) (by decide) (by decide)⟩

end MeshSubdivision

namespace AnchorUtilities

/-! ## Anchor identifiers -/

theorem hexAt_facts : ∀ n, n < 16 →
    hexDigitValue (hexAt n) = some n ∧ isSpace (hexAt n) = false ∧
      ((hexAt n).toNat == 45) = false ∧ ((hexAt n).toNat == 43) = false ∧
      hexAt n ∈ hexTable := by
  decide

/-- What `stol` reads from the two digits `bin2hex` writes for a byte. -/
theorem stol16_hexAt {h l : Nat} (hh : h < 16) (hl : l < 16) :
    stol16 [hexAt h, hexAt l] = some ((h * 16 + l : Nat) : Int) := by
  obtain ⟨h1, h2, h3, h4, -⟩ := hexAt_facts h hh
  obtain ⟨l1, -⟩ := hexAt_facts l hl
  simp [stol16, List.dropWhile, h2, h3, h4, h1, l1, readDigits]

theorem byte_nibbles {b : Nat} (hb : b < 256) :
    b >>> 4 < 16 ∧ b &&& 0xf < 16 ∧ (b >>> 4) * 16 + (b &&& 0xf) = b := by
  have h1 : b >>> 4 = b / 16 := by
    rw [Nat.shiftRight_eq_div_pow]
  have h2 : b &&& 0xf = b % 16 := Nat.and_pow_two_sub_one_eq_mod b 4
  rw [h1, h2]
  omega

theorem bin2hexLoop_append (src : List Nat) :
    ∀ res : List Char, bin2hexLoop src res = res ++ bin2hexLoop src [] := by
  induction src with
  | nil =>
    intro res
    simp [bin2hexLoop]
  | cons c rest ih =>
    intro res
    simp only [bin2hexLoop]
    rw [ih, ih ([] ++ [hexAt (c >>> 4)] ++ [hexAt (c &&& 0xf)])]
    simp

theorem bin2hex_cons (c : Nat) (rest : List Nat) :
    bin2hex (c :: rest) = hexAt (c >>> 4) :: hexAt (c &&& 0xf) :: bin2hex rest := by
  simp only [bin2hex, bin2hexLoop]
  rw [bin2hexLoop_append]
  simp

theorem bin2hex_length (src : List Nat) : (bin2hex src).length = 2 * src.length := by
  induction src with
  | nil => rfl
  | cons c rest ih =>
    rw [bin2hex_cons]
    simp only [List.length_cons, ih]
    omega

/-- The two characters `bin2hex` writes for the byte at position `i`. -/
theorem bin2hex_substr (src : List Nat) :
    ∀ i b, src[i]? = some b →
      ((bin2hex src).drop (2 * i)).take 2 = [hexAt (b >>> 4), hexAt (b &&& 0xf)] := by
  induction src with
  | nil =>
    intro i b h
    simp at h
  | cons c rest ih =>
    intro i b h
    rw [bin2hex_cons]
    cases i with
    | zero =>
      simp only [List.getElem?_cons_zero, Option.some.injEq] at h
      subst h
      simp
    | succ j =>
      simp only [List.getElem?_cons_succ] at h
      have h2 : 2 * (j + 1) = 2 * j + 1 + 1 := by ring
      rw [h2]
      simp only [List.drop_succ_cons]
      exact ih j b h

/-- The decoding loop run on the text `bin2hex` writes for `data` overwrites
the entries from `i` on with those of `data`. -/
theorem hexStringToUuidLoop_bin2hex (data : List Nat) (hb : ∀ b ∈ data, b < 256) (n : Nat) :
    ∀ (i : Nat) (cur : List Nat), i + n = data.length → cur.length = data.length →
      hexStringToUuidLoop (bin2hex data) n i (2 * i) cur =
        some (cur.take i ++ data.drop i) := by
  induction n with
  | zero =>
    intro i cur hi hlen
    simp only [hexStringToUuidLoop, Nat.add_zero] at hi ⊢
    rw [hi, List.drop_length, ← hlen, List.take_length, List.append_nil]
  | succ m ih =>
    intro i cur hi hlen
    have hlt : i < data.length := by omega
    have hbyte : data[i] < 256 := hb _ (List.getElem_mem hlt)
    obtain ⟨n1, n2, n3⟩ := byte_nibbles hbyte
    simp only [hexStringToUuidLoop]
    rw [bin2hex_substr data i data[i] (List.getElem?_eq_getElem hlt), stol16_hexAt n1 n2, n3]
    simp only
    have hval : (((data[i] : Nat) : Int) % 256).toNat = data[i] := by omega
    rw [hval]
    have h2 : 2 * i + 2 = 2 * (i + 1) := by ring
    rw [h2, ih (i + 1) (cur.set i data[i]) (by omega) (by simpa using hlen)]
    congr 1
    have hcur : i < cur.length := by omega
    have htake : (cur.set i data[i]).take i = cur.take i := by
      apply List.ext_getElem?
      intro j
      rw [List.getElem?_take, List.getElem?_take]
      split
      · rename_i hj
        rw [List.getElem?_set_ne (by omega)]
      · rfl
    rw [List.drop_eq_getElem_cons hlt, List.take_succ, htake]
    simp [List.getElem?_set, hcur]

theorem isValidLoop_iff (l : List Nat) : isValidLoop l = true ↔ ∃ b ∈ l, b ≠ 0 := by
  induction l with
  | nil => simp [isValidLoop]
  | cons b rest ih =>
    simp only [isValidLoop, List.mem_cons, exists_eq_or_imp]
    by_cases hb : b > 0
    · simp only [hb, if_true, true_iff]
      exact Or.inl (by omega)
    · have : b = 0 := by omega
      simp [this, ih]

end AnchorUtilities

namespace AnchorUtilities

/-- C12: decoding undoes encoding: for a 16-byte identifier `u` and any
destination identifier, `hexStringToUuid` applied to `uuidToHexString u`
returns `true` and leaves exactly the bytes of `u` in the destination. -/
theorem hexStringToUuid_uuidToHexString (u dest : XrUuidEXT) (hu : IsUuid u)
    (hdest : IsUuid dest) :
    hexStringToUuid (uuidToHexString u) dest = some (true, u) := by
  obtain ⟨hlen, hbytes⟩ := hu
  have htake : u.data.take XR_UUID_SIZE_EXT = u.data := by
    rw [← hlen, List.take_length]
  have hloop := hexStringToUuidLoop_bin2hex u.data hbytes XR_UUID_SIZE_EXT 0 dest.data
    (by rw [hlen]; rfl) (by rw [hdest.1, hlen])
  simp only [Nat.mul_zero, List.take_zero, List.drop_zero, List.nil_append] at hloop
  unfold hexStringToUuid uuidToHexString
  rw [htake, if_neg (by rw [bin2hex_length, hlen]; decide), hloop]

theorem hexStringToUuid_uuidToHexString_witness :
    IsUuid ⟨[0, 17, 34, 51, 68, 85, 102, 119, 136, 153, 170, 187, 204, 221, 238, 255]⟩ ∧
    IsUuid ⟨[7, 7, 7, 7, 7, 7, 7, 7, 7, 7, 7, 7, 7, 7, 7, 7]⟩ ∧
    hexStringToUuid
      (uuidToHexString
        ⟨[0, 17, 34, 51, 68, 85, 102, 119, 136, 153, 170, 187, 204, 221, 238, 255]⟩)
      ⟨[7, 7, 7, 7, 7, 7, 7, 7, 7, 7, 7, 7, 7, 7, 7, 7]⟩ =
      some (true,
        ⟨[0, 17, 34, 51, 68, 85, 102, 119, 136, 153, 170, 187, 204, 221, 238, 255]⟩) :=
  ⟨by decide, by decide, hexStringToUuid_uuidToHexString _ _ (by decide) (by decide)⟩

/-- C13: for a sequence of `n` bytes `bin2hex` returns `2 * n` characters, each
one of `0`-`9`, `A`-`F`; characters `2 * i` and `2 * i + 1` are the digits of
the high and the low nibble of byte `i`; so `uuidToHexString` returns 32
characters for every identifier. -/
theorem bin2hex_digits (src : List Nat) (hb : ∀ b ∈ src, b < 256) :
    (bin2hex src).length = 2 * src.length ∧
    (∀ c ∈ bin2hex src, c ∈ hexTable) ∧
    (∀ i b, src[i]? = some b →
      (bin2hex src)[2 * i]? = some (hexAt (b / 16)) ∧
      (bin2hex src)[2 * i + 1]? = some (hexAt (b % 16))) ∧
    (∀ u : XrUuidEXT, IsUuid u → (uuidToHexString u).length = 32) := by
  have hpair : ∀ i b, src[i]? = some b →
      (bin2hex src)[2 * i]? = some (hexAt (b / 16)) ∧
      (bin2hex src)[2 * i + 1]? = some (hexAt (b % 16)) := by
    intro i b hi
    have hsub := bin2hex_substr src i b hi
    have hbyte : b < 256 := hb b (List.getElem?_mem hi)
    have h1 : b >>> 4 = b / 16 := by rw [Nat.shiftRight_eq_div_pow]
    have h2 : b &&& 0xf = b % 16 := Nat.and_pow_two_sub_one_eq_mod b 4
    rw [h1, h2] at hsub
    have g0 : (((bin2hex src).drop (2 * i)).take 2)[0]? = some (hexAt (b / 16)) := by
      rw [hsub]
      rfl
    have g1 : (((bin2hex src).drop (2 * i)).take 2)[1]? = some (hexAt (b % 16)) := by
      rw [hsub]
      rfl
    rw [List.getElem?_take, if_pos (by decide), List.getElem?_drop] at g0 g1
    exact ⟨g0, g1⟩
  refine ⟨bin2hex_length src, ?_, hpair, ?_⟩
  · intro c hc
    obtain ⟨k, hk, rfl⟩ := List.getElem_of_mem hc
    rw [bin2hex_length] at hk
    have hi : k / 2 < src.length := by omega
    obtain ⟨p0, p1⟩ := hpair (k / 2) src[k / 2] (List.getElem?_eq_getElem hi)
    have hbyte : src[k / 2] < 256 := hb _ (List.getElem_mem hi)
    have hk' : k < (bin2hex src).length := by rw [bin2hex_length]; exact hk
    rcases Nat.mod_two_eq_zero_or_one k with hpar | hpar
    · have hk2 : 2 * (k / 2) = k := by omega
      rw [hk2, List.getElem?_eq_getElem hk'] at p0
      rw [Option.some.inj p0]
      exact (hexAt_facts _ (by omega)).2.2.2.2
    · have hk2 : 2 * (k / 2) + 1 = k := by omega
      rw [hk2, List.getElem?_eq_getElem hk'] at p1
      rw [Option.some.inj p1]
      exact (hexAt_facts _ (by omega)).2.2.2.2
  · intro u hu
    unfold uuidToHexString
    rw [bin2hex_length, List.length_take, hu.1]
    rfl

theorem bin2hex_digits_witness :
    (∀ b ∈ ([0, 255, 16, 171] : List Nat), b < 256) ∧
    (bin2hex [0, 255, 16, 171]).length = 2 * ([0, 255, 16, 171] : List Nat).length ∧
    (∀ c ∈ bin2hex [0, 255, 16, 171], c ∈ hexTable) ∧
    (∀ i b, ([0, 255, 16, 171] : List Nat)[i]? = some b →
      (bin2hex [0, 255, 16, 171])[2 * i]? = some (hexAt (b / 16)) ∧
      (bin2hex [0, 255, 16, 171])[2 * i + 1]? = some (hexAt (b % 16))) ∧
    (∀ u : XrUuidEXT, IsUuid u → (uuidToHexString u).length = 32) :=
  ⟨by decide, bin2hex_digits [0, 255, 16, 171] (by decide)⟩

/-- C14: for a string whose length is not 32, `hexStringToUuid` returns `false`
and leaves the destination identifier as it was. -/
theorem hexStringToUuid_wrong_length (hex : List Char) (uuid : XrUuidEXT)
    (h : hex.length ≠ 32) : hexStringToUuid hex uuid = some (false, uuid) := by
  have h' : hex.length ≠ XR_UUID_SIZE_EXT * 2 := h
  unfold hexStringToUuid
  rw [if_pos h']

theorem hexStringToUuid_wrong_length_witness :
    (['0', '1', 'A'] : List Char).length ≠ 32 ∧
    hexStringToUuid ['0', '1', 'A'] ⟨[7, 7, 7, 7, 7, 7, 7, 7, 7, 7, 7, 7, 7, 7, 7, 7]⟩ =
      some (false, ⟨[7, 7, 7, 7, 7, 7, 7, 7, 7, 7, 7, 7, 7, 7, 7, 7]⟩) :=
  ⟨by decide, hexStringToUuid_wrong_length _ _ (by decide)⟩

/-- C15: for a 16-byte identifier `u`, `isValid u` is `true` exactly when one
of its bytes is not zero, and `false` exactly for the all-zero identifier. -/
theorem isValid_iff_nonzero (u : XrUuidEXT) (hu : IsUuid u) :
    (isValid u = true ↔ ∃ b ∈ u.data, b ≠ 0) ∧
    (isValid u = false ↔ u.data = List.replicate 16 0) := by
  have htake : u.data.take XR_UUID_SIZE_EXT = u.data := by
    rw [← hu.1, List.take_length]
  have h1 : isValid u = true ↔ ∃ b ∈ u.data, b ≠ 0 := by
    unfold isValid
    rw [htake]
    exact isValidLoop_iff u.data
  refine ⟨h1, ?_⟩
  rw [← Bool.not_eq_true, h1]
  constructor
  · intro h
    rw [List.eq_replicate_iff]
    refine ⟨hu.1, ?_⟩
    intro b hb
    by_contra hne
    exact h ⟨b, hb, hne⟩
  · rintro h ⟨b, hb, hne⟩
    rw [h] at hb
    exact hne (List.eq_of_mem_replicate hb)

theorem isValid_iff_nonzero_witness :
    IsUuid ⟨[0, 0, 0, 0, 0, 0, 0, 0, 0, 0, 0, 0, 0, 0, 0, 1]⟩ ∧
    ((isValid ⟨[0, 0, 0, 0, 0, 0, 0, 0, 0, 0, 0, 0, 0, 0, 0, 1]⟩ = true ↔
      ∃ b ∈ (⟨[0, 0, 0, 0, 0, 0, 0, 0, 0, 0, 0, 0, 0, 0, 0, 1]⟩ : XrUuidEXT).data, b ≠ 0) ∧
    (isValid ⟨[0, 0, 0, 0, 0, 0, 0, 0, 0, 0, 0, 0, 0, 0, 0, 1]⟩ = false ↔
      (⟨[0, 0, 0, 0, 0, 0, 0, 0, 0, 0, 0, 0, 0, 0, 0, 1]⟩ : XrUuidEXT).data =
        List.replicate 16 0)) :=
  ⟨by decide, isValid_iff_nonzero _ (by decide)⟩

end AnchorUtilities
